import Mathlib

/-!
# Verification of the genosha object-graph marshalling engine

Shallow embedding of `genosha/__init__.py` (classes `GenoshaEncoder` and
`GenoshaDecoder`) and of the JSON string escape hooks of `genosha/JSON.py`.

Modelling conventions:

* Python object identity is made explicit through a heap: a `PValue` is either
  a primitive or a reference `ref a` to an address `a` in a heap `Heap`
  (a list of `PObj`, addresses are indices).  `id(obj)` of the source becomes
  the address.
* Python text is modelled as `List Char`; Python unbounded ints as `Int`/`Nat`.
* The scoped type tags produced by `GenoshaEncoder.find_type`
  (`"module/Outer.Inner"` strings) and parsed back by
  `GenoshaDecoder.resolve_type` are modelled structurally by the inductive
  `Tag`; the module/scope environment is modelled as a closed world in which a
  structured user tag always resolves to the class it names, and classes and
  functions are identified by their scoped name.  Visibility of a class or
  function to `find_definition` is recorded in a `visible` flag on the heap
  object.
* The modelled subset of marshal-able kinds: lists, tuples, dicts, new-style
  instances (`__dict__` based), plain module-level functions, class/function
  objects appearing as values, `complex` numbers (components restricted to
  integer-valued floats), `collections.defaultdict` (its entries and its
  `default_factory` attribute), plus the unsupported kinds needed by the
  error paths (generators, old-style instances, lambdas, closures, invisible
  functions/classes).  `set`, `frozenset`, `deque`, modules, bound instance
  methods, `__slots__` instances and the disabled `USE_GC_REDUCTION` path
  (`immediate` is always `False`) are outside the model; floating point
  values other than the integer-valued complex components are excluded.
* Encoding and decoding recursions are driven by explicit fuel; running out of
  fuel is a distinguished error, and the real executions are recovered at any
  sufficiently large fuel.
-/

/-- Python scalar primitives handled by `GenoshaEncoder.primitives`
(int, bool, str, None; floats excluded from the model). -/
inductive Prim where
  | pint (n : Int)
  | pbool (b : Bool)
  | pstr (s : List Char)
  | pnone
  deriving DecidableEq, Repr

/-- A Python value: a primitive, or a reference to a heap object
(object identity = heap address). -/
inductive PValue where
  | prim (p : Prim)
  | ref (a : Nat)
  deriving DecidableEq, Repr

/-- Structured form of the scoped type tags `"module/Outer.Inner"` built by
`GenoshaEncoder.find_type` and consumed by `GenoshaDecoder.resolve_type`.
Builtin classes `list`, `tuple`, `dict` get dedicated constructors
(their tags are `"__builtin__/list"` etc.); user classes and functions carry
their module name and scope path. -/
inductive Tag where
  | tlist
  | ttuple
  | tdict
  /-- the tag of `complex` (`"__builtin__/complex"`) -/
  | tcomplex
  /-- the tag of `collections.defaultdict` -/
  | tdefaultdict
  | tuser (mod : List Char) (path : List (List Char))
  deriving DecidableEq, Repr

/-- A Python heap object of the modelled kinds. -/
inductive PObj where
  /-- a `list` object -/
  | plist (xs : List PValue)
  /-- a `tuple` object -/
  | ptuple (xs : List PValue)
  /-- a `dict` object (insertion-ordered association list) -/
  | pdict (kvs : List (PValue × PValue))
  /-- a new-style class instance: class scoped name, whether
  `find_definition` can locate the class, and the instance `__dict__` -/
  | pinst (mod : List Char) (path : List (List Char)) (visible : Bool)
      (fields : List (List Char × PValue))
  /-- a plain function object: `__name__`, `__module__`, scope path,
  whether `find_definition` can locate it, and whether it has a
  `func_closure` -/
  | pfunc (name : List Char) (mod : List Char) (path : List (List Char))
      (visible : Bool) (hasClosure : Bool)
  /-- a class or function *object used as a value* (the target of
  `marshal_type`), identified by its tag -/
  | pglobal (t : Tag) (visible : Bool)
  /-- a `complex` number (`complex` is in `builtin_types`); the model
  restricts the two float components to integer values -/
  | pcomplex (re im : Int)
  /-- a `collections.defaultdict`: its `default_factory` attribute and its
  entries (`defaultdict` is in `builtin_types`, dispatched before its base
  `dict` in the MRO loop) -/
  | pdefaultdict (factory : PValue) (kvs : List (PValue × PValue))
  /-- a generator object (`types.GeneratorType`, in `unsupported`) -/
  | pgen
  /-- an old-style class instance (`types.InstanceType`, in `unsupported`) -/
  | pold
  deriving DecidableEq, Repr

/-- The heap: addresses are indices. -/
abbrev Heap := List PObj

/-- Marshalled/wire values: what `GenoshaEncoder` emits and
`GenoshaDecoder._unmarshal` dispatches on.  `wobj` is a `GenoshaObject`
(slots `type`, `oid`, `items`, `fields`; the `attribute`/`instance` slots used
only by `marshal_instancemethod` are outside the model), `ref` is a
`GenoshaReference`. -/
inductive WValue where
  | prim (p : Prim)
  | ref (oid : Nat)
  | wlist (xs : List WValue)
  | wdict (kvs : List (WValue × WValue))
  | wobj (type : Option Tag) (oid : Option Nat) (items : Option WValue)
      (fields : Option (List (WValue × WValue)))

/-- `SENTINEL = "@genosha:1@"` -/
def SENTINEL : List Char := "@genosha:1@".toList

namespace GenoshaEncoder

/-- Errors raised by the encoder (`raise TypeError, ...` sites), plus
fuel exhaustion of the model. -/
inductive EncErr where
  /-- `"lambdas are not supported."` -/
  | lambdasUnsupported
  /-- `"closures are not supported."` -/
  | closuresUnsupported
  /-- `"'%s' is an unsupported type."` (carries the type name) -/
  | unsupportedType (name : List Char)
  /-- `"%s.%s cannot be resolved. Nested scopes are not supported."`
  (carries `__module__` and `__name__`) -/
  | cannotResolve (mod : List Char) (name : List Char)
  /-- a situation unreachable from Python states (e.g. a dangling input
  address) -/
  | internalError
  /-- model ran out of fuel -/
  | outOfFuel
  deriving DecidableEq, Repr

/-- Defunctionalised form of the `items` thunks passed to `marshal_object`
(the lambdas built in `marshal_list` / `marshal_tuple` / `marshal_dict`):
they capture the object's contents and marshal them when forced by
`_object`.  `inone` is Python's `items = None`. -/
inductive IThunk where
  | inone
  | iseq (xs : List PValue)
  | ikvs (kvs : List (PValue × PValue))
  /-- the `lambda : str(obj)[1:-1]` thunk of `marshal_complex`: the items
  slot is the already-stripped repr string, no recursive marshalling -/
  | istr (cs : List Char)
  deriving DecidableEq, Repr

/-- An entry of the `self.deferred` queue: Python stores
`(obj, out, items, attributes, is_instance)`; `out` is shared with
`self.objects`, modelled by the index `idx` of the record in the output list.
`attributes` (`attrs`, `None` modelled as `[]`) is passed only by
`marshal_defaultdict`. -/
structure DeferItem where
  addr : Nat
  idx : Nat
  thunk : IThunk
  attrs : List (List Char × PValue)
  isInstance : Bool
  deriving DecidableEq, Repr

/-- The mutable state of one `GenoshaEncoder.marshal` session. -/
structure EncState where
  /-- `self.objects`: the output record list (each entry a `wobj`) -/
  objects : List WValue
  /-- `self.oids`: a write-only set, mirrored as the list of added oids -/
  oids : List Nat
  /-- `self.python_ids`: insertion-ordered map `id(obj) -> oid` -/
  pythonIds : List (Nat × Nat)
  /-- `self.deferred` -/
  deferred : List DeferItem

/-- The initial state set up at the top of `marshal`. -/
def initState : EncState := ⟨[], [], [], []⟩

/-- `self._id(obj)`: `self.python_ids.setdefault(id(obj), len(self.python_ids) + 1)`. -/
def _id (a : Nat) (s : EncState) : Nat × EncState :=
  match s.pythonIds.lookup a with
  | some i => (i, s)
  | none =>
    let i := s.pythonIds.length + 1
    (i, { s with pythonIds := s.pythonIds ++ [(a, i)] })

/-- Type of the recursive marshalling function threaded through the
helpers (`self._marshal` at one less fuel). -/
abbrev EncRec := PValue → EncState → Except EncErr (WValue × EncState)

/-- Marshal each element of a list in order (the generator inside
`self._items(obj, list, ...)` with `simple = True`). -/
def mapEnc (rec : EncRec) : List PValue → EncState →
    Except EncErr (List WValue × EncState)
  | [], s => .ok ([], s)
  | x :: xs, s => do
    let (g, s) ← rec x s
    let (gs, s) ← mapEnc rec xs s
    .ok (g :: gs, s)

/-- Marshal each key/value pair of a dict in order (the generator inside
`self._items(obj, dict, dict.items, simple = False)`; the key is marshalled
before the value). -/
def mapEncPairs (rec : EncRec) : List (PValue × PValue) → EncState →
    Except EncErr (List (WValue × WValue) × EncState)
  | [], s => .ok ([], s)
  | (k, v) :: kvs, s => do
    let (gk, s) ← rec k s
    let (gv, s) ← rec v s
    let (gkvs, s) ← mapEncPairs rec kvs s
    .ok ((gk, gv) :: gkvs, s)

/-- Force an items thunk: `out.items = items()`. -/
def runThunk (rec : EncRec) : IThunk → EncState →
    Except EncErr (Option WValue × EncState)
  | .inone, s => .ok (none, s)
  | .iseq xs, s => do
    let (gs, s) ← mapEnc rec xs s
    .ok (some (.wlist gs), s)
  | .ikvs kvs, s => do
    let (gkvs, s) ← mapEncPairs rec kvs s
    .ok (some (.wdict gkvs), s)
  | .istr cs, s => .ok (some (.prim (.pstr cs)), s)

/-- `hasattr(v, '__call__')` on a modelled value: functions and
class/function objects are callable. -/
def isCallable (h : Heap) : PValue → Bool
  | .prim _ => false
  | .ref a =>
    match h[a]? with
    | some (.pfunc _ _ _ _ _) => true
    | some (.pglobal _ _) => true
    | _ => false

/-- The `__dict__` of an object as seen by `_object` (only instances have
one among the modelled kinds; builtin containers have neither `__dict__`
nor `__slots__`, giving the empty dict). -/
def pyFields (h : Heap) (a : Nat) : List (List Char × PValue) :=
  match h[a]? with
  | some (.pinst _ _ _ fs) => fs
  | _ => []

/-- Does the attribute name start with `"__"`? (`item[0].startswith('__')`). -/
def dunder : List Char → Bool
  | '_' :: '_' :: _ => true
  | _ => false

/-- The attribute filter of `_object`:
`(not item[0].startswith('__')) and not hasattr(item[1], '__call__')`. -/
def filteredFields (h : Heap) (a : Nat) : List (List Char × PValue) :=
  (pyFields h a).filter fun kv => !dunder kv.1 && !isCallable h kv.2

/-- `self._object(obj, out, items, attributes, is_instance)`: force the items
thunk, build the filtered field dict, apply
`if attributes : fields.update( attributes )` (an empty/absent attributes
dict is falsy and skipped; the update is modelled as an append, the
occurring key sets being disjoint), and (for instances) marshal the result.
Returns the `items` and `fields` slots to put on the record. -/
def _object (h : Heap) (rec : EncRec) (a : Nat) (thunk : IThunk)
    (attrs : List (List Char × PValue)) (isInstance : Bool) (s : EncState) :
    Except EncErr ((Option WValue × Option (List (WValue × WValue))) × EncState) := do
  let (it, s) ← runThunk rec thunk s
  let fields := filteredFields h a
  let fields := if attrs.isEmpty then fields else fields ++ attrs
  if isInstance then
    let (gfs, s) ← mapEncPairs rec (fields.map fun kv => (.prim (.pstr kv.1), kv.2)) s
    .ok ((it, some gfs), s)
  else
    .ok ((it, none), s)

/-- `self.find_type(obj.__class__)` for the `is_instance` case of
`marshal_object` (the class of a list/tuple/dict/instance). -/
def findTypeOfClass (h : Heap) (a : Nat) : Except EncErr Tag :=
  match h[a]? with
  | some (.plist _) => .ok .tlist
  | some (.ptuple _) => .ok .ttuple
  | some (.pdict _) => .ok .tdict
  | some (.pinst m p vis _) =>
    if vis then .ok (.tuser m p)
    else .error (.cannotResolve m (p.getLastD []))
  | some (.pcomplex _ _) => .ok .tcomplex
  | some (.pdefaultdict _ _) => .ok .tdefaultdict
  | _ => .error .internalError

/-- A record with only the `type` and `oid` slots set
(`out = self.object_hook(type = typename)` followed by `out.oid = oid`). -/
def mkHeader (t : Tag) (oid : Nat) : WValue := .wobj (some t) (some oid) none none

/-- Install the computed `items`/`fields` slots on the record at index
`idx` of the output list (Python mutates the shared `out` object). -/
def setRecord (objs : List WValue) (idx : Nat) (it : Option WValue)
    (fl : Option (List (WValue × WValue))) : List WValue :=
  match objs[idx]? with
  | some (.wobj t o _ _) => objs.set idx (.wobj t o it fl)
  | _ => objs

/-- The typename normalisation at the top of `marshal_object`:
`if not isinstance(typename, basestring): typename = self.find_type(typename or obj.__class__)`
(a passed tag is kept; otherwise the object's class is resolved). -/
def resolveTagArg (h : Heap) (a : Nat) : Option Tag → Except EncErr Tag
  | some t => .ok t
  | none => findTypeOfClass h a

/-- `self.marshal_object(obj, items, immutable, typename, attributes, root)`.
`USE_GC_REDUCTION` is `False`, so `immediate` is always false: an oid is
always assigned and a reference always returned.  Mutable objects are
deferred (record header appended immediately); immutable ones are populated
inline and their record appended afterwards. -/
def marshal_object (h : Heap) (rec : EncRec) (a : Nat) (thunk : IThunk)
    (immutable : Bool) (typename : Option Tag)
    (attrs : List (List Char × PValue)) (_root : Bool) (s : EncState) :
    Except EncErr (WValue × EncState) := do
  let isInstance := typename.isNone
  let tag ← resolveTagArg h a typename
  let (oid, s) := _id a s
  let s := { s with oids := s.oids ++ [oid] }
  if immutable then
    let ((it, fl), s) ← _object h rec a thunk attrs isInstance s
    let s := { s with objects := s.objects ++ [.wobj (some tag) (some oid) it fl] }
    .ok (.ref oid, s)
  else
    let s := { s with
      deferred := s.deferred ++ [⟨a, s.objects.length, thunk, attrs, isInstance⟩],
      objects := s.objects ++ [mkHeader tag oid] }
    .ok (.ref oid, s)

/-- `self.marshal_list(obj, root)`. -/
def marshal_list (h : Heap) (rec : EncRec) (a : Nat) (xs : List PValue)
    (root : Bool) (s : EncState) : Except EncErr (WValue × EncState) :=
  marshal_object h rec a (.iseq xs) false none [] root s

/-- `self.marshal_tuple(obj, root)` (`immutable = True`). -/
def marshal_tuple (h : Heap) (rec : EncRec) (a : Nat) (xs : List PValue)
    (root : Bool) (s : EncState) : Except EncErr (WValue × EncState) :=
  marshal_object h rec a (.iseq xs) true none [] root s

/-- `self.marshal_dict(obj, root)`. -/
def marshal_dict (h : Heap) (rec : EncRec) (a : Nat)
    (kvs : List (PValue × PValue)) (root : Bool) (s : EncState) :
    Except EncErr (WValue × EncState) :=
  marshal_object h rec a (.ikvs kvs) false none [] root s

/-- `str(obj)` for a complex number with integer-valued components: Python
prints `'10j'` when the real part is zero and `'(20+3j)'` / `'(20-3j)'`
otherwise (the sign of a negative imaginary part comes from its own repr). -/
def pyComplexStr (re im : Int) : List Char :=
  if re = 0 then (toString im).toList ++ ['j']
  else '(' :: (toString re).toList ++
    (if im < 0 then [] else ['+']) ++ (toString im).toList ++ ['j', ')']

/-- `self.marshal_complex(obj, root)`:
`marshal_object(obj, root = root, items = lambda : str(obj)[1:-1])` — the
items slot holds the repr *string* with its first and last characters
removed; `immutable` is not passed, so the record is deferred like any
mutable object. -/
def marshal_complex (h : Heap) (rec : EncRec) (a : Nat) (re im : Int)
    (root : Bool) (s : EncState) : Except EncErr (WValue × EncState) :=
  marshal_object h rec a (.istr (((pyComplexStr re im).drop 1).dropLast))
    false none [] root s

/-- `"default_factory"` -/
def defaultFactoryName : List Char := "default_factory".toList

/-- `self.marshal_defaultdict(obj, root)`: dict-style items plus
`attributes = { 'default_factory' : obj.default_factory }` — the callable
factory is passed straight past the `_object` attribute filter. -/
def marshal_defaultdict (h : Heap) (rec : EncRec) (a : Nat)
    (factory : PValue) (kvs : List (PValue × PValue)) (root : Bool)
    (s : EncState) : Except EncErr (WValue × EncState) :=
  marshal_object h rec a (.ikvs kvs) false none
    [(defaultFactoryName, factory)] root s

/-- `"<lambda>"` -/
def lambdaName : List Char := "<lambda>".toList

/-- `self.marshal_function(obj, root)`: reject lambdas and closures, then
resolve the function's scoped name (`find_type` raises for invisible
functions, so the `if not st` branch of the source is unreachable). -/
def marshal_function (h : Heap) (rec : EncRec) (a : Nat) (name : List Char)
    (mod : List Char) (path : List (List Char)) (visible hasClosure : Bool)
    (root : Bool) (s : EncState) : Except EncErr (WValue × EncState) := do
  if name = lambdaName then
    .error .lambdasUnsupported
  else if hasClosure then
    .error .closuresUnsupported
  else if visible then
    marshal_object h rec a .inone false (some (.tuser mod path)) [] root s
  else
    .error (.cannotResolve mod name)

/-- `self.find_type` applied to a class/function *value* (the
`marshal_type` path). -/
def findTypeOfValue (t : Tag) (visible : Bool) : Except EncErr Tag :=
  match t with
  | .tuser m p =>
    if visible then .ok (.tuser m p)
    else .error (.cannotResolve m (p.getLastD []))
  | t => .ok t

/-- `self.marshal_type(obj, root)`: `marshal_object(obj, typename = obj)`
(so `is_instance` is false and `find_type` runs on the class value). -/
def marshal_type (h : Heap) (rec : EncRec) (a : Nat) (t : Tag)
    (visible : Bool) (root : Bool) (s : EncState) :
    Except EncErr (WValue × EncState) := do
  let tag ← findTypeOfValue t visible
  marshal_object h rec a .inone false (some tag) [] root s

/-- `"generator"` (`type(obj).__name__` for a generator) -/
def generatorName : List Char := "generator".toList

/-- `"instance"` (`type(obj).__name__` for an old-style instance) -/
def instanceName : List Char := "instance".toList

/-- `self._marshal(obj, root)`: return a reference for already-visited
objects, pass primitives through, reject unsupported types, and dispatch on
the first builtin base class in the MRO (a plain new-style instance reaches
`object` and dispatches to `marshal_object`). -/
def _marshal (h : Heap) (rec : EncRec) (v : PValue) (root : Bool)
    (s : EncState) : Except EncErr (WValue × EncState) :=
  match v with
  | .prim p => .ok (.prim p, s)
  | .ref a =>
    match s.pythonIds.lookup a with
    | some i => .ok (.ref i, s)
    | none =>
      match h[a]? with
      | none => .error .internalError
      | some (.pgen) => .error (.unsupportedType generatorName)
      | some (.pold) => .error (.unsupportedType instanceName)
      | some (.plist xs) => marshal_list h rec a xs root s
      | some (.ptuple xs) => marshal_tuple h rec a xs root s
      | some (.pdict kvs) => marshal_dict h rec a kvs root s
      | some (.pfunc name mod path vis clos) =>
        marshal_function h rec a name mod path vis clos root s
      | some (.pglobal t vis) => marshal_type h rec a t vis root s
      | some (.pcomplex re im) => marshal_complex h rec a re im root s
      | some (.pdefaultdict f kvs) => marshal_defaultdict h rec a f kvs root s
      | some (.pinst _ _ _ _) => marshal_object h rec a .inone false none [] root s

/-- The fueled tying of `_marshal`'s recursion: children are marshalled at
one less fuel with `root = False`. -/
def marshalF (h : Heap) : Nat → PValue → Bool → EncState →
    Except EncErr (WValue × EncState)
  | 0, _, _, _ => .error .outOfFuel
  | n + 1, v, root, s =>
    _marshal h (fun v' s' => marshalF h n v' false s') v root s

/-- The drain loop `while len(self.deferred) > 0: self._object(*self.deferred.popleft())`,
writing the computed slots back into the shared record. -/
def drainF (h : Heap) (recFuel : Nat) : Nat → EncState → Except EncErr EncState
  | 0, _ => .error .outOfFuel
  | n + 1, s =>
    match s.deferred with
    | [] => .ok s
    | d :: rest => do
      let s := { s with deferred := rest }
      let ((it, fl), s) ← _object h (fun v' s' => marshalF h recFuel v' false s')
        d.addr d.thunk d.attrs d.isInstance s
      let s := { s with objects := setRecord s.objects d.idx it fl }
      drainF h recFuel n s

/-- `GenoshaEncoder.marshal(obj)`: fresh state, marshal the root, drain the
deferred queue, and return `[SENTINEL, self.objects, payload]`
(the gc-disabling bracket has no observable effect in the model). -/
def marshal (h : Heap) (fuel : Nat) (v : PValue) :
    Except EncErr (List WValue) := do
  let (payload, s) ← marshalF h fuel v true initState
  let s ← drainF h fuel fuel s
  .ok [.prim (.pstr SENTINEL), .wlist s.objects, payload]

end GenoshaEncoder

namespace GenoshaDecoder

/-- Errors raised by the decoder (`ValueError` for malformed input and
dangling references, `AttributeError`/`TypeError` surrogates for the
host-language failures of the source), plus fuel exhaustion of the model. -/
inductive DecErr where
  /-- `ValueError, "Malformed input."` (also the misspelt
  `"Malfomed input."` raised for an incorrect sentinel) -/
  | malformed
  /-- `ValueError, "Forward-references to objects not allowed: <oid>"` -/
  | danglingReference (oid : Nat)
  /-- a Python `AttributeError` (missing record slot, or `setattr` on an
  object without `__dict__` and `__slots__`) -/
  | attributeError
  /-- a Python `TypeError` (e.g. iterating a non-iterable) -/
  | typeError
  /-- a Python `ValueError` raised outside the modelled message sites
  (`complex()` applied to a malformed string) -/
  | valueError
  /-- a situation unreachable from the modelled record shapes -/
  | internalError
  /-- model ran out of fuel -/
  | outOfFuel
  deriving DecidableEq, Repr

/-- A deferred population entry of `self.to_populate`: Python stores
`(obj, data)`; the shell `obj` is modelled by its heap address, and of
`data` only the `items`/`fields` slots are used by `populate_object`. -/
structure PopItem where
  addr : Nat
  pitems : Option WValue
  pfields : Option (List (WValue × WValue))

/-- The mutable state of one `GenoshaDecoder.unmarshal` session, plus the
decoded heap being built. -/
structure DecState where
  /-- the decoded object heap (allocation appends) -/
  heap : List PObj
  /-- `self.objects`: map oid -> decoded value; modelled as an association
  list with prepend-overwrite semantics (`List.lookup` finds the most
  recent binding, mirroring Python dict assignment) -/
  objects : List (Nat × PValue)
  /-- `self.to_populate` -/
  toPopulate : List PopItem

/-- The state set up at the top of `unmarshal`. -/
def initState : DecState := ⟨[], [], []⟩

/-- Allocate a fresh object on the decoded heap (`typename.__new__` and the
fresh containers built by `_list`/`_dict`). -/
def alloc (o : PObj) (s : DecState) : Nat × DecState :=
  (s.heap.length, { s with heap := s.heap ++ [o] })

/-- Type of the recursive `self._unmarshal` threaded through the helpers. -/
abbrev DecRec := WValue → DecState → Except DecErr (PValue × DecState)

/-- Decode each element of a list in order (the comprehension in `_list`). -/
def mapDec (rec : DecRec) : List WValue → DecState →
    Except DecErr (List PValue × DecState)
  | [], s => .ok ([], s)
  | w :: ws, s => do
    let (v, s) ← rec w s
    let (vs, s) ← mapDec rec ws s
    .ok (v :: vs, s)

/-- Decode each key/value pair of a dict in order, key before value
(the generator in `_dict`). -/
def mapDecPairs (rec : DecRec) : List (WValue × WValue) → DecState →
    Except DecErr (List (PValue × PValue) × DecState)
  | [], s => .ok ([], s)
  | (kw, vw) :: kvs, s => do
    let (k, s) ← rec kw s
    let (v, s) ← rec vw s
    let (ps, s) ← mapDecPairs rec kvs s
    .ok ((k, v) :: ps, s)

/-- Python iteration over a decoded value, as used by
`tuple.__new__(tuple, x)` and `list.extend(obj, x)`: sequences yield their
elements, dicts their keys, strings their one-character substrings;
everything else raises `TypeError`. -/
def iterElems (s : DecState) : PValue → Except DecErr (List PValue)
  | .prim (.pstr cs) => .ok (cs.map fun c => .prim (.pstr [c]))
  | .prim _ => .error .typeError
  | .ref a =>
    match s.heap[a]? with
    | some (.plist xs) => .ok xs
    | some (.ptuple xs) => .ok xs
    | some (.pdict kvs) => .ok (kvs.map Prod.fst)
    | _ => .error .typeError

/-- The pair list taken by `dict.update(obj, x)`: in the model only a
decoded dict is accepted (the only shape the encoder produces there). -/
def updatePairs (s : DecState) : PValue → Except DecErr (List (PValue × PValue))
  | .ref a =>
    match s.heap[a]? with
    | some (.pdict kvs) => .ok kvs
    | _ => .error .typeError
  | _ => .error .typeError

/-- The items half of `self.populate_object(obj, data)`: apply the first
matching builder of `self.builders` along the MRO to `data.items`
(`list.extend`, `dict.update`, and `dict.update` again for `defaultdict`) —
a class with no builder base silently skips its items, leaving them
undecoded. -/
def populateItems (rec : DecRec) (a : Nat) (it? : Option WValue)
    (s : DecState) : Except DecErr DecState :=
  match it? with
  | none => .ok s
  | some iw =>
    match s.heap[a]? with
    | some (.plist xs) => do
      let (iv, s) ← rec iw s
      let es ← iterElems s iv
      .ok { s with heap := s.heap.set a (.plist (xs ++ es)) }
    | some (.pdict kvs) => do
      let (iv, s) ← rec iw s
      let ps ← updatePairs s iv
      .ok { s with heap := s.heap.set a (.pdict (kvs ++ ps)) }
    | some (.pdefaultdict f kvs) => do
      let (iv, s) ← rec iw s
      let ps ← updatePairs s iv
      .ok { s with heap := s.heap.set a (.pdefaultdict f (kvs ++ ps)) }
    | _ => .ok s

/-- `setattr(obj, key, value)` on a decoded cell without a `__dict__`:
among the modelled kinds only a `defaultdict` has a writable attribute,
its `default_factory`; any other assignment raises `AttributeError`
(a non-string name raises `TypeError`). -/
def pySetattr (a : Nat) (k v : PValue) (s : DecState) :
    Except DecErr DecState :=
  match s.heap[a]? with
  | some (.pdefaultdict _ kvs) =>
    match k with
    | .prim (.pstr n) =>
      if n = GenoshaEncoder.defaultFactoryName then
        .ok { s with heap := s.heap.set a (.pdefaultdict v kvs) }
      else .error .attributeError
    | _ => .error .typeError
  | _ => .error .attributeError

/-- The `__slots__`-style branch of the fields half of `populate_object`:
`for key, value in data.fields.items() :`
`setattr( obj, self._unmarshal( key ), self._unmarshal( value ) )` —
key and value are unmarshalled and assigned one pair at a time. -/
def setFieldsSlots (rec : DecRec) (a : Nat) :
    List (WValue × WValue) → DecState → Except DecErr DecState
  | [], s => .ok s
  | (kw, vw) :: rest, s => do
    let (k, s) ← rec kw s
    let (v, s) ← rec vw s
    let s ← pySetattr a k v s
    setFieldsSlots rec a rest s

/-- The fields half of `self.populate_object(obj, data)`: instances update
their `__dict__`; a `defaultdict` (no `__dict__`) goes through the
`setattr` loop, which accepts exactly its `default_factory`; other objects
with neither `__dict__` nor `__slots__` hit `setattr` and raise for a
non-empty field dict.  Non-string keys decoded into an instance `__dict__`
are dropped from the modelled attribute map (Python stores them but they
are not reachable as named attributes). -/
def populateFields (rec : DecRec) (a : Nat)
    (fl? : Option (List (WValue × WValue))) (s : DecState) :
    Except DecErr DecState :=
  match fl? with
  | none => .ok s
  | some fps =>
    match s.heap[a]? with
    | some (.pinst m p vis fs) => do
      let (ps, s) ← mapDecPairs rec fps s
      let (_, s) := alloc (.pdict ps) s
      let adds := ps.filterMap fun kv =>
        match kv.1 with
        | .prim (.pstr k) => some (k, kv.2)
        | _ => none
      .ok { s with heap := s.heap.set a (.pinst m p vis (fs ++ adds)) }
    | some (.pdefaultdict _ _) => setFieldsSlots rec a fps s
    | some _ =>
      match fps with
      | [] => .ok s
      | (kw, vw) :: _ => do
        let (_, s) ← rec kw s
        let (_, _) ← rec vw s
        .error .attributeError
    | none => .error .internalError

/-- `self.populate_object(obj, data)`: restore items, then fields. -/
def populate_object (rec : DecRec) (a : Nat) (it? : Option WValue)
    (fl? : Option (List (WValue × WValue))) (s : DecState) :
    Except DecErr DecState := do
  let s ← populateItems rec a it? s
  populateFields rec a fl? s

/-- `data.type` access at the top of `create_object`: a record without a
`type` slot (and, in the model, without the unmodelled `attribute` slot)
raises `AttributeError`. -/
def requireType : Option Tag → Except DecErr Tag
  | some t => .ok t
  | none => .error .attributeError

/-- An all-digit string as a number (`none` on empty or non-digit input). -/
def digitsNatAux : List Char → Nat → Option Nat
  | [], acc => some acc
  | c :: cs, acc =>
    if c.isDigit then digitsNatAux cs (acc * 10 + (c.toNat - '0'.toNat))
    else none

/-- An all-digit string as a number, requiring at least one digit. -/
def digitsNat : List Char → Option Nat
  | [] => none
  | cs => digitsNatAux cs 0

/-- An optionally signed integer literal. -/
def parseSignedInt : List Char → Option Int
  | '-' :: rest => (digitsNat rest).map fun n => -(n : Int)
  | '+' :: rest => (digitsNat rest).map fun n => (n : Int)
  | cs => (digitsNat cs).map fun n => (n : Int)

/-- The imaginary coefficient before a trailing `j`: Python reads a bare
(or bare-signed) `j` as coefficient `1`. -/
def parseImagInt : List Char → Option Int
  | [] => some 1
  | ['+'] => some 1
  | ['-'] => some (-1)
  | cs => parseSignedInt cs

/-- Index of the first `+`/`-` after the leading character (the sign
separating the real and imaginary parts). -/
def findInnerSign (cs : List Char) : Option Nat :=
  match cs with
  | [] => none
  | _ :: rest => (rest.findIdx? fun c => c == '+' || c == '-').map (· + 1)

/-- Python's `complex(<string>)` parser, restricted to the integer-component
forms `str(complex)[1:-1]` can produce: the empty string is malformed,
`"<int>"` is a pure real, `"<int>j"` a pure imaginary, and
`"<int>±<int>j"` a full complex number. -/
def pyComplexParse (cs : List Char) : Option (Int × Int) :=
  match findInnerSign cs with
  | some k =>
    if cs.getLast? = some 'j' then do
      let re ← parseSignedInt (cs.take k)
      let im ← parseImagInt ((cs.drop k).dropLast)
      pure (re, im)
    else none
  | none =>
    if cs.getLast? = some 'j' then
      (parseImagInt cs.dropLast).map fun im => ((0 : Int), im)
    else
      (parseSignedInt cs).map fun re => (re, (0 : Int))

/-- `complex.__new__(complex, x)` as used by the decoder's immutables
branch: a string argument is parsed by the complex constructor
(`ValueError` on a malformed string), anything else raises `TypeError`. -/
def pyComplexNew : PValue → Except DecErr (Int × Int)
  | .prim (.pstr cs) =>
    match pyComplexParse cs with
    | some c => .ok c
    | none => .error .valueError
  | _ => .error .typeError

/-- `typename.__new__(typename)`: the empty shell for a mutable class
(`ttuple` and `tcomplex` are unreachable here, they go through the
immutables branch; `defaultdict.__new__` leaves `default_factory` as
`None`). -/
def shellFor : Tag → Except DecErr PObj
  | .tlist => .ok (.plist [])
  | .tdict => .ok (.pdict [])
  | .tdefaultdict => .ok (.pdefaultdict (.prim .pnone) [])
  | .tuser m p => .ok (.pinst m p true [])
  | .ttuple => .error .internalError
  | .tcomplex => .error .internalError

/-- The value-construction part of `create_object`: a raw type for a
record with neither items nor fields, an immutable (`tuple` or `complex`,
per `self.immutables` intersected with the MRO) constructed in one shot,
or an empty shell (populated immediately when the record has no oid,
deferred onto `self.to_populate` otherwise). -/
def create_value (rec : DecRec) (ty : Tag) (oid? : Option Nat)
    (it? : Option WValue) (fl? : Option (List (WValue × WValue)))
    (s : DecState) : Except DecErr (PValue × DecState) :=
  if it?.isNone && fl?.isNone then
    let (a, s) := alloc (.pglobal ty true) s
    Except.ok (PValue.ref a, s)
  else if ty = .ttuple then
    match it? with
    | none => Except.error DecErr.attributeError
    | some iw => do
      let (iv, s) ← rec iw s
      let xs ← iterElems s iv
      let (a, s) := alloc (.ptuple xs) s
      Except.ok (PValue.ref a, s)
  else if ty = .tcomplex then
    match it? with
    | none => Except.error DecErr.attributeError
    | some iw => do
      let (iv, s) ← rec iw s
      let c ← pyComplexNew iv
      let (a, s) := alloc (.pcomplex c.1 c.2) s
      Except.ok (PValue.ref a, s)
  else do
    let shell ← shellFor ty
    let (a, s) := alloc shell s
    if oid?.isNone then do
      let s ← populate_object rec a it? fl? s
      Except.ok (PValue.ref a, s)
    else
      Except.ok (PValue.ref a,
        { s with toPopulate := s.toPopulate ++ [⟨a, it?, fl?⟩] })

/-- `self.create_object(data)`: resolve the type tag, build the value, and
register it in `self.objects` under its oid (unless `immediate`, i.e. the
record has no oid).  `resolve_type` is modelled as total on structured tags
(closed world: every scoped name resolves to the class it names). -/
def create_object (rec : DecRec) (t? : Option Tag) (oid? : Option Nat)
    (it? : Option WValue) (fl? : Option (List (WValue × WValue)))
    (s : DecState) : Except DecErr (PValue × DecState) := do
  let ty ← requireType t?
  let (obj, s) ← create_value rec ty oid? it? fl? s
  match oid? with
  | none => .ok (obj, s)
  | some o => .ok (obj, { s with objects := (o, obj) :: s.objects })

/-- `self._reference(data)`: look the oid up in `self.objects`; a missing
target raises `ValueError, "Forward-references to objects not allowed: ..."`. -/
def _reference (oid : Nat) (s : DecState) : Except DecErr (PValue × DecState) :=
  match s.objects.lookup oid with
  | some v => .ok (v, s)
  | none => .error (.danglingReference oid)

/-- One step of `self._unmarshal(data)`: the `self.dispatch` table.
Primitives (and strings, with no `string_hook` installed) pass through;
lists and dicts decode their contents and build a fresh container;
`GenoshaObject`s go to `create_object` and `GenoshaReference`s to
`_reference`. -/
def _unmarshalStep (rec : DecRec) (w : WValue) (s : DecState) :
    Except DecErr (PValue × DecState) :=
  match w with
  | .prim p => .ok (.prim p, s)
  | .wlist ws => do
    let (vs, s) ← mapDec rec ws s
    let (a, s) := alloc (.plist vs) s
    .ok (.ref a, s)
  | .wdict kvs => do
    let (ps, s) ← mapDecPairs rec kvs s
    let (a, s) := alloc (.pdict ps) s
    .ok (.ref a, s)
  | .wobj t o it fl => create_object rec t o it fl s
  | .ref oid => _reference oid s

/-- The fueled tying of `self._unmarshal`'s recursion. -/
def decodeF : Nat → WValue → DecState → Except DecErr (PValue × DecState)
  | 0, _, _ => .error .outOfFuel
  | n + 1, w, s => _unmarshalStep (decodeF n) w s

/-- The phase-2 loop `for obj in self.to_populate: self.populate_object(*obj)`:
Python iterates a list that population steps may extend, i.e. a FIFO queue
drain. -/
def populateLoopF (recFuel : Nat) : Nat → DecState → Except DecErr DecState
  | 0, _ => .error .outOfFuel
  | n + 1, s =>
    match s.toPopulate with
    | [] => .ok s
    | d :: rest => do
      let s := { s with toPopulate := rest }
      let s ← populate_object (decodeF recFuel) d.addr d.pitems d.pfields s
      populateLoopF recFuel n s

/-- `GenoshaDecoder.unmarshal(obj)`: check the version sentinel (an empty
input raises `IndexError`, turned into the malformed-input error), decode
the record list `obj[1:-1]` for its side effects, decode the payload
`obj[-1]`, then run the population phase.  Returns the decoded heap and the
payload value. -/
def unmarshal (fuel : Nat) (input : List WValue) :
    Except DecErr (List PObj × PValue) :=
  match input with
  | [] => .error .malformed
  | .prim (.pstr s0) :: rest =>
    if s0 = SENTINEL then do
      let (_, s) ← decodeF fuel (.wlist rest.dropLast) initState
      let (payload, s) ← decodeF fuel (rest.getLastD (.prim (.pstr s0))) s
      let s ← populateLoopF fuel fuel s
      .ok (s.heap, payload)
    else .error .malformed
  | _ :: _ => .error .malformed

end GenoshaDecoder

namespace JSON

/-- `s.startswith(pre)` on Python strings. -/
def pystartswith (s pre : List Char) : Bool := s.take pre.length = pre

/-- `_json_escape_string(obj)` of `genosha/JSON.py`:
`if obj.startswith("<"): return obj[0] + obj` (delimiter doubling). -/
def _json_escape_string (s : List Char) : List Char :=
  if pystartswith s ['<'] then s.take 1 ++ s else s

/-- Decimal digit-string value. -/
def digitsVal (cs : List Char) : Option Nat :=
  if cs ≠ [] ∧ cs.all (·.isDigit) then
    some (cs.foldl (fun n c => n * 10 + (c.toNat - 48)) 0)
  else none

/-- Python `int()` on a string (optional sign plus digits; the
whitespace-tolerant variants are irrelevant here and unmodelled). -/
def pyInt (cs : List Char) : Option Int :=
  match cs with
  | '-' :: rest => (digitsVal rest).map fun n => -(n : Int)
  | _ => (digitsVal cs).map fun n => (n : Int)

/-- Python `parts[-2]`. -/
def secondLast (parts : List (List Char)) : List Char :=
  (parts.drop (parts.length - 2)).headD []

/-- Result of `_json_unescape_string`: a plain string, the resolution of a
reference token `"<@id@>"` (handed to `self._unmarshal(GenoshaReference(id))`),
or the `ValueError` of a failing `int()`. -/
inductive Unescaped where
  | str (s : List Char)
  | refOid (oid : Int)
  | valueError
  deriving DecidableEq, Repr

/-- `_json_unescape_string(self, obj)` of `genosha/JSON.py`: strings starting
with `"<@"` are parsed as reference tokens via `int(obj.split('@')[-2])`;
other strings starting with `"<"` drop their first character; the rest pass
through. -/
def _json_unescape_string (s : List Char) : Unescaped :=
  if pystartswith s ['<'] then
    if pystartswith s ['<', '@'] then
      match pyInt (secondLast (s.splitOn '@')) with
      | some n => .refOid n
      | none => .valueError
    else .str (s.drop 1)
  else .str s

/-- `_json_reference(oid)`: `"<@%d@>" % oid`. -/
def _json_reference (oid : Nat) : List Char :=
  '<' :: '@' :: (Nat.toDigits 10 oid) ++ ['@', '>']

end JSON

/-- Composite error of the encode-then-decode pipeline. -/
inductive RTErr where
  | encErr (e : GenoshaEncoder.EncErr)
  | decErr (e : GenoshaDecoder.DecErr)
  deriving DecidableEq, Repr

/-- `GenoshaDecoder().unmarshal(GenoshaEncoder().marshal(obj))`: the
round-trip pipeline, returning the decoded heap and payload. -/
def roundTrip (h : Heap) (fe fd : Nat) (v : PValue) :
    Except RTErr (List PObj × PValue) :=
  match GenoshaEncoder.marshal h fe v with
  | .error e => .error (.encErr e)
  | .ok ws =>
    match GenoshaDecoder.unmarshal fd ws with
    | .error e => .error (.decErr e)
    | .ok r => .ok r

/-- The heap of `a = [1,2,3]; a.append(a)` (the self-cycle test value). -/
def hSelfCycle : Heap :=
  [.plist [.prim (.pint 1), .prim (.pint 2), .prim (.pint 3), .ref 0]]

/-- The heap of `p = [1,2,3]; q = ['a','b','c']; p.append(q); q.append(p)`
with the root tuple `(p, q)` at address 2. -/
def hMutualCycle : Heap :=
  [.plist [.prim (.pint 1), .prim (.pint 2), .prim (.pint 3), .ref 1],
   .plist [.prim (.pstr ['a']), .prim (.pstr ['b']), .prim (.pstr ['c']), .ref 0],
   .ptuple [.ref 0, .ref 1]]

namespace GenoshaEncoder

/-- The `python_ids` session produced by presenting a sequence of objects
(by address) to `_id`, starting from a fresh `marshal` session. -/
def runIds (as : List Nat) : EncState :=
  as.foldl (fun s a => (_id a s).2) initState

/-- First-occurrence order of a sequence of addresses. -/
def firstEncounters (as : List Nat) : List Nat :=
  as.foldl (fun acc a => if a ∈ acc then acc else acc ++ [a]) []

end GenoshaEncoder

/-- The heap of `t = ([1],)`: a tuple (address 0) whose only element is the
list `[1]` (address 1).  The tuple is discovered first (oid 1), but its
record is appended only after its inline population, so the list's record
(oid 2) precedes it in the output. -/
def hC4 : Heap := [.ptuple [.ref 1], .plist [.prim (.pint 1)]]

/-- The heap of `[10j]`: a list (address 0) holding the complex number
`10j` (address 1).  `str(10j) == '10j'`, so `marshal_complex` emits the
stripped token `'0'` and decode rebuilds `complex('0') == 0j`. -/
def hComplexList : Heap := [.plist [.ref 1], .pcomplex 0 10]

/-- The heap of `[2j]`: `str(2j) == '2j'`, the stripped token is the empty
string, and `complex('')` raises `ValueError` during decode. -/
def hComplexTiny : Heap := [.plist [.ref 1], .pcomplex 0 2]

/-- The heap of `defaultdict(f, {})` (address 0) whose `default_factory`
is the callable `f` (address 1, a visible function/class object). -/
def hDefaultDict : Heap :=
  [.pdefaultdict (.ref 1) [], .pglobal (.tuser ['m'] [['f']]) true]

namespace GenoshaEncoder

mutual

/-- All `GenoshaReference` oids occurring in a marshalled value (including
inside record `items`/`fields`). -/
def wrefsW : WValue → List Nat
  | .prim _ => []
  | .ref o => [o]
  | .wlist xs => wrefsL xs
  | .wdict kvs => wrefsP kvs
  | .wobj _ _ it fl =>
    (match it with | some w => wrefsW w | none => []) ++
      (match fl with | some l => wrefsP l | none => [])

def wrefsL : List WValue → List Nat
  | [] => []
  | w :: ws => wrefsW w ++ wrefsL ws

def wrefsP : List (WValue × WValue) → List Nat
  | [] => []
  | kv :: kvs => wrefsW kv.1 ++ wrefsW kv.2 ++ wrefsP kvs

end

/-- References of an optional items slot. -/
def wrefsO : Option WValue → List Nat
  | none => []
  | some w => wrefsW w

/-- References of an optional fields slot. -/
def wrefsPO : Option (List (WValue × WValue)) → List Nat
  | none => []
  | some l => wrefsP l

/-- The oids carried by the records of an output list. -/
def recordOids (objs : List WValue) : List Nat :=
  objs.filterMap fun w =>
    match w with
    | .wobj _ (some o) _ _ => some o
    | _ => none

/-- The ids assigned so far in a session, in assignment order. -/
def ids (s : EncState) : List Nat := s.pythonIds.map Prod.snd

/-- The ids assigned between two states of one session. -/
def newIds (s s' : EncState) : List Nat :=
  (s'.pythonIds.drop s.pythonIds.length).map Prod.snd

/-- The `python_ids` well-formedness maintained by `_id`: values are `1..n`
in insertion order. -/
def IdsGood (s : EncState) : Prop :=
  s.pythonIds.map Prod.snd = List.range' 1 s.pythonIds.length

/-- A field dict is clean when every key is a non-dunder string
(the shape produced by `_object`'s attribute filter). -/
def cleanFields : Option (List (WValue × WValue)) → Prop
  | none => True
  | some l => ∀ kv ∈ l, ∃ k, kv.1 = WValue.prim (Prim.pstr k) ∧ dunder k = false

/-- A record whose `fields`, if present, are clean. -/
def recClean : WValue → Prop
  | .wobj _ _ _ fl => cleanFields fl
  | _ => True

/-- The state change of one encoder call: `python_ids` grows at the end,
records are only appended, appended records carry exactly the newly
assigned ids (as a permutation), appended records are clean, every
reference inside an appended record points to an assigned id, and newly
deferred entries carry only non-dunder attribute names. -/
def EncDelta (s s' : EncState) : Prop :=
  (∃ d, s'.pythonIds = s.pythonIds ++ d) ∧
  (∃ r, s'.objects = s.objects ++ r ∧
    (recordOids r).Perm (newIds s s') ∧
    (∀ w ∈ r, recClean w) ∧
    (∀ w ∈ r, ∀ o ∈ wrefsW w, o ∈ ids s')) ∧
  (IdsGood s → IdsGood s') ∧
  (∀ d ∈ s'.deferred, d ∈ s.deferred ∨ ∀ kv ∈ d.attrs, dunder kv.1 = false)

/-- The specification satisfied by `self._marshal` at every fuel: a
successful call is an `EncDelta`, the returned value only references
assigned ids, and primitives pass through unchanged. -/
def MSpec (rec : EncRec) : Prop :=
  ∀ v s g s', rec v s = .ok (g, s') →
    (EncDelta s s' ∧ ∀ o ∈ wrefsW g, o ∈ ids s') ∧
    (∀ p, v = .prim p → g = .prim p ∧ s' = s)

/-- The invariant of the quiescent states of one `marshal` call (after the
root `_marshal`, and between drain steps): ids are well formed, the record
oids are exactly the assigned ids, and all records are clean with backed
references. -/
def GInv (s : EncState) : Prop :=
  IdsGood s ∧
  (recordOids s.objects).Perm (ids s) ∧
  (∀ w ∈ s.objects, recClean w) ∧
  (∀ w ∈ s.objects, ∀ o ∈ wrefsW w, o ∈ ids s) ∧
  (∀ d ∈ s.deferred, ∀ kv ∈ d.attrs, dunder kv.1 = false)

end GenoshaEncoder

namespace GenoshaDecoder

mutual

/-- All record oids *defined* by a wire value: the `oid` slots of the
`GenoshaObject`s occurring in it at any depth. -/
def woidsW : WValue → List Nat
  | .prim _ => []
  | .ref _ => []
  | .wlist xs => woidsL xs
  | .wdict kvs => woidsP kvs
  | .wobj _ o it fl =>
    (match o with | some o => [o] | none => []) ++
      (match it with | some w => woidsW w | none => []) ++
      (match fl with | some l => woidsP l | none => [])

def woidsL : List WValue → List Nat
  | [] => []
  | w :: ws => woidsW w ++ woidsL ws

def woidsP : List (WValue × WValue) → List Nat
  | [] => []
  | kv :: kvs => woidsW kv.1 ++ woidsW kv.2 ++ woidsP kvs

end

/-- Record oids defined by an optional items slot. -/
def woidsO : Option WValue → List Nat
  | none => []
  | some w => woidsW w

/-- Record oids defined by an optional fields slot. -/
def woidsPO : Option (List (WValue × WValue)) → List Nat
  | none => []
  | some l => woidsP l

/-- The domain of `self.objects`: the oids with an allocated shell. -/
def objKeys (s : DecState) : List Nat := s.objects.map Prod.fst

end GenoshaDecoder

/-- The pure unfolding of an acyclic supported value: the notion of
*structural equality* for the round-trip claim.  Instances compare their
class scoped name and their serialisable attributes (the per-type field
contract: non-dunder names with non-callable values — see C10); functions
and classes compare their scoped name. -/
inductive VTree where
  | tprim (p : Prim)
  | tlst (ts : List VTree)
  | ttup (ts : List VTree)
  | tmap (ps : List (VTree × VTree))
  | tinst (mod : List Char) (path : List (List Char))
      (fs : List (List Char × VTree))
  | tglob (t : Tag)

namespace GenoshaEncoder

/-- The values of a heap object that marshalling visits: container
elements, dict keys and values, and the filtered instance attributes. -/
def childVals (h : Heap) (a : Nat) : List PValue :=
  match h[a]? with
  | some (.plist xs) => xs
  | some (.ptuple xs) => xs
  | some (.pdict kvs) => kvs.foldr (fun kv acc => kv.1 :: kv.2 :: acc) []
  | some (.pinst _ _ _ _) => (filteredFields h a).map Prod.snd
  | _ => []

/-- `b` is referenced directly from the object at `a`. -/
def childAddr (h : Heap) (a b : Nat) : Prop := PValue.ref b ∈ childVals h a

end GenoshaEncoder

/-- Unfold each element of a list (the recursive call is a parameter, as in
`mapEnc`). -/
def treeL (rec : PValue → Option VTree) : List PValue → Option (List VTree)
  | [] => some []
  | x :: xs => do
    let t ← rec x
    let ts ← treeL rec xs
    pure (t :: ts)

/-- Unfold each key/value pair of a dict. -/
def treeP (rec : PValue → Option VTree) :
    List (PValue × PValue) → Option (List (VTree × VTree))
  | [] => some []
  | (k, v) :: kvs => do
    let kt ← rec k
    let vt ← rec v
    let ps ← treeP rec kvs
    pure ((kt, vt) :: ps)

/-- Unfold each named attribute of an instance. -/
def treeFs (rec : PValue → Option VTree) :
    List (List Char × PValue) → Option (List (List Char × VTree))
  | [] => some []
  | (k, v) :: fs => do
    let vt ← rec v
    let ts ← treeFs rec fs
    pure ((k, vt) :: ts)

/-- Fueled tree extraction.  `some t` exactly when the value is of a
supported kind throughout and its object graph is cycle-free (with
unfolding depth below the fuel). -/
def toTreeF (h : Heap) : Nat → PValue → Option VTree
  | 0, _ => none
  | _ + 1, .prim p => some (.tprim p)
  | n + 1, .ref a =>
    match h[a]? with
    | some (.plist xs) => (treeL (toTreeF h n) xs).map .tlst
    | some (.ptuple xs) => (treeL (toTreeF h n) xs).map .ttup
    | some (.pdict kvs) => (treeP (toTreeF h n) kvs).map .tmap
    | some (.pinst m p vis _) =>
      if vis then
        (treeFs (toTreeF h n) (GenoshaEncoder.filteredFields h a)).map
          (.tinst m p)
      else none
    | some (.pfunc name m p vis clos) =>
      if name ≠ GenoshaEncoder.lambdaName ∧ clos = false ∧ vis then
        some (.tglob (.tuser m p))
      else none
    | some (.pglobal t vis) =>
      match GenoshaEncoder.findTypeOfValue t vis with
      | .ok t' => some (.tglob t')
      | .error _ => none
    | _ => none

/-- A value is *supported and acyclic* when some fuel unfolds it fully. -/
def okV (h : Heap) (v : PValue) : Prop := ∃ n, (toTreeF h n v).isSome = true

/-- A heap address whose object is supported and acyclic. -/
def okA (h : Heap) (a : Nat) : Prop := okV h (.ref a)

/-- The minimal unfolding fuel of a supported acyclic address. -/
def rkA (h : Heap) (a : Nat) (hok : okA h a) : Nat := Nat.find hok

namespace GenoshaEncoder

/-- The deferral data `marshal_object` queues for a first-visited mutable
object of each kind: its resolved type tag, the items thunk built by the
dispatched `marshal_*` method, and the `is_instance` flag.  `none` for
kinds that are rejected, unsupported, or immutable (tuples are the only
immutable kind and are never deferred). -/
def thunkSpec (h : Heap) (a : Nat) : Option (Tag × IThunk × Bool) :=
  match h[a]? with
  | some (.plist xs) => some (.tlist, .iseq xs, true)
  | some (.pdict kvs) => some (.tdict, .ikvs kvs, true)
  | some (.pinst m p vis _) =>
    if vis then some (.tuser m p, .inone, true) else none
  | some (.pfunc name m p vis clos) =>
    if name ≠ lambdaName ∧ clos = false ∧ vis then
      some (.tuser m p, .inone, false)
    else none
  | some (.pglobal t vis) =>
    match findTypeOfValue t vis with
    | .ok t' => some (t', .inone, false)
    | .error _ => none
  | _ => none

/-- The wire value a session with id map `pid` emits for the value `v`:
primitives pass through unchanged, references become the assigned oid. -/
def encV (pid : List (Nat × Nat)) : PValue → Option WValue
  | .prim p => some (.prim p)
  | .ref b => (pid.lookup b).map .ref

/-- `encV` over a list of elements. -/
def encL (pid : List (Nat × Nat)) : List PValue → Option (List WValue)
  | [] => some []
  | x :: xs => do
    let g ← encV pid x
    let gs ← encL pid xs
    pure (g :: gs)

/-- `encV` over key/value pairs. -/
def encP (pid : List (Nat × Nat)) :
    List (PValue × PValue) → Option (List (WValue × WValue))
  | [] => some []
  | (k, v) :: kvs => do
    let gk ← encV pid k
    let gv ← encV pid v
    let gs ← encP pid kvs
    pure ((gk, gv) :: gs)

/-- `encV` over an instance attribute list: keys become marshalled attribute
name strings. -/
def encF (pid : List (Nat × Nat)) :
    List (List Char × PValue) → Option (List (WValue × WValue))
  | [] => some []
  | (k, v) :: fs => do
    let gv ← encV pid v
    let gs ← encF pid fs
    pure ((WValue.prim (.pstr k), gv) :: gs)

/-- The fully populated record a session with id map `pid` stores for the
object at address `a` under oid `i`: each supported kind's type tag plus the
items/fields slots `_object` computes for it. -/
def recordFor (pid : List (Nat × Nat)) (h : Heap) (a i : Nat) : Option WValue :=
  match h[a]? with
  | some (.plist xs) =>
    (encL pid xs).map fun gs =>
      .wobj (some .tlist) (some i) (some (.wlist gs)) (some [])
  | some (.ptuple xs) =>
    (encL pid xs).map fun gs =>
      .wobj (some .ttuple) (some i) (some (.wlist gs)) (some [])
  | some (.pdict kvs) =>
    (encP pid kvs).map fun gp =>
      .wobj (some .tdict) (some i) (some (.wdict gp)) (some [])
  | some (.pinst m p vis _) =>
    if vis then
      (encF pid (filteredFields h a)).map fun gfs =>
        .wobj (some (.tuser m p)) (some i) none (some gfs)
    else none
  | some (.pfunc name m p vis clos) =>
    if name ≠ lambdaName ∧ clos = false ∧ vis then
      some (.wobj (some (.tuser m p)) (some i) none none)
    else none
  | some (.pglobal t vis) =>
    match findTypeOfValue t vis with
    | .ok t' => some (.wobj (some t') (some i) none none)
    | .error _ => none
  | _ => none

/-- The `items` slot `runThunk` computes, characterised against `encL`/`encP`. -/
def itemsSpec (pid : List (Nat × Nat)) : IThunk → Option WValue → Prop
  | .inone, it => it = none
  | .iseq xs, it => ∃ gs, it = some (.wlist gs) ∧ encL pid xs = some gs
  | .ikvs kvs, it => ∃ gp, it = some (.wdict gp) ∧ encP pid kvs = some gp
  | .istr cs, it => it = some (.prim (.pstr cs))

/-- `python_ids` keys are pairwise distinct (`setdefault` never duplicates). -/
def keysNodup (s : EncState) : Prop := (s.pythonIds.map Prod.fst).Nodup

/-- Every visited object is a valid, supported, acyclic heap address. -/
def VisOK (h : Heap) (s : EncState) : Prop :=
  ∀ p ∈ s.pythonIds, okA h p.1 ∧ p.1 < h.length

/-- Every assigned id is covered: by the in-flight exception list `exc`, by
a stored record holding exactly the object's full contents, or by a pending
deferral. -/
def TblId (h : Heap) (s : EncState) (exc : List Nat) : Prop :=
  ∀ a i, (a, i) ∈ s.pythonIds → a ∈ exc ∨
    (∃ (j : Nat) (w : WValue), s.objects[j]? = some w ∧
      recordFor s.pythonIds h a i = some w) ∨
    (∃ d ∈ s.deferred, d.addr = a)

/-- Every stored record is the full contents of some visited object, the
still-unpopulated header of a pending deferral, or the header of an
in-flight drain step (`exc`). -/
def TblPos (h : Heap) (s : EncState) (exc : List Nat) : Prop :=
  ∀ (j : Nat) (w : WValue), s.objects[j]? = some w →
    (∃ a i, (a, i) ∈ s.pythonIds ∧ recordFor s.pythonIds h a i = some w) ∨
    (∃ d ∈ s.deferred, d.idx = j) ∨
    (∃ e ∈ exc, ∃ i0 t0 th0 b0, (e, i0) ∈ s.pythonIds ∧
      thunkSpec h e = some (t0, th0, b0) ∧ w = mkHeader t0 i0)

/-- Stored record oids are pairwise distinct. -/
def RecNodup (s : EncState) : Prop := (recordOids s.objects).Nodup

/-- Every stored record oid is an assigned id. -/
def OidsCover (s : EncState) : Prop := ∀ o ∈ recordOids s.objects, o ∈ ids s

/-- Every pending deferral carries its object's id, the thunk and flag of
its kind, and points at its header in the output list; deferral indices are
strictly increasing and in range. -/
def DeferT (h : Heap) (s : EncState) : Prop :=
  (∀ d ∈ s.deferred, ∃ i t,
    (d.addr, i) ∈ s.pythonIds ∧
    thunkSpec h d.addr = some (t, d.thunk, d.isInstance) ∧
    s.objects[d.idx]? = some (mkHeader t i) ∧
    d.attrs = []) ∧
  (s.deferred.map DeferItem.idx).Pairwise (· < ·) ∧
  (∀ d ∈ s.deferred, d.idx < s.objects.length)

/-- Tuple records only reference oids of records stored strictly before
them (the decoder's phase-one construction depends on this). -/
def OrdT (s : EncState) : Prop :=
  ∀ (j : Nat) (os : Option Nat) (gs : List WValue)
    (fl : Option (List (WValue × WValue))),
    s.objects[j]? = some (.wobj (some .ttuple) os (some (.wlist gs)) fl) →
    ∀ o ∈ wrefsL gs, o ∈ recordOids (s.objects.take j)

/-- The full mid-session encoder invariant, relative to the list `exc` of
in-flight immutable ancestors. -/
def EInv (h : Heap) (s : EncState) (exc : List Nat) : Prop :=
  VisOK h s ∧ keysNodup s ∧ IdsGood s ∧ TblId h s exc ∧ TblPos h s exc ∧
  DeferT h s ∧ OrdT s ∧ RecNodup s ∧ OidsCover s

/-- The in-flight ancestors are supported acyclic visited addresses. -/
def ExcOK (h : Heap) (s : EncState) (exc : List Nat) : Prop :=
  ∀ e ∈ exc, okA h e ∧ ∃ i, (e, i) ∈ s.pythonIds

/-- `v` extends the in-flight ancestor chain by one child edge. -/
def ChainV (h : Heap) (exc : List Nat) (v : PValue) : Prop :=
  ∀ b, v = .ref b → List.Chain' (childAddr h) (exc ++ [b])

/-- The state-evolution guarantees of any encoder step: the id map is
extended at the end, at most one deferral is added per newly assigned id,
records are only appended, new deferrals index past the old records, and
new records carry newly assigned oids. -/
def SDelta (s s' : EncState) : Prop :=
  (∃ d, s'.pythonIds = s.pythonIds ++ d) ∧
  s'.deferred.length + s.pythonIds.length ≤
    s.deferred.length + s'.pythonIds.length ∧
  (∃ r, s'.objects = s.objects ++ r) ∧
  (∀ e ∈ s'.deferred, e ∈ s.deferred ∨ s.objects.length ≤ e.idx) ∧
  (∀ o ∈ recordOids s'.objects, o ∈ recordOids s.objects ∨ o ∉ ids s)

/-- What one successful marshalling call guarantees: an `SDelta`, the
invariant preserved, and the returned wire value is `encV` of the argument
under the extended map. -/
def EPost (h : Heap) (exc : List Nat) (v : PValue) (s : EncState)
    (g : WValue) (s' : EncState) : Prop :=
  SDelta s s' ∧ EInv h s' exc ∧ encV s'.pythonIds v = some g

/-- The induction bundle for the fueled recursion: a recursive marshalling
function that fulfils `EPost` on every supported acyclic value. -/
def RecFull (h : Heap) (n : Nat) (rec : EncRec) : Prop :=
  ∀ (v : PValue) (s : EncState) (exc : List Nat),
    (toTreeF h n v).isSome = true →
    ChainV h exc v →
    ExcOK h s exc →
    EInv h s exc →
    ∃ g s', rec v s = .ok (g, s') ∧ EPost h exc v s g s'

end GenoshaEncoder

namespace GenoshaDecoder

/-- Decode one wire value against a resolved oid map (`self.objects` as a
function): primitives pass through, references look up their target. -/
def wireDec (mu : Nat → Option PValue) : WValue → Option PValue
  | .prim p => some (.prim p)
  | .ref i => mu i
  | _ => none

/-- `wireDec` over a list. -/
def wireL (mu : Nat → Option PValue) : List WValue → Option (List PValue)
  | [] => some []
  | g :: gs => do
    let v ← wireDec mu g
    let vs ← wireL mu gs
    pure (v :: vs)

/-- `wireDec` over key/value pairs. -/
def wireP (mu : Nat → Option PValue) :
    List (WValue × WValue) → Option (List (PValue × PValue))
  | [] => some []
  | (gk, gv) :: gs => do
    let k ← wireDec mu gk
    let v ← wireDec mu gv
    let vs ← wireP mu gs
    pure ((k, v) :: vs)

/-- `wireDec` over a marshalled attribute dict (keys are name strings). -/
def wireF (mu : Nat → Option PValue) :
    List (WValue × WValue) → Option (List (List Char × PValue))
  | [] => some []
  | (.prim (.pstr k), gv) :: gs => do
    let v ← wireDec mu gv
    let vs ← wireF mu gs
    pure ((k, v) :: vs)
  | _ => none

/-- The decoded counterpart of a source value: primitives map to
themselves, references map through the id map. -/
def mirV (pid : List (Nat × Nat)) (mu : Nat → Option PValue) :
    PValue → Option PValue
  | .prim p => some (.prim p)
  | .ref b => (pid.lookup b).bind mu

/-- `mirV` over a list. -/
def mirL (pid : List (Nat × Nat)) (mu : Nat → Option PValue) :
    List PValue → Option (List PValue)
  | [] => some []
  | x :: xs => do
    let v ← mirV pid mu x
    let vs ← mirL pid mu xs
    pure (v :: vs)

/-- `mirV` over key/value pairs. -/
def mirP (pid : List (Nat × Nat)) (mu : Nat → Option PValue) :
    List (PValue × PValue) → Option (List (PValue × PValue))
  | [] => some []
  | (k, v) :: kvs => do
    let k' ← mirV pid mu k
    let v' ← mirV pid mu v
    let vs ← mirP pid mu kvs
    pure ((k', v') :: vs)

/-- `mirV` over attribute lists. -/
def mirF (pid : List (Nat × Nat)) (mu : Nat → Option PValue) :
    List (List Char × PValue) → Option (List (List Char × PValue))
  | [] => some []
  | (k, v) :: fs => do
    let v' ← mirV pid mu v
    let vs ← mirF pid mu fs
    pure ((k, v') :: vs)

/-- The decoded cell at `da` mirrors the source object at `a`: same kind,
contents the decoded counterparts; instances keep their serialised
attributes, functions and classes come back as the named global. -/
def MirObj (h : Heap) (pid : List (Nat × Nat)) (mu : Nat → Option PValue)
    (hp : List PObj) (a da : Nat) : Prop :=
  match h[a]? with
  | some (.plist xs) => ∃ ys, hp[da]? = some (.plist ys) ∧
      mirL pid mu xs = some ys
  | some (.ptuple xs) => ∃ ys, hp[da]? = some (.ptuple ys) ∧
      mirL pid mu xs = some ys
  | some (.pdict kvs) => ∃ qs, hp[da]? = some (.pdict qs) ∧
      mirP pid mu kvs = some qs
  | some (.pinst m p _ _) => ∃ gs, hp[da]? = some (.pinst m p true gs) ∧
      mirF pid mu (GenoshaEncoder.filteredFields h a) = some gs
  | some (.pfunc _ m p _ _) => hp[da]? = some (.pglobal (.tuser m p) true)
  | some (.pglobal t _) => hp[da]? = some (.pglobal t true)
  | _ => False

/-- The still-deferred population data for the shell of a mutable object:
the queue entry holds exactly the record's items/fields slots. -/
def Pend (h : Heap) (pid : List (Nat × Nat)) (e : PopItem) (a : Nat) : Prop :=
  match h[a]? with
  | some (.plist xs) => ∃ gs, GenoshaEncoder.encL pid xs = some gs ∧
      e.pitems = some (.wlist gs) ∧ e.pfields = some []
  | some (.pdict kvs) => ∃ gp, GenoshaEncoder.encP pid kvs = some gp ∧
      e.pitems = some (.wdict gp) ∧ e.pfields = some []
  | some (.pinst _ _ _ _) => ∃ gfs,
      GenoshaEncoder.encF pid (GenoshaEncoder.filteredFields h a) = some gfs ∧
      e.pitems = none ∧ e.pfields = some gfs
  | _ => False

/-- The phase-one empty shell allocated for a mutable object of `a`'s kind. -/
def emptyShell (h : Heap) (a : Nat) : Option PObj :=
  match h[a]? with
  | some (.plist _) => some (.plist [])
  | some (.pdict _) => some (.pdict [])
  | some (.pinst m p _ _) => some (.pinst m p true [])
  | _ => none

/-- Status of one registered oid: its cell is either fully mirrored (and no
pending population targets it), or an empty shell with exactly one pending
queue entry. -/
def IdState (h : Heap) (pid : List (Nat × Nat)) (s : DecState)
    (a da : Nat) : Prop :=
  (MirObj h pid (fun i => s.objects.lookup i) s.heap a da ∧
    ∀ e ∈ s.toPopulate, e.addr ≠ da) ∨
  (s.heap[da]? = emptyShell h a ∧
    ∃ e ∈ s.toPopulate, e.addr = da ∧ Pend h pid e a)

/-- The decoder invariant, relative to the list `reg` of oids whose records
have been processed. -/
def DInv (h : Heap) (pid : List (Nat × Nat)) (s : DecState)
    (reg : List Nat) : Prop :=
  (∀ i, (s.objects.lookup i).isSome = true ↔ i ∈ reg) ∧
  (∀ a i, (a, i) ∈ pid → i ∈ reg →
    ∃ da, s.objects.lookup i = some (.ref da) ∧ da < s.heap.length ∧
      IdState h pid s a da) ∧
  (∀ e ∈ s.toPopulate, ∃ a i, (a, i) ∈ pid ∧
    s.objects.lookup i = some (.ref e.addr)) ∧
  (s.toPopulate.map PopItem.addr).Nodup ∧
  (∀ i da, s.objects.lookup i = some (.ref da) → da < s.heap.length) ∧
  (∀ i i' da, s.objects.lookup i = some (.ref da) →
    s.objects.lookup i' = some (.ref da) → i = i')

end GenoshaDecoder

/-! ## Claim theorems -/

/-- **C2**: round-tripping preserves identity across cycles and sharing.
For `a = [1,2,3]; a.append(a)` the decoded payload is a reference to a heap
cell whose last element is a reference to that same cell (identity-equal,
not a copy); for the mutually cyclic `p`/`q` rooted in the tuple `(p, q)`,
the decoded `p`'s last element is the decoded `q` and vice versa. -/
theorem claim_C2 :
    (match roundTrip hSelfCycle 50 50 (PValue.ref 0) with
     | Except.ok (h', PValue.ref r) =>
       h'[r]? = some (PObj.plist
         [.prim (.pint 1), .prim (.pint 2), .prim (.pint 3), PValue.ref r])
     | _ => False)
    ∧ (match roundTrip hMutualCycle 50 50 (PValue.ref 2) with
       | Except.ok (h', PValue.ref r) =>
         (match h'[r]? with
          | some (PObj.ptuple [PValue.ref p, PValue.ref q]) =>
            p ≠ q ∧
            (match h'[p]?, h'[q]? with
             | some (PObj.plist xs), some (PObj.plist ys) =>
               xs.getLast? = some (PValue.ref q) ∧ ys.getLast? = some (PValue.ref p)
             | _, _ => False)
          | _ => False)
       | _ => False) := by
  constructor
  · rfl
  · refine ⟨by decide, by constructor <;> rfl⟩

/-- **C6**: the JSON adapter's escape/unescape pair is the identity on every
text value (in particular on text that starts with `"<"` or equals a
well-formed reference token). -/
theorem claim_C6 (s : List Char) :
    JSON._json_unescape_string (JSON._json_escape_string s) = .str s := by
  unfold JSON._json_escape_string JSON._json_unescape_string JSON.pystartswith
  match s with
  | [] => simp
  | c :: rest =>
    by_cases hc : c = '<'
    · subst hc; simp
    · simp [List.take, hc]

namespace GenoshaEncoder

/-- `List.lookup` finds nothing exactly when the key is absent. -/
theorem lookup_none_iff (m : List (Nat × Nat)) (a : Nat) :
    m.lookup a = none ↔ a ∉ m.map Prod.fst := by
  induction m with
  | nil => simp
  | cons kv rest ih =>
    obtain ⟨k, v⟩ := kv
    by_cases h : a = k
    · subst h
      simp [List.lookup]
    · have hbe : (a == k) = false := by simp [h]
      simp [List.lookup, hbe, ih, h]

theorem range'_one_concat (n : Nat) :
    List.range' 1 (n + 1) = List.range' 1 n ++ [n + 1] := by
  rw [List.range'_concat]
  simp [Nat.add_comm]

/-- Invariant of `_id` sessions: the assigned ids are `1..n` in insertion
order, and the keys are the first-encounter order of the presented
addresses. -/
theorem runIds_general (as : List Nat) : ∀ (s : EncState),
    s.pythonIds.map Prod.snd = List.range' 1 s.pythonIds.length →
    ((as.foldl (fun t a => (_id a t).2) s).pythonIds.map Prod.snd =
        List.range' 1 (as.foldl (fun t a => (_id a t).2) s).pythonIds.length ∧
      (as.foldl (fun t a => (_id a t).2) s).pythonIds.map Prod.fst =
        as.foldl (fun acc a => if a ∈ acc then acc else acc ++ [a])
          (s.pythonIds.map Prod.fst)) := by
  induction as with
  | nil => intro s hs; exact ⟨hs, rfl⟩
  | cons a as ih =>
    intro s hs
    simp only [List.foldl_cons]
    by_cases hmem : a ∈ s.pythonIds.map Prod.fst
    · have hlk : s.pythonIds.lookup a ≠ none :=
        fun hnone => (lookup_none_iff _ _).mp hnone hmem
      obtain ⟨i, hi⟩ := Option.ne_none_iff_exists'.mp hlk
      have hid : (_id a s).2 = s := by simp [_id, hi]
      rw [hid, if_pos hmem]
      exact ih s hs
    · have hlk : s.pythonIds.lookup a = none := (lookup_none_iff _ _).mpr hmem
      have hid : (_id a s).2.pythonIds =
          s.pythonIds ++ [(a, s.pythonIds.length + 1)] := by
        simp [_id, hlk]
      have hgood : (_id a s).2.pythonIds.map Prod.snd =
          List.range' 1 (_id a s).2.pythonIds.length := by
        rw [hid]; simp [hs, range'_one_concat]
      have := ih ((_id a s).2) hgood
      rw [if_neg hmem]
      refine ⟨this.1, ?_⟩
      rw [this.2, hid]
      simp

end GenoshaEncoder

/-- **C9**: within one marshal session, `_id` returns the previously
assigned id on a repeated presentation of the same object (by identity) and
leaves the session unchanged; a fresh object gets the next monotonic id
(`len + 1`, so ids start at 1 and ids are `1..n` in first-encounter order);
distinct objects never share an id. -/
theorem claim_C9 (as : List Nat) (s : GenoshaEncoder.EncState)
    (a b i j : Nat) :
    (s.pythonIds.lookup a = some i → GenoshaEncoder._id a s = (i, s)) ∧
    (s.pythonIds.lookup a = none →
      GenoshaEncoder._id a s = (s.pythonIds.length + 1,
        { s with pythonIds := s.pythonIds ++ [(a, s.pythonIds.length + 1)] })) ∧
    ((GenoshaEncoder.runIds as).pythonIds.map Prod.fst =
      GenoshaEncoder.firstEncounters as) ∧
    ((GenoshaEncoder.runIds as).pythonIds.map Prod.snd =
      List.range' 1 (GenoshaEncoder.firstEncounters as).length) ∧
    ((a, i) ∈ (GenoshaEncoder.runIds as).pythonIds →
      (b, j) ∈ (GenoshaEncoder.runIds as).pythonIds → i = j → a = b) := by
  have base : GenoshaEncoder.initState.pythonIds.map Prod.snd =
      List.range' 1 GenoshaEncoder.initState.pythonIds.length := by
    simp [GenoshaEncoder.initState]
  have main := GenoshaEncoder.runIds_general as GenoshaEncoder.initState base
  have main1 : (GenoshaEncoder.runIds as).pythonIds.map Prod.snd =
      List.range' 1 (GenoshaEncoder.runIds as).pythonIds.length := main.1
  have hkeys : (GenoshaEncoder.runIds as).pythonIds.map Prod.fst =
      GenoshaEncoder.firstEncounters as := main.2
  have hlen : (GenoshaEncoder.firstEncounters as).length =
      (GenoshaEncoder.runIds as).pythonIds.length := by
    rw [← hkeys, List.length_map]
  refine ⟨fun hlk => by simp [GenoshaEncoder._id, hlk],
    fun hlk => by simp [GenoshaEncoder._id, hlk], hkeys, ?_, ?_⟩
  · rw [hlen]; exact main1
  · intro ha hb hij
    have hnd : ((GenoshaEncoder.runIds as).pythonIds.map Prod.snd).Nodup := by
      rw [main1]; exact List.nodup_range' _ _
    have := List.inj_on_of_nodup_map hnd ha hb (by simpa using hij)
    exact congrArg Prod.fst this

/-- Witness for C9 at the session `[5, 7, 5, 9]`. -/
theorem claim_C9_witness :
    ((GenoshaEncoder.runIds [5, 7, 5, 9]).pythonIds.map Prod.fst = [5, 7, 9]) ∧
    ((GenoshaEncoder.runIds [5, 7, 5, 9]).pythonIds.map Prod.snd = [1, 2, 3]) ∧
    (GenoshaEncoder._id 7 (GenoshaEncoder.runIds [5, 7, 5, 9]) =
      (2, GenoshaEncoder.runIds [5, 7, 5, 9])) := by
  have h := claim_C9 [5, 7, 5, 9] (GenoshaEncoder.runIds [5, 7, 5, 9]) 7 0 2 0
  exact ⟨(h.2.2.1).trans (by decide), (h.2.2.2.1).trans (by decide),
    h.1 (by decide)⟩

namespace GenoshaEncoder

/-- `_id` changes nothing but `python_ids`. -/
theorem _id_preserves (a : Nat) (s : EncState) :
    ((_id a s).2).objects = s.objects ∧ ((_id a s).2).oids = s.oids ∧
    ((_id a s).2).deferred = s.deferred := by
  unfold _id
  rcases h : s.pythonIds.lookup a with _ | i <;> simp

end GenoshaEncoder

/-- **C8** (amended): decode fails with the malformed-input error exactly for
a missing or incorrect leading version sentinel — in particular for the
empty sequence.  (A stream that keeps the correct sentinel but is truncated
afterwards is *not* detected; see the counterexample.) -/
theorem claim_C8 (fuel : Nat) (input : List WValue)
    (hbad : ∀ s0 rest, input = WValue.prim (Prim.pstr s0) :: rest → s0 ≠ SENTINEL) :
    GenoshaDecoder.unmarshal fuel input = .error .malformed := by
  cases input with
  | nil => rfl
  | cons w rest =>
    cases w with
    | prim p =>
      cases p with
      | pstr s0 => simp [GenoshaDecoder.unmarshal, hbad s0 rest rfl]
      | pint n => rfl
      | pbool b => rfl
      | pnone => rfl
    | ref o => rfl
    | wlist xs => rfl
    | wdict kvs => rfl
    | wobj t o it fl => rfl

/-- Counterexample to C8 as stated: the truncated record stream
`[SENTINEL]` (records and payload missing) does not fail — decode returns
the sentinel string itself as the payload. -/
theorem claim_C8_counterexample :
    GenoshaDecoder.unmarshal 10 [.prim (.pstr SENTINEL)] =
      .ok ([PObj.plist []], .prim (.pstr SENTINEL)) := rfl

/-- Witness for C8 on concrete malformed inputs. -/
theorem claim_C8_witness :
    GenoshaDecoder.unmarshal 5 [WValue.ref 1] = .error .malformed :=
  claim_C8 5 [WValue.ref 1] (fun s0 rest h => by simp at h)

/-- **C4** (amended): on the first visit of a *mutable* composite the encoder
appends the value's record header (type tag + oid, items and fields unset)
to the output list immediately and defers population onto the queue.
Immutable composites are instead populated inline *before* their record is
appended, so records do not appear in first-discovery order when immutables
are involved (see the counterexample). -/
theorem claim_C4 (h : Heap) (rec : GenoshaEncoder.EncRec) (a : Nat)
    (thunk : GenoshaEncoder.IThunk) (typename : Option Tag) (tag : Tag)
    (attrs : List (List Char × PValue)) (root : Bool)
    (s : GenoshaEncoder.EncState)
    (hty : GenoshaEncoder.resolveTagArg h a typename = Except.ok tag) :
    GenoshaEncoder.marshal_object h rec a thunk false typename attrs root s =
      Except.ok (WValue.ref (GenoshaEncoder._id a s).1,
        { objects := s.objects ++ [GenoshaEncoder.mkHeader tag (GenoshaEncoder._id a s).1],
          oids := s.oids ++ [(GenoshaEncoder._id a s).1],
          pythonIds := ((GenoshaEncoder._id a s).2).pythonIds,
          deferred := s.deferred ++
            [⟨a, s.objects.length, thunk, attrs, typename.isNone⟩] }) := by
  have hp := GenoshaEncoder._id_preserves a s
  unfold GenoshaEncoder.marshal_object
  rw [hty]
  rcases hid : GenoshaEncoder._id a s with ⟨oid, s1⟩
  rw [hid] at hp
  dsimp only at hp
  simp [Except.bind, hid, hp.1, hp.2.1, hp.2.2]
  rfl

/-- Counterexample to C4 as stated: encoding the tuple `t = ([1],)` (heap
`hC4`).  The tuple is discovered first and gets oid 1, but its record is
populated inline and appended only afterwards, so the output record list is
`[list record (oid 2), tuple record (oid 1)]` — not first-discovery order,
and the tuple record is appended with its items already filled in. -/
theorem claim_C4_counterexample :
    GenoshaEncoder.marshal hC4 20 (.ref 0) =
      .ok [.prim (.pstr SENTINEL),
           .wlist [.wobj (some .tlist) (some 2) (some (.wlist [.prim (.pint 1)])) (some []),
                   .wobj (some .ttuple) (some 1) (some (.wlist [.ref 2])) (some [])],
           .ref 1] := rfl

/-- Witness for C4 (amended) at a concrete mutable call. -/
theorem claim_C4_witness :
    GenoshaEncoder.marshal_object [PObj.plist []]
      (fun _ s => .ok (.prim .pnone, s)) 0 (.iseq []) false none [] false
      GenoshaEncoder.initState =
      Except.ok (WValue.ref 1,
        { objects := [GenoshaEncoder.mkHeader Tag.tlist 1],
          oids := [1], pythonIds := [(0, 1)],
          deferred := [⟨0, 0, .iseq [], [], true⟩] }) :=
  claim_C4 [PObj.plist []] (fun _ s => .ok (.prim .pnone, s)) 0 (.iseq [])
    none Tag.tlist [] false GenoshaEncoder.initState rfl

/-- **C5**: encoding a value of an unsupported category fails with the
`TypeError` of the corresponding source site, naming the offending
type/category, and `marshal` returns no output at all (so no partial record
is left anywhere): generators and old-style instances, lambdas, closures,
invisible functions and instances of classes without a resolvable scoped
name. -/
theorem claim_C5 (h : Heap) (a fuel : Nat) (name mod : List Char)
    (path : List (List Char)) (vis clos : Bool) (fs : List (List Char × PValue)) :
    (h[a]? = some .pgen →
      GenoshaEncoder.marshal h (fuel + 1) (.ref a) =
        .error (.unsupportedType GenoshaEncoder.generatorName)) ∧
    (h[a]? = some .pold →
      GenoshaEncoder.marshal h (fuel + 1) (.ref a) =
        .error (.unsupportedType GenoshaEncoder.instanceName)) ∧
    (h[a]? = some (.pfunc GenoshaEncoder.lambdaName mod path vis clos) →
      GenoshaEncoder.marshal h (fuel + 1) (.ref a) = .error .lambdasUnsupported) ∧
    (h[a]? = some (.pfunc name mod path vis true) →
      name ≠ GenoshaEncoder.lambdaName →
      GenoshaEncoder.marshal h (fuel + 1) (.ref a) = .error .closuresUnsupported) ∧
    (h[a]? = some (.pfunc name mod path false false) →
      name ≠ GenoshaEncoder.lambdaName →
      GenoshaEncoder.marshal h (fuel + 1) (.ref a) = .error (.cannotResolve mod name)) ∧
    (h[a]? = some (.pinst mod path false fs) →
      GenoshaEncoder.marshal h (fuel + 1) (.ref a) =
        .error (.cannotResolve mod (path.getLastD []))) := by
  refine ⟨fun h1 => ?_, fun h1 => ?_, fun h1 => ?_, fun h1 h2 => ?_,
    fun h1 h2 => ?_, fun h1 => ?_⟩
  · simp [GenoshaEncoder.marshal, GenoshaEncoder.marshalF, GenoshaEncoder._marshal,
      GenoshaEncoder.initState, List.lookup, h1]
    rfl
  · simp [GenoshaEncoder.marshal, GenoshaEncoder.marshalF, GenoshaEncoder._marshal,
      GenoshaEncoder.initState, List.lookup, h1]
    rfl
  · simp [GenoshaEncoder.marshal, GenoshaEncoder.marshalF, GenoshaEncoder._marshal,
      GenoshaEncoder.marshal_function, GenoshaEncoder.initState, List.lookup, h1]
    rfl
  · simp [GenoshaEncoder.marshal, GenoshaEncoder.marshalF, GenoshaEncoder._marshal,
      GenoshaEncoder.marshal_function, GenoshaEncoder.initState, List.lookup, h1, h2]
    rfl
  · simp [GenoshaEncoder.marshal, GenoshaEncoder.marshalF, GenoshaEncoder._marshal,
      GenoshaEncoder.marshal_function, GenoshaEncoder.initState, List.lookup, h1, h2]
    rfl
  · simp [GenoshaEncoder.marshal, GenoshaEncoder.marshalF, GenoshaEncoder._marshal,
      GenoshaEncoder.marshal_object, GenoshaEncoder.resolveTagArg,
      GenoshaEncoder.findTypeOfClass, GenoshaEncoder.initState, List.lookup, h1]
    rfl

/-- Witness for C5: one concrete failing value per unsupported category. -/
theorem claim_C5_witness :
    (GenoshaEncoder.marshal [PObj.pgen] 1 (.ref 0) =
      .error (.unsupportedType GenoshaEncoder.generatorName)) ∧
    (GenoshaEncoder.marshal [PObj.pold] 1 (.ref 0) =
      .error (.unsupportedType GenoshaEncoder.instanceName)) ∧
    (GenoshaEncoder.marshal [PObj.pfunc GenoshaEncoder.lambdaName ['m'] [] false false] 1
      (.ref 0) = .error .lambdasUnsupported) ∧
    (GenoshaEncoder.marshal [PObj.pfunc ['f'] ['m'] [['f']] true true] 1 (.ref 0) =
      .error .closuresUnsupported) ∧
    (GenoshaEncoder.marshal [PObj.pfunc ['f'] ['m'] [['f']] false false] 1 (.ref 0) =
      .error (.cannotResolve ['m'] ['f'])) ∧
    (GenoshaEncoder.marshal [PObj.pinst ['m'] [['C']] false []] 1 (.ref 0) =
      .error (.cannotResolve ['m'] ['C'])) :=
  ⟨(claim_C5 [PObj.pgen] 0 0 [] [] [] false false []).1 rfl,
    (claim_C5 [PObj.pold] 0 0 [] [] [] false false []).2.1 rfl,
    (claim_C5 [PObj.pfunc GenoshaEncoder.lambdaName ['m'] [] false false] 0 0 []
      ['m'] [] false false []).2.2.1 rfl,
    (claim_C5 [PObj.pfunc ['f'] ['m'] [['f']] true true] 0 0 ['f'] ['m'] [['f']]
      true true []).2.2.2.1 rfl (by decide),
    (claim_C5 [PObj.pfunc ['f'] ['m'] [['f']] false false] 0 0 ['f'] ['m'] [['f']]
      false false []).2.2.2.2.1 rfl (by decide),
    (claim_C5 [PObj.pinst ['m'] [['C']] false []] 0 0 [] ['m'] [['C']] false false
      []).2.2.2.2.2 rfl⟩
namespace GenoshaEncoder

theorem lookup_mem {m : List (Nat × Nat)} {a i : Nat}
    (hl : m.lookup a = some i) : (a, i) ∈ m := by
  induction m with
  | nil => simp [List.lookup] at hl
  | cons kv rest ih =>
    obtain ⟨k, v⟩ := kv
    by_cases h : a = k
    · subst h
      simp [List.lookup] at hl
      simp [hl]
    · have hbe : (a == k) = false := by simp [h]
      simp [List.lookup, hbe] at hl
      simp [ih hl]

theorem recordOids_append (xs ys : List WValue) :
    recordOids (xs ++ ys) = recordOids xs ++ recordOids ys := by
  simp [recordOids, List.filterMap_append]

theorem newIds_refl (s : EncState) : newIds s s = [] := by
  simp [newIds]

theorem newIds_of_append {s s' : EncState} {d : List (Nat × Nat)}
    (hd : s'.pythonIds = s.pythonIds ++ d) : newIds s s' = d.map Prod.snd := by
  simp [newIds, hd]

theorem ids_append {s s' : EncState} {d : List (Nat × Nat)}
    (hd : s'.pythonIds = s.pythonIds ++ d) :
    ids s' = ids s ++ d.map Prod.snd := by
  simp [ids, hd]

theorem encDelta_refl (s : EncState) : EncDelta s s := by
  refine ⟨⟨[], by simp⟩, ⟨[], by simp, ?_, by simp, by simp⟩, fun h => h,
    fun d hd => Or.inl hd⟩
  simp [newIds_refl, recordOids]

theorem encDelta_ids_mono {s s' : EncState} (h : EncDelta s s') :
    ∀ o ∈ ids s, o ∈ ids s' := by
  obtain ⟨⟨d, hd⟩, _, _, _⟩ := h
  intro o ho
  rw [ids_append hd]
  exact List.mem_append_left _ ho

theorem encDelta_trans {s s' s'' : EncState}
    (h1 : EncDelta s s') (h2 : EncDelta s' s'') : EncDelta s s'' := by
  obtain ⟨⟨d1, hd1⟩, ⟨r1, hr1, hp1, hc1, hf1⟩, hg1, hdf1⟩ := h1
  obtain ⟨⟨d2, hd2⟩, ⟨r2, hr2, hp2, hc2, hf2⟩, hg2, hdf2⟩ := h2
  refine ⟨⟨d1 ++ d2, by rw [hd2, hd1, List.append_assoc]⟩,
    ⟨r1 ++ r2, by rw [hr2, hr1, List.append_assoc], ?_, ?_, ?_⟩,
    fun h => hg2 (hg1 h), ?_⟩
  · rw [recordOids_append]
    have hn : newIds s s'' = newIds s s' ++ newIds s' s'' := by
      rw [newIds_of_append hd1, newIds_of_append hd2,
        newIds_of_append (show s''.pythonIds = s.pythonIds ++ (d1 ++ d2) by
          rw [hd2, hd1, List.append_assoc]), List.map_append]
    rw [hn]
    exact hp1.append hp2
  · intro w hw
    rcases List.mem_append.mp hw with hw | hw
    · exact hc1 w hw
    · exact hc2 w hw
  · intro w hw o ho
    rcases List.mem_append.mp hw with hw | hw
    · exact encDelta_ids_mono ⟨⟨d2, hd2⟩, ⟨r2, hr2, hp2, hc2, hf2⟩, hg2, hdf2⟩ o
        (hf1 w hw o ho)
    · exact hf2 w hw o ho
  · intro d hd
    rcases hdf2 d hd with hd' | hcl
    · exact hdf1 d hd'
    · exact Or.inr hcl

end GenoshaEncoder

namespace GenoshaEncoder

theorem bind_eq_ok {ε α β : Type} {e : Except ε α} {f : α → Except ε β}
    {b : β} : ((e >>= f) = .ok b) ↔ ∃ a, e = .ok a ∧ f a = .ok b := by
  cases e <;> simp [Bind.bind, Except.bind]

theorem mapEnc_spec {rec : EncRec} (hrec : MSpec rec) :
    ∀ xs s gs s', mapEnc rec xs s = .ok (gs, s') →
      EncDelta s s' ∧ ∀ o ∈ wrefsL gs, o ∈ ids s' := by
  intro xs
  induction xs with
  | nil =>
    intro s gs s' hok
    simp only [mapEnc, Except.ok.injEq, Prod.mk.injEq] at hok
    obtain ⟨rfl, rfl⟩ := hok
    exact ⟨encDelta_refl s, by simp [wrefsL]⟩
  | cons x xs ih =>
    intro s gs s' hok
    simp only [mapEnc] at hok
    rw [bind_eq_ok] at hok
    obtain ⟨⟨g, s1⟩, hx, hok⟩ := hok
    dsimp only at hok
    rw [bind_eq_ok] at hok
    obtain ⟨⟨gs2, s2⟩, hxs, hok⟩ := hok
    dsimp only at hok
    simp only [Except.ok.injEq, Prod.mk.injEq] at hok
    obtain ⟨rfl, rfl⟩ := hok
    have h1 := ((hrec x s g s1 hx).1).1
    have h2 := ih s1 gs2 s2 hxs
    refine ⟨encDelta_trans h1 h2.1, ?_⟩
    intro o ho
    simp only [wrefsL, List.mem_append] at ho
    rcases ho with ho | ho
    · exact encDelta_ids_mono h2.1 o (((hrec x s g s1 hx).1).2 o ho)
    · exact h2.2 o ho

theorem mapEncPairs_spec {rec : EncRec} (hrec : MSpec rec) :
    ∀ kvs s gkvs s', mapEncPairs rec kvs s = .ok (gkvs, s') →
      EncDelta s s' ∧ ∀ o ∈ wrefsP gkvs, o ∈ ids s' := by
  intro kvs
  induction kvs with
  | nil =>
    intro s gkvs s' hok
    simp only [mapEncPairs, Except.ok.injEq, Prod.mk.injEq] at hok
    obtain ⟨rfl, rfl⟩ := hok
    exact ⟨encDelta_refl s, by simp [wrefsP]⟩
  | cons kv kvs ih =>
    obtain ⟨k, v⟩ := kv
    intro s gkvs s' hok
    simp only [mapEncPairs] at hok
    rw [bind_eq_ok] at hok
    obtain ⟨⟨gk, s1⟩, hk, hok⟩ := hok
    dsimp only at hok
    rw [bind_eq_ok] at hok
    obtain ⟨⟨gv, s2⟩, hv, hok⟩ := hok
    dsimp only at hok
    rw [bind_eq_ok] at hok
    obtain ⟨⟨gkvs2, s3⟩, hkvs, hok⟩ := hok
    dsimp only at hok
    simp only [Except.ok.injEq, Prod.mk.injEq] at hok
    obtain ⟨rfl, rfl⟩ := hok
    have h1 := (hrec k s gk s1 hk).1
    have h2 := (hrec v s1 gv s2 hv).1
    have h3 := ih s2 gkvs2 s3 hkvs
    have d13 : EncDelta s1 s3 := encDelta_trans h2.1 h3.1
    have d23 : EncDelta s2 s3 := h3.1
    refine ⟨encDelta_trans h1.1 d13, ?_⟩
    intro o ho
    simp only [wrefsP, List.mem_append] at ho
    rcases ho with (ho | ho) | ho
    · exact encDelta_ids_mono d13 o (h1.2 o ho)
    · exact encDelta_ids_mono d23 o (h2.2 o ho)
    · exact h3.2 o ho

/-- The keys of marshalled field pairs: a clean input key (a non-dunder
string primitive) marshals to itself. -/
theorem mapEncPairs_clean {rec : EncRec} (hrec : MSpec rec) :
    ∀ kvs s gkvs s', mapEncPairs rec kvs s = .ok (gkvs, s') →
      (∀ kv ∈ kvs, ∃ k, kv.1 = PValue.prim (Prim.pstr k) ∧ dunder k = false) →
      cleanFields (some gkvs) := by
  intro kvs
  induction kvs with
  | nil =>
    intro s gkvs s' hok hin
    simp only [mapEncPairs, Except.ok.injEq, Prod.mk.injEq] at hok
    obtain ⟨rfl, rfl⟩ := hok
    simp [cleanFields]
  | cons kv kvs ih =>
    obtain ⟨k, v⟩ := kv
    intro s gkvs s' hok hin
    simp only [mapEncPairs] at hok
    rw [bind_eq_ok] at hok
    obtain ⟨⟨gk, s1⟩, hk, hok⟩ := hok
    dsimp only at hok
    rw [bind_eq_ok] at hok
    obtain ⟨⟨gv, s2⟩, hv, hok⟩ := hok
    dsimp only at hok
    rw [bind_eq_ok] at hok
    obtain ⟨⟨gkvs2, s3⟩, hkvs, hok⟩ := hok
    dsimp only at hok
    simp only [Except.ok.injEq, Prod.mk.injEq] at hok
    obtain ⟨rfl, rfl⟩ := hok
    obtain ⟨k0, hk0, hnd⟩ := hin (k, v) (by simp)
    dsimp only at hk0
    subst hk0
    obtain ⟨hgk, -⟩ := (hrec _ s gk s1 hk).2 _ rfl
    intro kv hkv
    rcases List.mem_cons.mp hkv with rfl | hkv
    · exact ⟨k0, by simp [hgk], hnd⟩
    · exact ih s2 gkvs2 s3 hkvs (fun kv h => hin kv (by simp [h])) kv hkv

end GenoshaEncoder

namespace GenoshaEncoder

theorem filteredFields_nondunder (h : Heap) (a : Nat) :
    ∀ kv ∈ filteredFields h a, dunder kv.1 = false ∧ isCallable h kv.2 = false := by
  intro kv hkv
  have := List.of_mem_filter hkv
  simp only [Bool.and_eq_true, Bool.not_eq_true'] at this
  exact this

theorem runThunk_spec {rec : EncRec} (hrec : MSpec rec) :
    ∀ t s it s', runThunk rec t s = .ok (it, s') →
      EncDelta s s' ∧ ∀ o ∈ wrefsO it, o ∈ ids s' := by
  intro t s it s' hok
  cases t with
  | inone =>
    simp only [runThunk, Except.ok.injEq, Prod.mk.injEq] at hok
    obtain ⟨rfl, rfl⟩ := hok
    exact ⟨encDelta_refl s, by simp [wrefsO]⟩
  | iseq xs =>
    simp only [runThunk] at hok
    rw [bind_eq_ok] at hok
    obtain ⟨⟨gs, s1⟩, hxs, hok⟩ := hok
    dsimp only at hok
    simp only [Except.ok.injEq, Prod.mk.injEq] at hok
    obtain ⟨rfl, rfl⟩ := hok
    have := mapEnc_spec hrec xs s gs s1 hxs
    exact ⟨this.1, by simpa [wrefsO, wrefsW] using this.2⟩
  | ikvs kvs =>
    simp only [runThunk] at hok
    rw [bind_eq_ok] at hok
    obtain ⟨⟨gkvs, s1⟩, hkvs, hok⟩ := hok
    dsimp only at hok
    simp only [Except.ok.injEq, Prod.mk.injEq] at hok
    obtain ⟨rfl, rfl⟩ := hok
    have := mapEncPairs_spec hrec kvs s gkvs s1 hkvs
    exact ⟨this.1, by simpa [wrefsO, wrefsW] using this.2⟩
  | istr cs =>
    simp only [runThunk, Except.ok.injEq, Prod.mk.injEq] at hok
    obtain ⟨rfl, rfl⟩ := hok
    exact ⟨encDelta_refl s, by simp [wrefsO, wrefsW]⟩

theorem _object_spec {rec : EncRec} (hrec : MSpec rec) (h : Heap) (a : Nat)
    (thunk : IThunk) (attrs : List (List Char × PValue)) (isInst : Bool)
    (hattrs : ∀ kv ∈ attrs, dunder kv.1 = false) :
    ∀ s it fl s', _object h rec a thunk attrs isInst s = .ok ((it, fl), s') →
      EncDelta s s' ∧ (∀ o ∈ wrefsO it ++ wrefsPO fl, o ∈ ids s') ∧
        cleanFields fl := by
  intro s it fl s' hok
  have hfkeys : ∀ kv ∈ (if attrs.isEmpty then filteredFields h a
      else filteredFields h a ++ attrs), dunder kv.1 = false := by
    intro kv hkv
    split at hkv
    · exact (filteredFields_nondunder h a kv hkv).1
    · rcases List.mem_append.mp hkv with hkv | hkv
      · exact (filteredFields_nondunder h a kv hkv).1
      · exact hattrs kv hkv
  simp only [_object] at hok
  rw [bind_eq_ok] at hok
  obtain ⟨⟨it1, s1⟩, hth, hok⟩ := hok
  dsimp only at hok
  have h1 := runThunk_spec hrec thunk s it1 s1 hth
  cases isInst with
  | false =>
    simp only [Bool.false_eq_true, if_false, Except.ok.injEq, Prod.mk.injEq] at hok
    obtain ⟨⟨rfl, rfl⟩, rfl⟩ := hok
    refine ⟨h1.1, ?_, by simp [cleanFields]⟩
    intro o ho
    simp only [wrefsPO, List.append_nil] at ho
    exact h1.2 o ho
  | true =>
    simp only [if_true] at hok
    rw [bind_eq_ok] at hok
    obtain ⟨⟨gfs, s2⟩, hfs, hok⟩ := hok
    dsimp only at hok
    simp only [Except.ok.injEq, Prod.mk.injEq] at hok
    obtain ⟨⟨rfl, rfl⟩, rfl⟩ := hok
    have h2 := mapEncPairs_spec hrec _ s1 gfs s2 hfs
    have hclean : cleanFields (some gfs) := by
      refine mapEncPairs_clean hrec _ s1 gfs s2 hfs ?_
      intro kv hkv
      obtain ⟨kv0, hkv0, rfl⟩ := List.mem_map.mp hkv
      exact ⟨kv0.1, rfl, hfkeys kv0 hkv0⟩
    refine ⟨encDelta_trans h1.1 h2.1, ?_, hclean⟩
    intro o ho
    rcases List.mem_append.mp ho with ho | ho
    · exact encDelta_ids_mono h2.1 o (h1.2 o ho)
    · simp only [wrefsPO] at ho
      exact h2.2 o ho

end GenoshaEncoder

namespace GenoshaEncoder

theorem idsGood_fresh {s : EncState} (hg : IdsGood s) (a : Nat) :
    IdsGood { s with pythonIds := s.pythonIds ++ [(a, s.pythonIds.length + 1)] } := by
  unfold IdsGood at *
  simp only [List.map_append, List.length_append, List.map_cons, List.map_nil,
    List.length_cons, List.length_nil]
  rw [hg]
  simp [range'_one_concat]

theorem wrefsW_wobj (t : Option Tag) (o : Option Nat) (it : Option WValue)
    (fl : Option (List (WValue × WValue))) :
    wrefsW (.wobj t o it fl) = wrefsO it ++ wrefsPO fl := by
  cases it <;> cases fl <;> simp [wrefsW, wrefsO, wrefsPO]

theorem marshal_object_spec {rec : EncRec} (hrec : MSpec rec) (h : Heap)
    (a : Nat) (thunk : IThunk) (immutable : Bool) (typename : Option Tag)
    (attrs : List (List Char × PValue)) (root : Bool)
    (hattrs : ∀ kv ∈ attrs, dunder kv.1 = false) :
    ∀ s g s', s.pythonIds.lookup a = none →
      marshal_object h rec a thunk immutable typename attrs root s = .ok (g, s') →
      EncDelta s s' ∧ ∀ o ∈ wrefsW g, o ∈ ids s' := by
  intro s g s' hlk hok
  simp only [marshal_object] at hok
  rw [bind_eq_ok] at hok
  obtain ⟨tag, hty, hok⟩ := hok
  have hid : _id a s = (s.pythonIds.length + 1,
      { s with pythonIds := s.pythonIds ++ [(a, s.pythonIds.length + 1)] }) := by
    simp [_id, hlk]
  rw [hid] at hok
  dsimp only at hok
  cases immutable with
  | false =>
    simp only [Bool.false_eq_true, if_false, Except.ok.injEq, Prod.mk.injEq] at hok
    obtain ⟨rfl, rfl⟩ := hok
    constructor
    · refine ⟨⟨[(a, s.pythonIds.length + 1)], rfl⟩,
        ⟨[mkHeader tag (s.pythonIds.length + 1)], rfl, ?_, ?_, ?_⟩,
        fun hg => idsGood_fresh hg a, ?_⟩
      · rw [newIds_of_append (d := [(a, s.pythonIds.length + 1)]) rfl]
        simp [recordOids, mkHeader]
      · intro w hw
        simp only [List.mem_singleton] at hw
        subst hw
        simp [recClean, mkHeader, cleanFields]
      · intro w hw o ho
        simp only [List.mem_singleton] at hw
        subst hw
        simp [mkHeader, wrefsW_wobj, wrefsO, wrefsPO] at ho
      · intro d hd
        rcases List.mem_append.mp hd with hd | hd
        · exact Or.inl hd
        · simp only [List.mem_singleton] at hd
          subst hd
          exact Or.inr hattrs
    · intro o ho
      simp only [wrefsW, List.mem_singleton] at ho
      subst ho
      simp [ids]
  | true =>
    rw [if_pos rfl] at hok
    rw [bind_eq_ok] at hok
    obtain ⟨⟨⟨it, fl⟩, s2⟩, hobj, hok⟩ := hok
    dsimp only at hok
    simp only [Except.ok.injEq, Prod.mk.injEq] at hok
    obtain ⟨rfl, rfl⟩ := hok
    have h2 := _object_spec hrec h a thunk attrs typename.isNone hattrs _ it fl s2 hobj
    obtain ⟨⟨⟨d2, hd2⟩, ⟨r2, hr2, hp2, hc2, hf2⟩, hg2, hdf2⟩, hrefs2, hclean2⟩ := h2
    dsimp only at hd2 hr2
    have hpy2 : s2.pythonIds = s.pythonIds ++ ((a, s.pythonIds.length + 1) :: d2) := by
      rw [hd2]; simp
    have hids2 : ids s2 = ids s ++ (s.pythonIds.length + 1) :: d2.map Prod.snd := by
      rw [ids_append hpy2]; simp
    constructor
    · refine ⟨⟨(a, s.pythonIds.length + 1) :: d2, hpy2⟩,
        ⟨r2 ++ [.wobj (some tag) (some (s.pythonIds.length + 1)) it fl],
          by rw [hr2]; simp, ?_, ?_, ?_⟩, ?_, ?_⟩
      · have hp2n : (recordOids r2).Perm (d2.map Prod.snd) := by
          have hnw := hp2
          simp only [newIds] at hnw
          rw [hd2, List.drop_left] at hnw
          exact hnw
        simp only [newIds]
        rw [hpy2, List.drop_left, recordOids_append, List.map_cons]
        have hone : recordOids [WValue.wobj (some tag)
            (some (s.pythonIds.length + 1)) it fl] = [s.pythonIds.length + 1] := by
          simp [recordOids]
        rw [hone]
        exact List.perm_append_comm.trans (hp2n.cons _)
      · intro w hw
        rcases List.mem_append.mp hw with hw | hw
        · exact hc2 w hw
        · simp only [List.mem_singleton] at hw
          subst hw
          simpa [recClean] using hclean2
      · intro w hw o ho
        rcases List.mem_append.mp hw with hw | hw
        · exact hf2 w hw o ho
        · simp only [List.mem_singleton] at hw
          subst hw
          rw [wrefsW_wobj] at ho
          exact hrefs2 o ho
      · intro hg
        exact hg2 (idsGood_fresh hg a)
      · exact hdf2
    · intro o ho
      simp only [wrefsW, List.mem_singleton] at ho
      subst ho
      simp only [ids]
      rw [hpy2]
      simp

end GenoshaEncoder

namespace GenoshaEncoder

theorem _marshal_spec {rec : EncRec} (hrec : MSpec rec) (h : Heap)
    (root : Bool) :
    ∀ v s g s', _marshal h rec v root s = .ok (g, s') →
      (EncDelta s s' ∧ ∀ o ∈ wrefsW g, o ∈ ids s') ∧
      (∀ p, v = .prim p → g = .prim p ∧ s' = s) := by
  intro v s g s' hok
  cases v with
  | prim p =>
    simp only [_marshal, Except.ok.injEq, Prod.mk.injEq] at hok
    obtain ⟨rfl, rfl⟩ := hok
    refine ⟨⟨encDelta_refl s, by simp [wrefsW]⟩, ?_⟩
    intro p0 hp0
    cases hp0
    exact ⟨rfl, rfl⟩
  | ref a =>
    refine ⟨?_, fun p hp => by simp at hp⟩
    simp only [_marshal] at hok
    rcases hlkk : s.pythonIds.lookup a with _ | i
    · rw [hlkk] at hok
      dsimp only at hok
      rcases hha : h[a]? with _ | o
      · rw [hha] at hok
        simp at hok
      · rw [hha] at hok
        cases o with
        | plist xs =>
          exact marshal_object_spec hrec h a (.iseq xs) false none [] root
            (by simp) s g s' hlkk hok
        | ptuple xs =>
          exact marshal_object_spec hrec h a (.iseq xs) true none [] root
            (by simp) s g s' hlkk hok
        | pdict kvs =>
          exact marshal_object_spec hrec h a (.ikvs kvs) false none [] root
            (by simp) s g s' hlkk hok
        | pinst m p vis fs =>
          exact marshal_object_spec hrec h a .inone false none [] root
            (by simp) s g s' hlkk hok
        | pcomplex re im =>
          exact marshal_object_spec hrec h a
            (.istr (((pyComplexStr re im).drop 1).dropLast)) false none [] root
            (by simp) s g s' hlkk hok
        | pdefaultdict f kvs =>
          refine marshal_object_spec hrec h a (.ikvs kvs) false none
            [(defaultFactoryName, f)] root ?_ s g s' hlkk hok
          intro kv hkv
          simp only [List.mem_singleton] at hkv
          subst hkv
          show dunder defaultFactoryName = false
          decide
        | pfunc name mod path vis clos =>
          simp only [marshal_function] at hok
          split_ifs at hok with h1 h2 h3
          exact marshal_object_spec hrec h a .inone false
            (some (.tuser mod path)) [] root (by simp) s g s' hlkk hok
        | pglobal t vis =>
          simp only [marshal_type] at hok
          rw [bind_eq_ok] at hok
          obtain ⟨tag, htg, hok⟩ := hok
          exact marshal_object_spec hrec h a .inone false (some tag) [] root
            (by simp) s g s' hlkk hok
        | pgen => simp at hok
        | pold => simp at hok
    · rw [hlkk] at hok
      dsimp only at hok
      simp only [Except.ok.injEq, Prod.mk.injEq] at hok
      obtain ⟨rfl, rfl⟩ := hok
      refine ⟨encDelta_refl s, ?_⟩
      intro o ho
      simp only [wrefsW, List.mem_singleton] at ho
      subst ho
      exact List.mem_map_of_mem Prod.snd (lookup_mem hlkk)

theorem marshalF_MSpec (h : Heap) :
    ∀ n root, MSpec (fun v s => marshalF h n v root s) := by
  intro n
  induction n with
  | zero =>
    intro root v s g s' hok
    simp [marshalF] at hok
  | succ n ih =>
    intro root v s g s' hok
    simp only [marshalF] at hok
    exact _marshal_spec (ih false) h root v s g s' hok

theorem recordOids_cons (w : WValue) (ws : List WValue) :
    recordOids (w :: ws) =
      (match w with
       | .wobj _ (some o) _ _ => [o]
       | _ => []) ++ recordOids ws := by
  cases w with
  | wobj t o it fl => cases o <;> simp [recordOids, List.filterMap_cons]
  | prim p => simp [recordOids, List.filterMap_cons]
  | ref r => simp [recordOids, List.filterMap_cons]
  | wlist xs => simp [recordOids, List.filterMap_cons]
  | wdict kvs => simp [recordOids, List.filterMap_cons]

theorem recordOids_set_sameOid :
    ∀ (objs : List WValue) (idx : Nat) (t : Option Tag) (o : Option Nat)
      (it0 : Option WValue) (fl0 : Option (List (WValue × WValue))) (it fl),
      objs[idx]? = some (.wobj t o it0 fl0) →
      recordOids (objs.set idx (.wobj t o it fl)) = recordOids objs := by
  intro objs
  induction objs with
  | nil => intro idx t o it0 fl0 it fl hg; simp at hg
  | cons w ws ih =>
    intro idx t o it0 fl0 it fl hg
    cases idx with
    | zero =>
      simp only [List.getElem?_cons_zero, Option.some.injEq] at hg
      subst hg
      cases o <;> simp [List.set_cons_zero, recordOids_cons]
    | succ idx =>
      simp only [List.getElem?_cons_succ] at hg
      simp only [List.set_cons_succ, recordOids_cons, ih idx t o it0 fl0 it fl hg]

theorem recordOids_setRecord (objs : List WValue) (idx : Nat)
    (it : Option WValue) (fl : Option (List (WValue × WValue))) :
    recordOids (setRecord objs idx it fl) = recordOids objs := by
  unfold setRecord
  rcases hg : objs[idx]? with _ | w
  · rfl
  · cases w with
    | wobj t o it0 fl0 => exact recordOids_set_sameOid objs idx t o it0 fl0 it fl hg
    | prim p => rfl
    | ref r => rfl
    | wlist xs => rfl
    | wdict kvs => rfl

theorem setRecord_mem {objs : List WValue} {idx : Nat} {it : Option WValue}
    {fl : Option (List (WValue × WValue))} {w : WValue}
    (hw : w ∈ setRecord objs idx it fl) :
    w ∈ objs ∨ ∃ t o, w = .wobj t o it fl := by
  unfold setRecord at hw
  rcases hg : objs[idx]? with _ | w0
  · rw [hg] at hw
    exact Or.inl hw
  · rw [hg] at hw
    cases w0 with
    | wobj t o it0 fl0 =>
      rcases List.mem_or_eq_of_mem_set hw with h | h
      · exact Or.inl h
      · exact Or.inr ⟨t, o, h⟩
    | prim p => exact Or.inl hw
    | ref r => exact Or.inl hw
    | wlist xs => exact Or.inl hw
    | wdict kvs => exact Or.inl hw

end GenoshaEncoder

namespace GenoshaEncoder

theorem drainF_spec (h : Heap) (rf : Nat) :
    ∀ n s s', drainF h rf n s = .ok s' → GInv s →
      GInv s' ∧ ∃ d, s'.pythonIds = s.pythonIds ++ d := by
  intro n
  induction n with
  | zero => intro s s' hok _; simp [drainF] at hok
  | succ n ih =>
    intro s s' hok hg
    simp only [drainF] at hok
    rcases hdef : s.deferred with _ | ⟨d, rest⟩
    · rw [hdef] at hok
      dsimp only at hok
      simp only [Except.ok.injEq] at hok
      subst hok
      exact ⟨hg, ⟨[], by simp⟩⟩
    · rw [hdef] at hok
      dsimp only at hok
      rw [bind_eq_ok] at hok
      obtain ⟨⟨⟨it, fl⟩, s1⟩, hobj, hok⟩ := hok
      dsimp only at hok
      have hda : ∀ kv ∈ d.attrs, dunder kv.1 = false :=
        hg.2.2.2.2 d (hdef ▸ List.mem_cons_self d rest)
      have hos := _object_spec (marshalF_MSpec h rf false) h d.addr d.thunk
        d.attrs d.isInstance hda { s with deferred := rest } it fl s1 hobj
      obtain ⟨⟨⟨dd, hdd⟩, ⟨rr, hrr, hpp, hcc, hff⟩, hgg, hdfd⟩, hrefs, hclean⟩ := hos
      dsimp only at hdd hrr hpp hgg
      have hids1 : ids s1 = ids s ++ dd.map Prod.snd := ids_append hdd
      have hppn : (recordOids rr).Perm (dd.map Prod.snd) := by
        have hnw := hpp
        simp only [newIds] at hnw
        rw [hdd, List.drop_left] at hnw
        exact hnw
      have hgs2 : GInv { s1 with objects := setRecord s1.objects d.idx it fl } := by
        refine ⟨hgg hg.1, ?_, ?_, ?_, ?_⟩
        · show (recordOids (setRecord s1.objects d.idx it fl)).Perm (ids s1)
          rw [recordOids_setRecord, hrr, recordOids_append, hids1]
          exact hg.2.1.append hppn
        · intro w hw
          rcases setRecord_mem hw with hw | ⟨t0, o0, rfl⟩
          · rw [hrr] at hw
            rcases List.mem_append.mp hw with hw | hw
            · exact hg.2.2.1 w hw
            · exact hcc w hw
          · simpa [recClean] using hclean
        · intro w hw o ho
          show o ∈ ids s1
          rcases setRecord_mem hw with hw | ⟨t0, o0, rfl⟩
          · rw [hrr] at hw
            rcases List.mem_append.mp hw with hw | hw
            · rw [hids1]
              exact List.mem_append_left _ (hg.2.2.2.1 w hw o ho)
            · exact hff w hw o ho
          · rw [wrefsW_wobj] at ho
            exact hrefs o ho
        · intro e he kv hkv
          rcases hdfd e he with he2 | hcl
          · exact hg.2.2.2.2 e (hdef ▸ List.mem_cons_of_mem d he2) kv hkv
          · exact hcl kv hkv
      have hrest := ih _ s' hok hgs2
      refine ⟨hrest.1, ?_⟩
      obtain ⟨d2, hd2⟩ := hrest.2
      refine ⟨dd ++ d2, ?_⟩
      rw [hd2]
      dsimp only
      rw [hdd]
      simp

theorem marshal_GInv (h : Heap) (fuel : Nat) (v : PValue) (out : List WValue)
    (hok : marshal h fuel v = .ok out) :
    ∃ recs payload sF,
      out = [.prim (.pstr SENTINEL), .wlist recs, payload] ∧
      recs = sF.objects ∧ GInv sF ∧ (∀ o ∈ wrefsW payload, o ∈ ids sF) := by
  simp only [marshal] at hok
  rw [bind_eq_ok] at hok
  obtain ⟨⟨payload, s1⟩, hm, hok⟩ := hok
  dsimp only at hok
  rw [bind_eq_ok] at hok
  obtain ⟨s2, hdr, hok⟩ := hok
  simp only [Except.ok.injEq] at hok
  subst hok
  have hms := (marshalF_MSpec h fuel true v initState payload s1 hm).1
  obtain ⟨⟨⟨d1, hd1⟩, ⟨r1, hr1, hp1, hc1, hf1⟩, hg1, hdf1⟩, hprefs⟩ := hms
  have hgood1 : IdsGood s1 := hg1 (by simp [IdsGood, initState])
  have hg1' : GInv s1 := by
    refine ⟨hgood1, ?_, ?_, ?_, ?_⟩
    · have : s1.objects = r1 := by simpa [initState] using hr1
      rw [this]
      have hn : newIds initState s1 = ids s1 := by
        simp [newIds, initState, ids]
      rw [← hn]
      exact hp1
    · intro w hw
      have : s1.objects = r1 := by simpa [initState] using hr1
      rw [this] at hw
      exact hc1 w hw
    · intro w hw o ho
      have : s1.objects = r1 := by simpa [initState] using hr1
      rw [this] at hw
      exact hf1 w hw o ho
    · intro d hd
      rcases hdf1 d hd with hd2 | hcl
      · simp [initState] at hd2
      · exact hcl
  have hds := drainF_spec h fuel fuel s1 s2 hdr hg1'
  refine ⟨s2.objects, payload, s2, rfl, rfl, hds.1, ?_⟩
  intro o ho
  obtain ⟨d2, hd2⟩ := hds.2
  rw [ids_append hd2]
  exact List.mem_append_left _ (hprefs o ho)

end GenoshaEncoder

/-- **C3**: in every successful encoding, no two records share an oid (each
reachable composite yields exactly one record), and every reference
occurring anywhere in the output — in the payload or inside a record — is
the oid of exactly one record of the output.  Moreover a revisit of an
already-seen object returns a reference carrying the id stored for it,
changing nothing, so all occurrences after the first collapse to the same
reference id. -/
theorem claim_C3 (h : Heap) (fuel : Nat) (v : PValue) (out : List WValue)
    (n a i : Nat) (root : Bool) (s : GenoshaEncoder.EncState) :
    (GenoshaEncoder.marshal h fuel v = .ok out →
      ∃ recs payload,
        out = [.prim (.pstr SENTINEL), .wlist recs, payload] ∧
        (GenoshaEncoder.recordOids recs).Nodup ∧
        (∀ o ∈ GenoshaEncoder.wrefsW payload, o ∈ GenoshaEncoder.recordOids recs) ∧
        (∀ w ∈ recs, ∀ o ∈ GenoshaEncoder.wrefsW w,
          o ∈ GenoshaEncoder.recordOids recs)) ∧
    (s.pythonIds.lookup a = some i →
      GenoshaEncoder.marshalF h (n + 1) (.ref a) root s = .ok (.ref i, s)) := by
  constructor
  · intro hok
    obtain ⟨recs, payload, sF, hout, hrecs, hginv, hprefs⟩ :=
      GenoshaEncoder.marshal_GInv h fuel v out hok
    obtain ⟨hgood, hperm, hclean, hrefs, _⟩ := hginv
    have hidsnd : (GenoshaEncoder.ids sF).Nodup := by
      unfold GenoshaEncoder.ids
      rw [hgood]
      exact List.nodup_range' _ _
    have hnodup : (GenoshaEncoder.recordOids recs).Nodup := by
      rw [hrecs]
      exact hperm.symm.nodup hidsnd
    have hmem : ∀ o, o ∈ GenoshaEncoder.ids sF →
        o ∈ GenoshaEncoder.recordOids recs := by
      intro o ho
      rw [hrecs]
      exact hperm.mem_iff.mpr ho
    refine ⟨recs, payload, hout, hnodup, fun o ho => hmem o (hprefs o ho), ?_⟩
    intro w hw o ho
    rw [hrecs] at hw
    exact hmem o (hrefs w hw o ho)
  · intro hlk
    simp [GenoshaEncoder.marshalF, GenoshaEncoder._marshal, hlk]

/-- Witness for C3: the encoding of the self-cyclic list, and a revisit in
a session that has already seen address 3. -/
theorem claim_C3_witness :
    (∃ recs payload,
      [WValue.prim (.pstr SENTINEL),
       WValue.wlist [.wobj (some .tlist) (some 1)
         (some (.wlist [.prim (.pint 1), .prim (.pint 2), .prim (.pint 3), .ref 1]))
         (some [])],
       WValue.ref 1] = [.prim (.pstr SENTINEL), .wlist recs, payload] ∧
      (GenoshaEncoder.recordOids recs).Nodup ∧
      (∀ o ∈ GenoshaEncoder.wrefsW payload, o ∈ GenoshaEncoder.recordOids recs) ∧
      (∀ w ∈ recs, ∀ o ∈ GenoshaEncoder.wrefsW w,
        o ∈ GenoshaEncoder.recordOids recs)) ∧
    GenoshaEncoder.marshalF hSelfCycle 1 (.ref 3) false ⟨[], [], [(3, 1)], []⟩ =
      .ok (.ref 1, ⟨[], [], [(3, 1)], []⟩) :=
  ⟨(claim_C3 hSelfCycle 50 (.ref 0) _ 0 0 0 false GenoshaEncoder.initState).1 rfl,
    (claim_C3 hSelfCycle 50 (.ref 0) [] 0 3 1 false ⟨[], [], [(3, 1)], []⟩).2 rfl⟩

/-- **C10** (amended): the fields map of every record in every successful
encoding is clean: every attribute key is a string not starting with
`"__"`.  The attribute filter of `_object` keeps exactly the attributes of
the object's `__dict__` whose name does not start with `"__"` and whose
value is not callable, so dunder-named and callable-valued `__dict__`
attributes are omitted from the output.  The blanket claim that a record's
fields never hold a callable value is false: the `attributes` parameter of
`marshal_object` bypasses the filter, and `marshal_defaultdict` uses it to
store the callable `default_factory`, which decode restores via `setattr`
(see `claim_C10_counterexample`). -/
theorem claim_C10 (h : Heap) (fuel : Nat) (v : PValue) (out : List WValue)
    (a : Nat) (kv : List Char × PValue) :
    (GenoshaEncoder.marshal h fuel v = .ok out →
      ∃ recs payload,
        out = [.prim (.pstr SENTINEL), .wlist recs, payload] ∧
        ∀ w ∈ recs, GenoshaEncoder.recClean w) ∧
    (kv ∈ GenoshaEncoder.filteredFields h a →
      GenoshaEncoder.dunder kv.1 = false ∧ GenoshaEncoder.isCallable h kv.2 = false) ∧
    (kv ∈ GenoshaEncoder.pyFields h a → GenoshaEncoder.dunder kv.1 = false →
      GenoshaEncoder.isCallable h kv.2 = false →
      kv ∈ GenoshaEncoder.filteredFields h a) := by
  refine ⟨?_, GenoshaEncoder.filteredFields_nondunder h a kv, ?_⟩
  · intro hok
    obtain ⟨recs, payload, sF, hout, hrecs, hginv, hprefs⟩ :=
      GenoshaEncoder.marshal_GInv h fuel v out hok
    refine ⟨recs, payload, hout, ?_⟩
    intro w hw
    rw [hrecs] at hw
    exact hginv.2.2.1 w hw
  · intro hkv hd hc
    exact List.mem_filter.mpr ⟨hkv, by simp [hd, hc]⟩

/-- Witness for C10: the encoding of an instance carrying a dunder attribute
and a callable attribute, both of which are filtered out. -/
theorem claim_C10_witness :
    (∃ recs payload,
      [WValue.prim (.pstr SENTINEL),
       WValue.wlist [.wobj (some (.tuser ['m'] [['C']])) (some 1) none
         (some [(.prim (.pstr ['x']), .prim (.pint 5))])],
       WValue.ref 1] = [.prim (.pstr SENTINEL), .wlist recs, payload] ∧
      ∀ w ∈ recs, GenoshaEncoder.recClean w) ∧
    ((['x'], PValue.prim (.pint 5)) ∈ GenoshaEncoder.filteredFields
        [PObj.pinst ['m'] [['C']] true
          [(['_', '_', 'p'], .prim (.pint 9)), (['x'], .prim (.pint 5))]] 0 →
      GenoshaEncoder.dunder ['x'] = false) := by
  constructor
  · exact (claim_C10
      [PObj.pinst ['m'] [['C']] true
        [(['_', '_', 'p'], .prim (.pint 9)), (['x'], .prim (.pint 5))]]
      50 (.ref 0) _ 0 (['x'], .prim (.pint 5))).1 rfl
  · intro hkv
    exact ((claim_C10
      [PObj.pinst ['m'] [['C']] true
        [(['_', '_', 'p'], .prim (.pint 9)), (['x'], .prim (.pint 5))]]
      50 (.ref 0) [] 0 (['x'], .prim (.pint 5))).2.1 hkv).1

/-- Counterexample to the blanket reading of C10: encoding the
`defaultdict` heap `hDefaultDict` produces a record whose fields map holds
the attribute `default_factory` with a *callable* value (the reference to
the factory's record): `marshal_defaultdict` passes the factory through
`marshal_object`'s `attributes` parameter, which `_object` merges into the
fields map after the `__dict__` filter has run.  Decoding restores the
callable attribute: the decoded heap's `defaultdict` cell again points its
`default_factory` at the decoded callable. -/
theorem claim_C10_counterexample :
    GenoshaEncoder.marshal hDefaultDict 10 (.ref 0) =
      .ok [.prim (.pstr SENTINEL),
        .wlist [.wobj (some .tdefaultdict) (some 1) (some (.wdict []))
            (some [(.prim (.pstr GenoshaEncoder.defaultFactoryName), .ref 2)]),
          .wobj (some (.tuser ['m'] [['f']])) (some 2) none none],
        .ref 1] ∧
    GenoshaEncoder.isCallable hDefaultDict (.ref 1) = true ∧
    (∃ hp, roundTrip hDefaultDict 10 10 (.ref 0) = .ok (hp, .ref 0) ∧
      hp[0]? = some (.pdefaultdict (.ref 1) []) ∧
      GenoshaEncoder.isCallable hp (.ref 1) = true) :=
  ⟨rfl, rfl,
    ⟨[.pdefaultdict (.ref 1) [], .pglobal (.tuser ['m'] [['f']]) true,
      .plist [.ref 0, .ref 1], .plist [.ref 2], .pdict []],
     rfl, rfl, rfl⟩⟩
namespace GenoshaDecoder

open GenoshaEncoder (bind_eq_ok)

/-- Specification of `_unmarshal`: every oid registered during a call was
defined by a record inside the decoded value. -/
def DSpec (rec : DecRec) : Prop :=
  ∀ w s v s', rec w s = .ok (v, s') →
    ∀ o, o ∈ objKeys s' → o ∈ objKeys s ∨ o ∈ woidsW w

theorem mapDec_spec {rec : DecRec} (hrec : DSpec rec) :
    ∀ ws s vs s', mapDec rec ws s = .ok (vs, s') →
      ∀ o, o ∈ objKeys s' → o ∈ objKeys s ∨ o ∈ woidsL ws := by
  intro ws
  induction ws with
  | nil =>
    intro s vs s' hok o ho
    simp only [mapDec, Except.ok.injEq, Prod.mk.injEq] at hok
    obtain ⟨rfl, rfl⟩ := hok
    exact Or.inl ho
  | cons w ws ih =>
    intro s vs s' hok o ho
    simp only [mapDec] at hok
    rw [bind_eq_ok] at hok
    obtain ⟨⟨v1, s1⟩, hw, hok⟩ := hok
    dsimp only at hok
    rw [bind_eq_ok] at hok
    obtain ⟨⟨vs2, s2⟩, hws, hok⟩ := hok
    dsimp only at hok
    simp only [Except.ok.injEq, Prod.mk.injEq] at hok
    obtain ⟨rfl, rfl⟩ := hok
    rcases ih s1 vs2 s2 hws o ho with h1 | h1
    · rcases hrec w s v1 s1 hw o h1 with h2 | h2
      · exact Or.inl h2
      · exact Or.inr (by simp [woidsL, h2])
    · exact Or.inr (by simp [woidsL, h1])

theorem mapDecPairs_spec {rec : DecRec} (hrec : DSpec rec) :
    ∀ kvs s ps s', mapDecPairs rec kvs s = .ok (ps, s') →
      ∀ o, o ∈ objKeys s' → o ∈ objKeys s ∨ o ∈ woidsP kvs := by
  intro kvs
  induction kvs with
  | nil =>
    intro s ps s' hok o ho
    simp only [mapDecPairs, Except.ok.injEq, Prod.mk.injEq] at hok
    obtain ⟨rfl, rfl⟩ := hok
    exact Or.inl ho
  | cons kv kvs ih =>
    obtain ⟨kw, vw⟩ := kv
    intro s ps s' hok o ho
    simp only [mapDecPairs] at hok
    rw [bind_eq_ok] at hok
    obtain ⟨⟨k1, s1⟩, hk, hok⟩ := hok
    dsimp only at hok
    rw [bind_eq_ok] at hok
    obtain ⟨⟨v1, s2⟩, hv, hok⟩ := hok
    dsimp only at hok
    rw [bind_eq_ok] at hok
    obtain ⟨⟨ps2, s3⟩, hps, hok⟩ := hok
    dsimp only at hok
    simp only [Except.ok.injEq, Prod.mk.injEq] at hok
    obtain ⟨rfl, rfl⟩ := hok
    rcases ih s2 ps2 s3 hps o ho with h1 | h1
    · rcases hrec vw s1 v1 s2 hv o h1 with h2 | h2
      · rcases hrec kw s k1 s1 hk o h2 with h3 | h3
        · exact Or.inl h3
        · exact Or.inr (by simp [woidsP, h3])
      · exact Or.inr (by simp [woidsP, h2])
    · exact Or.inr (by simp [woidsP, h1])

theorem objKeys_alloc (p : PObj) (s : DecState) :
    objKeys (alloc p s).2 = objKeys s := rfl

theorem populateItems_spec {rec : DecRec} (hrec : DSpec rec) (a : Nat)
    (it? : Option WValue) :
    ∀ s s', populateItems rec a it? s = .ok s' →
      ∀ o, o ∈ objKeys s' → o ∈ objKeys s ∨ o ∈ woidsO it? := by
  intro s s' hok o ho
  rcases it? with _ | iw
  · simp only [populateItems, Except.ok.injEq] at hok
    subst hok
    exact Or.inl ho
  · simp only [populateItems] at hok
    rcases hha : s.heap[a]? with _ | obj
    · rw [hha] at hok
      dsimp only at hok
      simp only [Except.ok.injEq] at hok
      subst hok
      exact Or.inl ho
    · rw [hha] at hok
      cases obj <;>
        first
          | (dsimp only at hok
             rw [GenoshaEncoder.bind_eq_ok] at hok
             obtain ⟨⟨iv, s1⟩, hiv, hok⟩ := hok
             dsimp only at hok
             rw [GenoshaEncoder.bind_eq_ok] at hok
             obtain ⟨es, hes, hok⟩ := hok
             simp only [Except.ok.injEq] at hok
             subst hok
             exact (by simpa [woidsO] using hrec iw s iv s1 hiv o ho))
          | (dsimp only at hok
             simp only [Except.ok.injEq] at hok
             subst hok
             exact Or.inl ho)

theorem pySetattr_objKeys (a : Nat) (k v : PValue) :
    ∀ s s', pySetattr a k v s = .ok s' → objKeys s' = objKeys s := by
  intro s s' hok
  unfold pySetattr at hok
  split at hok
  · split at hok
    · split at hok
      · simp only [Except.ok.injEq] at hok
        subst hok
        rfl
      · simp at hok
    · simp at hok
  · simp at hok

theorem setFieldsSlots_spec {rec : DecRec} (hrec : DSpec rec) (a : Nat) :
    ∀ fps s s', setFieldsSlots rec a fps s = .ok s' →
      ∀ o, o ∈ objKeys s' → o ∈ objKeys s ∨ o ∈ woidsP fps := by
  intro fps
  induction fps with
  | nil =>
    intro s s' hok o ho
    simp only [setFieldsSlots, Except.ok.injEq] at hok
    subst hok
    exact Or.inl ho
  | cons kv rest ih =>
    obtain ⟨kw, vw⟩ := kv
    intro s s' hok o ho
    simp only [setFieldsSlots] at hok
    rw [GenoshaEncoder.bind_eq_ok] at hok
    obtain ⟨⟨k1, s1⟩, hk, hok⟩ := hok
    dsimp only at hok
    rw [GenoshaEncoder.bind_eq_ok] at hok
    obtain ⟨⟨v1, s2⟩, hv, hok⟩ := hok
    dsimp only at hok
    rw [GenoshaEncoder.bind_eq_ok] at hok
    obtain ⟨s3, hsa, hok⟩ := hok
    rcases ih s3 s' hok o ho with h | h
    · rw [pySetattr_objKeys a k1 v1 s2 s3 hsa] at h
      rcases hrec vw s1 v1 s2 hv o h with h2 | h2
      · rcases hrec kw s k1 s1 hk o h2 with h3 | h3
        · exact Or.inl h3
        · refine Or.inr ?_
          simp only [woidsP, List.mem_append]
          exact Or.inl (Or.inl h3)
      · refine Or.inr ?_
        simp only [woidsP, List.mem_append]
        exact Or.inl (Or.inr h2)
    · refine Or.inr ?_
      simp only [woidsP, List.mem_append]
      exact Or.inr h

theorem populateFields_spec {rec : DecRec} (hrec : DSpec rec) (a : Nat)
    (fl? : Option (List (WValue × WValue))) :
    ∀ s s', populateFields rec a fl? s = .ok s' →
      ∀ o, o ∈ objKeys s' → o ∈ objKeys s ∨ o ∈ woidsPO fl? := by
  intro s s' hok o ho
  rcases fl? with _ | fps
  · simp only [populateFields, Except.ok.injEq] at hok
    subst hok
    exact Or.inl ho
  · simp only [populateFields] at hok
    rcases hha : s.heap[a]? with _ | obj
    · rw [hha] at hok
      simp at hok
    · rw [hha] at hok
      cases obj <;>
        first
          | (dsimp only at hok
             rw [GenoshaEncoder.bind_eq_ok] at hok
             obtain ⟨⟨ps, s2⟩, hps, hok⟩ := hok
             dsimp only at hok
             simp only [Except.ok.injEq] at hok
             subst hok
             exact (by simpa [woidsPO] using
               mapDecPairs_spec hrec fps s ps s2 hps o ho))
          | (rcases fps with _ | ⟨⟨kw, vw⟩, rest⟩
             · dsimp only at hok
               simp only [Except.ok.injEq] at hok
               subst hok
               exact Or.inl ho
             · dsimp only at hok
               rw [GenoshaEncoder.bind_eq_ok] at hok
               obtain ⟨⟨k1, s2⟩, hk, hok⟩ := hok
               dsimp only at hok
               rw [GenoshaEncoder.bind_eq_ok] at hok
               obtain ⟨⟨v1, s3⟩, hv, hok⟩ := hok
               simp at hok)
          | (exact (by simpa [woidsPO] using
               setFieldsSlots_spec hrec a fps s s' hok o ho))

theorem populate_object_spec {rec : DecRec} (hrec : DSpec rec) (a : Nat)
    (it? : Option WValue) (fl? : Option (List (WValue × WValue))) :
    ∀ s s', populate_object rec a it? fl? s = .ok s' →
      ∀ o, o ∈ objKeys s' → o ∈ objKeys s ∨ o ∈ woidsO it? ++ woidsPO fl? := by
  intro s s' hok o ho
  simp only [populate_object] at hok
  rw [GenoshaEncoder.bind_eq_ok] at hok
  obtain ⟨sI, hit, hfl⟩ := hok
  rcases populateFields_spec hrec a fl? sI s' hfl o ho with h | h
  · rcases populateItems_spec hrec a it? s sI hit o h with h2 | h2
    · exact Or.inl h2
    · exact Or.inr (List.mem_append_left _ h2)
  · exact Or.inr (List.mem_append_right _ h)


theorem woidsW_wobj (t : Option Tag) (o : Option Nat) (it : Option WValue)
    (fl : Option (List (WValue × WValue))) :
    woidsW (.wobj t o it fl) =
      (match o with | some o => [o] | none => []) ++ woidsO it ++ woidsPO fl := by
  cases o <;> cases it <;> cases fl <;> simp [woidsW, woidsO, woidsPO]

theorem create_value_spec {rec : DecRec} (hrec : DSpec rec) (ty : Tag)
    (oid? : Option Nat) (it? : Option WValue)
    (fl? : Option (List (WValue × WValue))) :
    ∀ s v s', create_value rec ty oid? it? fl? s = .ok (v, s') →
      ∀ o, o ∈ objKeys s' → o ∈ objKeys s ∨ o ∈ woidsO it? ++ woidsPO fl? := by
  intro s v s' hbr o ho1
  simp only [create_value] at hbr
  split_ifs at hbr with h1 h2 h3
  · simp only [Except.ok.injEq, Prod.mk.injEq] at hbr
    obtain ⟨rfl, rfl⟩ := hbr
    exact Or.inl ho1
  · rcases it? with _ | iw
    · simp at hbr
    · dsimp only at hbr
      rw [GenoshaEncoder.bind_eq_ok] at hbr
      obtain ⟨⟨iv, sB⟩, hiv, hbr⟩ := hbr
      dsimp only at hbr
      rw [GenoshaEncoder.bind_eq_ok] at hbr
      obtain ⟨es, hes, hbr⟩ := hbr
      simp only [Except.ok.injEq, Prod.mk.injEq] at hbr
      obtain ⟨rfl, rfl⟩ := hbr
      rcases hrec iw s iv sB hiv o ho1 with h | h
      · exact Or.inl h
      · exact Or.inr (List.mem_append_left _ (by simpa [woidsO] using h))
  · rcases it? with _ | iw
    · simp at hbr
    · dsimp only at hbr
      rw [GenoshaEncoder.bind_eq_ok] at hbr
      obtain ⟨⟨iv, sB⟩, hiv, hbr⟩ := hbr
      dsimp only at hbr
      rw [GenoshaEncoder.bind_eq_ok] at hbr
      obtain ⟨c, hc, hbr⟩ := hbr
      simp only [Except.ok.injEq, Prod.mk.injEq] at hbr
      obtain ⟨rfl, rfl⟩ := hbr
      rcases hrec iw s iv sB hiv o ho1 with h | h
      · exact Or.inl h
      · exact Or.inr (List.mem_append_left _ (by simpa [woidsO] using h))
  · rw [GenoshaEncoder.bind_eq_ok] at hbr
    obtain ⟨shell, hsh, hbr⟩ := hbr
    rw [GenoshaEncoder.bind_eq_ok] at hbr
    obtain ⟨sP, hpop, hbr⟩ := hbr
    simp only [Except.ok.injEq, Prod.mk.injEq] at hbr
    obtain ⟨rfl, rfl⟩ := hbr
    exact populate_object_spec hrec _ it? fl? _ sP hpop o ho1
  · rw [GenoshaEncoder.bind_eq_ok] at hbr
    obtain ⟨shell, hsh, hbr⟩ := hbr
    simp only [Except.ok.injEq, Prod.mk.injEq] at hbr
    obtain ⟨rfl, rfl⟩ := hbr
    exact Or.inl ho1

theorem create_object_spec {rec : DecRec} (hrec : DSpec rec)
    (t? : Option Tag) (oid? : Option Nat) (it? : Option WValue)
    (fl? : Option (List (WValue × WValue))) :
    ∀ s v s', create_object rec t? oid? it? fl? s = .ok (v, s') →
      ∀ o, o ∈ objKeys s' → o ∈ objKeys s ∨ o ∈ woidsW (.wobj t? oid? it? fl?) := by
  intro s v s' hok o ho
  simp only [create_object] at hok
  rw [GenoshaEncoder.bind_eq_ok] at hok
  obtain ⟨ty, hty, hok⟩ := hok
  rw [GenoshaEncoder.bind_eq_ok] at hok
  obtain ⟨⟨obj, s1⟩, hbr, hok⟩ := hok
  dsimp only at hok
  have hbranch := create_value_spec hrec ty oid? it? fl? s obj s1 hbr
  rcases oid? with _ | o0
  · simp only [Except.ok.injEq, Prod.mk.injEq] at hok
    obtain ⟨rfl, rfl⟩ := hok
    rcases hbranch o ho with h | h
    · exact Or.inl h
    · refine Or.inr ?_
      rw [woidsW_wobj]
      rcases List.mem_append.mp h with h | h
      · exact List.mem_append_left _ (List.mem_append_right _ h)
      · exact List.mem_append_right _ h
  · simp only [Except.ok.injEq, Prod.mk.injEq] at hok
    obtain ⟨rfl, rfl⟩ := hok
    have ho' : o = o0 ∨ o ∈ objKeys s1 := by
      simpa [objKeys] using ho
    rcases ho' with rfl | ho'
    · exact Or.inr (by rw [woidsW_wobj]; simp)
    · rcases hbranch o ho' with h | h
      · exact Or.inl h
      · refine Or.inr ?_
        rw [woidsW_wobj]
        rcases List.mem_append.mp h with h | h
        · exact List.mem_append_left _ (List.mem_append_right _ h)
        · exact List.mem_append_right _ h

theorem _unmarshalStep_spec {rec : DecRec} (hrec : DSpec rec) :
    ∀ w s v s', _unmarshalStep rec w s = .ok (v, s') →
      ∀ o, o ∈ objKeys s' → o ∈ objKeys s ∨ o ∈ woidsW w := by
  intro w s v s' hok o ho
  cases w with
  | prim p =>
    simp only [_unmarshalStep, Except.ok.injEq, Prod.mk.injEq] at hok
    obtain ⟨rfl, rfl⟩ := hok
    exact Or.inl ho
  | ref oid =>
    simp only [_unmarshalStep, _reference] at hok
    rcases hlk : s.objects.lookup oid with _ | vv
    · rw [hlk] at hok
      simp at hok
    · rw [hlk] at hok
      simp only [Except.ok.injEq, Prod.mk.injEq] at hok
      obtain ⟨rfl, rfl⟩ := hok
      exact Or.inl ho
  | wlist xs =>
    simp only [_unmarshalStep] at hok
    rw [GenoshaEncoder.bind_eq_ok] at hok
    obtain ⟨⟨vs, s1⟩, hvs, hok⟩ := hok
    dsimp only at hok
    simp only [Except.ok.injEq, Prod.mk.injEq] at hok
    obtain ⟨rfl, rfl⟩ := hok
    have := mapDec_spec hrec xs s vs s1 hvs o ho
    simpa [woidsW] using this
  | wdict kvs =>
    simp only [_unmarshalStep] at hok
    rw [GenoshaEncoder.bind_eq_ok] at hok
    obtain ⟨⟨ps, s1⟩, hps, hok⟩ := hok
    dsimp only at hok
    simp only [Except.ok.injEq, Prod.mk.injEq] at hok
    obtain ⟨rfl, rfl⟩ := hok
    have := mapDecPairs_spec hrec kvs s ps s1 hps o ho
    simpa [woidsW] using this
  | wobj t oid it fl =>
    exact create_object_spec hrec t oid it fl s v s' hok o ho

theorem decodeF_DSpec : ∀ n, DSpec (decodeF n) := by
  intro n
  induction n with
  | zero =>
    intro w s v s' hok
    simp [decodeF] at hok
  | succ n ih =>
    intro w s v s' hok
    simp only [decodeF] at hok
    exact _unmarshalStep_spec ih w s v s' hok

end GenoshaDecoder

namespace GenoshaDecoder

theorem lookupPV_none_iff (m : List (Nat × PValue)) (a : Nat) :
    m.lookup a = none ↔ a ∉ m.map Prod.fst := by
  induction m with
  | nil => simp
  | cons kv rest ih =>
    obtain ⟨k, v⟩ := kv
    by_cases h : a = k
    · subst h
      simp [List.lookup]
    · have hbe : (a == k) = false := by simp [h]
      simp [List.lookup, hbe, ih, h]

end GenoshaDecoder


/-- **C7** (amended): a Reference that decode actually resolves against a
missing id fails with the Dangling-Reference error and decode never returns
a value; in particular a record stream whose root payload references an id
never defined by any record in the stream fails this way (whenever the
record phase itself succeeds), and `_reference` on an unregistered oid is
exactly the Dangling-Reference error.  A dangling Reference sitting in the
items of a record whose class has no item builder is *not* resolved and
decode can succeed — see the counterexample. -/
theorem claim_C7 (fuel : Nat) (mid : List WValue) (o : Nat)
    (s : GenoshaDecoder.DecState) :
    (o ∉ GenoshaDecoder.woidsL mid →
      (∀ r, GenoshaDecoder.unmarshal fuel
        (.prim (.pstr SENTINEL) :: mid ++ [.ref o]) ≠ .ok r) ∧
      ((∃ v1 s1, GenoshaDecoder.decodeF fuel (.wlist mid)
          GenoshaDecoder.initState = .ok (v1, s1)) →
        GenoshaDecoder.unmarshal fuel
          (.prim (.pstr SENTINEL) :: mid ++ [.ref o]) =
          .error (.danglingReference o))) ∧
    (s.objects.lookup o = none →
      GenoshaDecoder._reference o s = .error (.danglingReference o)) := by
  constructor
  · intro ho
    have hrw : GenoshaDecoder.unmarshal fuel
        (.prim (.pstr SENTINEL) :: mid ++ [.ref o]) = (do
          let (_, s) ← GenoshaDecoder.decodeF fuel (.wlist mid)
            GenoshaDecoder.initState
          let (payload, s) ← GenoshaDecoder.decodeF fuel (.ref o) s
          let s ← GenoshaDecoder.populateLoopF fuel fuel s
          Except.ok (s.heap, payload)) := by
      simp [GenoshaDecoder.unmarshal, List.dropLast_concat, List.getLastD_concat]
    rcases hph : GenoshaDecoder.decodeF fuel (.wlist mid)
        GenoshaDecoder.initState with e | ⟨v1, s1⟩
    · constructor
      · intro r hr
        rw [hrw] at hr
        simp [hph, Bind.bind, Except.bind] at hr
      · rintro ⟨v1, s1, hok1⟩
        exact absurd hok1 (by simp)
    · cases fuel with
      | zero => simp [GenoshaDecoder.decodeF] at hph
      | succ n =>
        have hkeys : ∀ oo, oo ∈ GenoshaDecoder.objKeys s1 →
            oo ∈ GenoshaDecoder.woidsL mid := by
          intro oo hoo
          rcases GenoshaDecoder.decodeF_DSpec (n + 1) (.wlist mid)
              GenoshaDecoder.initState v1 s1 hph oo hoo with h | h
          · simp [GenoshaDecoder.objKeys, GenoshaDecoder.initState] at h
          · simpa [GenoshaDecoder.woidsW] using h
        have hlk1 : s1.objects.lookup o = none := by
          rw [GenoshaDecoder.lookupPV_none_iff]
          intro hmem
          exact ho (hkeys o hmem)
        have hstep : GenoshaDecoder.decodeF (n + 1) (.ref o) s1 =
            .error (.danglingReference o) := by
          simp [GenoshaDecoder.decodeF, GenoshaDecoder._unmarshalStep,
            GenoshaDecoder._reference, hlk1]
        constructor
        · intro r hr
          rw [hrw] at hr
          simp [hph, hstep, Bind.bind, Except.bind] at hr
        · intro _
          rw [hrw]
          simp [hph, hstep, Bind.bind, Except.bind]
  · intro hlk
    simp [GenoshaDecoder._reference, hlk]

/-- Counterexample to C7 as stated: a stream whose only record is a plain
instance record carrying the dangling Reference `<@99@>` in its `items`.
`populate_object` finds no builder for the instance class, never decodes
the items, and decode returns a value instead of failing. -/
theorem claim_C7_counterexample :
    GenoshaDecoder.unmarshal 20
      [.prim (.pstr SENTINEL),
       .wlist [.wobj (some (.tuser ['m'] [['C']])) (some 1)
         (some (.wlist [.ref 99])) (some [])],
       .ref 1] =
      .ok ([.pinst ['m'] [['C']] true [], .plist [.ref 0], .plist [.ref 1],
        .pdict []], .ref 0) := rfl

/-- Witness for C7 (amended): the stream `[SENTINEL, <@7@>]` with no records
fails with Dangling-Reference 7. -/
theorem claim_C7_witness :
    GenoshaDecoder.unmarshal 5 [.prim (.pstr SENTINEL), .ref 7] =
      .error (.danglingReference 7) := by
  have h := (claim_C7 5 [] 7 GenoshaDecoder.initState).1
    (by simp [GenoshaDecoder.woidsL])
  exact h.2 ⟨_, _, rfl⟩

theorem obind_eq_some {α β : Type} {e : Option α} {f : α → Option β} {b : β} :
    (e >>= f) = some b ↔ ∃ a, e = some a ∧ f a = some b := by
  cases e <;> simp

theorem treeL_congr {rec1 rec2 : PValue → Option VTree}
    {xs : List PValue} {ts : List VTree}
    (hmono : ∀ x ∈ xs, ∀ t, rec1 x = some t → rec2 x = some t) :
    treeL rec1 xs = some ts → treeL rec2 xs = some ts := by
  induction xs generalizing ts with
  | nil => simp [treeL]
  | cons x xs ih =>
    intro hok
    simp only [treeL] at hok ⊢
    rw [obind_eq_some] at hok
    obtain ⟨t, ht, hok⟩ := hok
    rw [obind_eq_some] at hok
    obtain ⟨ts', hts', hok⟩ := hok
    rw [hmono x (by simp) t ht]
    rw [ih (fun y hy => hmono y (by simp [hy])) hts']
    exact hok

theorem treeP_congr {rec1 rec2 : PValue → Option VTree}
    {kvs : List (PValue × PValue)} {ts : List (VTree × VTree)}
    (hmono : ∀ x, (∃ kv ∈ kvs, x = kv.1 ∨ x = kv.2) →
      ∀ t, rec1 x = some t → rec2 x = some t) :
    treeP rec1 kvs = some ts → treeP rec2 kvs = some ts := by
  induction kvs generalizing ts with
  | nil => simp [treeP]
  | cons kv kvs ih =>
    intro hok
    obtain ⟨k, v⟩ := kv
    simp only [treeP] at hok ⊢
    rw [obind_eq_some] at hok
    obtain ⟨kt, hkt, hok⟩ := hok
    rw [obind_eq_some] at hok
    obtain ⟨vt, hvt, hok⟩ := hok
    rw [obind_eq_some] at hok
    obtain ⟨ts', hts', hok⟩ := hok
    rw [hmono k ⟨(k, v), by simp⟩ kt hkt, hmono v ⟨(k, v), by simp⟩ vt hvt]
    rw [ih (fun y hy => hmono y (by obtain ⟨kv', h1, h2⟩ := hy; exact ⟨kv', by simp [h1], h2⟩)) hts']
    exact hok

theorem treeFs_congr {rec1 rec2 : PValue → Option VTree}
    {fs : List (List Char × PValue)} {ts : List (List Char × VTree)}
    (hmono : ∀ x, (∃ kv ∈ fs, x = kv.2) → ∀ t, rec1 x = some t → rec2 x = some t) :
    treeFs rec1 fs = some ts → treeFs rec2 fs = some ts := by
  induction fs generalizing ts with
  | nil => simp [treeFs]
  | cons kv fs ih =>
    intro hok
    obtain ⟨k, v⟩ := kv
    simp only [treeFs] at hok ⊢
    rw [obind_eq_some] at hok
    obtain ⟨vt, hvt, hok⟩ := hok
    rw [obind_eq_some] at hok
    obtain ⟨ts', hts', hok⟩ := hok
    rw [hmono v ⟨(k, v), by simp⟩ vt hvt]
    rw [ih (fun y hy => hmono y (by obtain ⟨kv', h1, h2⟩ := hy; exact ⟨kv', by simp [h1], h2⟩)) hts']
    exact hok

/-- Tree extraction is monotone in the fuel. -/
theorem toTreeF_mono {h : Heap} : ∀ {n : Nat} {v : PValue} {t : VTree} {m : Nat},
    toTreeF h n v = some t → n ≤ m → toTreeF h m v = some t := by
  intro n
  induction n with
  | zero => intro v t m hok; simp [toTreeF] at hok
  | succ n ih =>
    intro v t m hok hle
    obtain ⟨m, rfl⟩ : ∃ m', m = m' + 1 :=
      ⟨m - 1, by omega⟩
    have hle' : n ≤ m := by omega
    match v with
    | .prim p => simpa [toTreeF] using hok
    | .ref a =>
      simp only [toTreeF] at hok ⊢
      split at hok
      · rename_i xs heq
        simp only [Option.map_eq_some'] at hok ⊢
        obtain ⟨ts, hts, rfl⟩ := hok
        exact ⟨ts, treeL_congr (fun x _ t hx => ih hx hle') hts, rfl⟩
      · rename_i xs heq
        simp only [Option.map_eq_some'] at hok ⊢
        obtain ⟨ts, hts, rfl⟩ := hok
        exact ⟨ts, treeL_congr (fun x _ t hx => ih hx hle') hts, rfl⟩
      · rename_i kvs heq
        simp only [Option.map_eq_some'] at hok ⊢
        obtain ⟨ts, hts, rfl⟩ := hok
        exact ⟨ts, treeP_congr (fun x _ t hx => ih hx hle') hts, rfl⟩
      · rename_i mo p vis fs heq
        split at hok
        · simp only [Option.map_eq_some'] at hok
          obtain ⟨ts, hts, rfl⟩ := hok
          rw [if_pos (by assumption)]
          exact Option.map_eq_some'.mpr
            ⟨ts, treeFs_congr (fun x _ t hx => ih hx hle') hts, rfl⟩
        · exact absurd hok (by simp)
      · rename_i name mo p vis clos heq
        exact hok
      · rename_i t0 vis heq
        exact hok
      · rename_i x heq h7
        exact absurd hok (by simp)

theorem treeL_mem {rec : PValue → Option VTree} {xs : List PValue}
    {ts : List VTree} (hok : treeL rec xs = some ts) {x : PValue}
    (hx : x ∈ xs) : ∃ t, rec x = some t := by
  induction xs generalizing ts with
  | nil => simp at hx
  | cons y ys ih =>
    simp only [treeL] at hok
    rw [obind_eq_some] at hok
    obtain ⟨t, ht, hok⟩ := hok
    rw [obind_eq_some] at hok
    obtain ⟨ts', hts', _⟩ := hok
    rcases List.mem_cons.mp hx with rfl | hx
    · exact ⟨t, ht⟩
    · exact ih hts' hx

theorem treeP_mem {rec : PValue → Option VTree} {kvs : List (PValue × PValue)}
    {ts : List (VTree × VTree)} (hok : treeP rec kvs = some ts) {x : PValue}
    (hx : ∃ kv ∈ kvs, x = kv.1 ∨ x = kv.2) : ∃ t, rec x = some t := by
  induction kvs generalizing ts with
  | nil =>
    obtain ⟨kv, hkv, _⟩ := hx
    exact absurd hkv (List.not_mem_nil kv)
  | cons kv kvs ih =>
    obtain ⟨k, v⟩ := kv
    simp only [treeP] at hok
    rw [obind_eq_some] at hok
    obtain ⟨kt, hkt, hok⟩ := hok
    rw [obind_eq_some] at hok
    obtain ⟨vt, hvt, hok⟩ := hok
    rw [obind_eq_some] at hok
    obtain ⟨ts', hts', _⟩ := hok
    obtain ⟨kv', hmem, hx⟩ := hx
    rcases List.mem_cons.mp hmem with rfl | hmem
    · rcases hx with rfl | rfl
      · exact ⟨kt, hkt⟩
      · exact ⟨vt, hvt⟩
    · exact ih hts' ⟨kv', hmem, hx⟩

theorem treeFs_mem {rec : PValue → Option VTree}
    {fs : List (List Char × PValue)} {ts : List (List Char × VTree)}
    (hok : treeFs rec fs = some ts) {x : PValue}
    (hx : ∃ kv ∈ fs, x = kv.2) : ∃ t, rec x = some t := by
  induction fs generalizing ts with
  | nil =>
    obtain ⟨kv, hkv, _⟩ := hx
    exact absurd hkv (List.not_mem_nil kv)
  | cons kv fs ih =>
    obtain ⟨k, v⟩ := kv
    simp only [treeFs] at hok
    rw [obind_eq_some] at hok
    obtain ⟨vt, hvt, hok⟩ := hok
    rw [obind_eq_some] at hok
    obtain ⟨ts', hts', _⟩ := hok
    obtain ⟨kv', hmem, hx⟩ := hx
    rcases List.mem_cons.mp hmem with rfl | hmem
    · refine ⟨vt, ?_⟩
      rw [hx]
      exact hvt
    · exact ih hts' ⟨kv', hmem, hx⟩

namespace GenoshaEncoder

theorem mem_pairsFlat {kvs : List (PValue × PValue)} {x : PValue} :
    x ∈ kvs.foldr (fun kv acc => kv.1 :: kv.2 :: acc) [] ↔
      ∃ kv ∈ kvs, x = kv.1 ∨ x = kv.2 := by
  induction kvs with
  | nil => simp
  | cons kv kvs ih =>
    simp only [List.foldr_cons, List.mem_cons, ih]
    constructor
    · rintro (rfl | rfl | ⟨kv', h1, h2⟩)
      · exact ⟨kv, by simp⟩
      · exact ⟨kv, by simp⟩
      · exact ⟨kv', by simp [h1], h2⟩
    · rintro ⟨kv', h1, h2⟩
      rcases h1 with rfl | h1
      · rcases h2 with rfl | rfl
        · exact Or.inl rfl
        · exact Or.inr (Or.inl rfl)
      · exact Or.inr (Or.inr ⟨kv', h1, h2⟩)

/-- Every value the encoder recurses into from a supported acyclic object is
itself supported and unfolds at one less fuel. -/
theorem toTreeF_child {h : Heap} {n : Nat} {a : Nat} {t : VTree}
    (hok : toTreeF h (n + 1) (.ref a) = some t) {x : PValue}
    (hx : x ∈ childVals h a) : ∃ tx, toTreeF h n x = some tx := by
  simp only [toTreeF] at hok
  simp only [childVals] at hx
  split at hok
  · rename_i xs heq
    rw [heq] at hx
    simp only [Option.map_eq_some'] at hok
    obtain ⟨ts, hts, _⟩ := hok
    exact treeL_mem hts hx
  · rename_i xs heq
    rw [heq] at hx
    simp only [Option.map_eq_some'] at hok
    obtain ⟨ts, hts, _⟩ := hok
    exact treeL_mem hts hx
  · rename_i kvs heq
    rw [heq] at hx
    simp only [Option.map_eq_some'] at hok
    obtain ⟨ts, hts, _⟩ := hok
    exact treeP_mem hts (mem_pairsFlat.mp hx)
  · rename_i mo p vis fs heq
    rw [heq] at hx
    split at hok
    · simp only [Option.map_eq_some'] at hok
      obtain ⟨ts, hts, _⟩ := hok
      obtain ⟨kv, hkv, rfl⟩ := List.mem_map.mp hx
      exact treeFs_mem hts ⟨kv, hkv, rfl⟩
    · exact absurd hok (by simp)
  · rename_i name mo p vis clos heq
    rw [heq] at hx
    simp at hx
  · rename_i t0 vis heq
    rw [heq] at hx
    simp at hx
  · exact absurd hok (by simp)

theorem rkA_child_lt {h : Heap} {a b : Nat} (hoka : okA h a)
    (hb : childAddr h a b) :
    ∃ hokb : okA h b, rkA h b hokb < rkA h a hoka := by
  have hspec := Nat.find_spec hoka
  rcases hn : Nat.find hoka with _ | m
  · rw [hn] at hspec
    simp [toTreeF] at hspec
  · rw [hn] at hspec
    rw [Option.isSome_iff_exists] at hspec
    obtain ⟨t, ht⟩ := hspec
    obtain ⟨tb, htb⟩ := toTreeF_child ht hb
    have hokb : okA h b := ⟨m, by simp [htb]⟩
    refine ⟨hokb, ?_⟩
    have hle : Nat.find hokb ≤ m := Nat.find_min' hokb (by simp [htb])
    simp only [rkA]
    omega

/-- Along a descending chain of child edges between supported acyclic
addresses, the new endpoint differs from every earlier link: supported
values cannot close a reference cycle. -/
theorem chain_not_mem {h : Heap} : ∀ (c : List Nat) (b : Nat),
    List.Chain' (childAddr h) (c ++ [b]) →
    (∀ e ∈ c, okA h e) → okA h b → b ∉ c := by
  have key : ∀ (c : List Nat) (b : Nat),
      List.Chain' (childAddr h) (c ++ [b]) →
      (∀ e ∈ c, okA h e) → ∀ hb : okA h b,
      ∀ e ∈ c, ∀ he : okA h e, rkA h b hb < rkA h e he := by
    intro c
    induction c with
    | nil => intro b _ _ _ e he; simp at he
    | cons e0 c ih =>
      intro b hchain hok hb e he hoke
      have hchain' : List.Chain' (childAddr h) (c ++ [b]) :=
        List.Chain'.tail (show List.Chain' (childAddr h) (e0 :: (c ++ [b])) by
          simpa only [List.cons_append] using hchain)
      rcases List.mem_cons.mp he with rfl | he
      · cases c with
        | nil =>
          have hedge : childAddr h e b := by simpa using hchain
          obtain ⟨hb', hlt⟩ := rkA_child_lt hoke hedge
          exact hlt
        | cons e1 c' =>
          have hedge : childAddr h e e1 := by
            have hcc : List.Chain' (childAddr h) (e :: e1 :: (c' ++ [b])) := by
              simpa only [List.cons_append] using hchain
            exact (List.chain'_cons.mp hcc).1
          have hoke1 : okA h e1 := hok e1 (by simp)
          obtain ⟨he1', hlt1⟩ := rkA_child_lt hoke hedge
          have hlt2 := ih b hchain' (fun x hx => hok x (by simp [hx])) hb e1
            (by simp) hoke1
          omega
      · exact ih b hchain' (fun x hx => hok x (by simp [hx])) hb e he hoke
  intro c b hchain hok hb hmem
  exact absurd (key c b hchain hok hb b hmem hb) (by omega)

end GenoshaEncoder
namespace GenoshaEncoder

theorem lookup_append_left {m d : List (Nat × Nat)} {a i : Nat}
    (hl : m.lookup a = some i) : (m ++ d).lookup a = some i := by
  induction m with
  | nil => simp [List.lookup] at hl
  | cons kv rest ih =>
    obtain ⟨k, v⟩ := kv
    by_cases h : a = k
    · subst h
      simp [List.lookup] at hl ⊢
      exact hl
    · have hbe : (a == k) = false := by simp [h]
      simp only [List.cons_append, List.lookup, hbe] at hl ⊢
      exact ih hl

theorem encV_stable {pid d : List (Nat × Nat)} {v : PValue} {g : WValue}
    (hv : encV pid v = some g) : encV (pid ++ d) v = some g := by
  cases v with
  | prim p => exact hv
  | ref b =>
    simp only [encV, Option.map_eq_some'] at hv ⊢
    obtain ⟨i, hi, rfl⟩ := hv
    exact ⟨i, lookup_append_left hi, rfl⟩

theorem encL_stable {pid d : List (Nat × Nat)} : ∀ {xs : List PValue}
    {gs : List WValue}, encL pid xs = some gs → encL (pid ++ d) xs = some gs := by
  intro xs
  induction xs with
  | nil => intro gs h; exact h
  | cons x xs ih =>
    intro gs h
    simp only [encL] at h ⊢
    rw [obind_eq_some] at h
    obtain ⟨g, hg, h⟩ := h
    rw [obind_eq_some] at h
    obtain ⟨gs', hgs, h⟩ := h
    rw [encV_stable hg, ih hgs]
    exact h

theorem encP_stable {pid d : List (Nat × Nat)} :
    ∀ {kvs : List (PValue × PValue)} {gp : List (WValue × WValue)},
    encP pid kvs = some gp → encP (pid ++ d) kvs = some gp := by
  intro kvs
  induction kvs with
  | nil => intro gp h; exact h
  | cons kv kvs ih =>
    intro gp h
    obtain ⟨k, v⟩ := kv
    simp only [encP] at h ⊢
    rw [obind_eq_some] at h
    obtain ⟨gk, hgk, h⟩ := h
    rw [obind_eq_some] at h
    obtain ⟨gv, hgv, h⟩ := h
    rw [obind_eq_some] at h
    obtain ⟨gs', hgs, h⟩ := h
    rw [encV_stable hgk, encV_stable hgv, ih hgs]
    exact h

theorem encF_stable {pid d : List (Nat × Nat)} :
    ∀ {fs : List (List Char × PValue)} {gf : List (WValue × WValue)},
    encF pid fs = some gf → encF (pid ++ d) fs = some gf := by
  intro fs
  induction fs with
  | nil => intro gf h; exact h
  | cons kv fs ih =>
    intro gf h
    obtain ⟨k, v⟩ := kv
    simp only [encF] at h ⊢
    rw [obind_eq_some] at h
    obtain ⟨gv, hgv, h⟩ := h
    rw [obind_eq_some] at h
    obtain ⟨gs', hgs, h⟩ := h
    rw [encV_stable hgv, ih hgs]
    exact h

theorem recordFor_stable {pid d : List (Nat × Nat)} {h : Heap} {a i : Nat}
    {w : WValue} (hw : recordFor pid h a i = some w) :
    recordFor (pid ++ d) h a i = some w := by
  simp only [recordFor] at hw ⊢
  split at hw
  · rename_i xs heq
    simp only [Option.map_eq_some'] at hw ⊢
    obtain ⟨gs, hgs, rfl⟩ := hw
    exact ⟨gs, encL_stable hgs, rfl⟩
  · rename_i xs heq
    simp only [Option.map_eq_some'] at hw ⊢
    obtain ⟨gs, hgs, rfl⟩ := hw
    exact ⟨gs, encL_stable hgs, rfl⟩
  · rename_i kvs heq
    simp only [Option.map_eq_some'] at hw ⊢
    obtain ⟨gp, hgp, rfl⟩ := hw
    exact ⟨gp, encP_stable hgp, rfl⟩
  · rename_i m p vis fs heq
    split at hw
    · simp only [Option.map_eq_some'] at hw
      obtain ⟨gf, hgf, rfl⟩ := hw
      rw [if_pos (by assumption)]
      exact Option.map_eq_some'.mpr ⟨gf, encF_stable hgf, rfl⟩
    · exact absurd hw (by simp)
  · rename_i name m p vis clos heq
    exact hw
  · rename_i t0 vis heq
    exact hw
  · exact absurd hw (by simp)

theorem mem_lookup_nodup {l : List (Nat × Nat)} {a i : Nat}
    (hnd : (l.map Prod.fst).Nodup) (hm : (a, i) ∈ l) :
    l.lookup a = some i := by
  induction l with
  | nil => simp at hm
  | cons kv rest ih =>
    obtain ⟨k, v⟩ := kv
    simp only [List.map_cons, List.nodup_cons] at hnd
    rcases List.mem_cons.mp hm with h | h
    · injection h with h1 h2
      subst h1
      subst h2
      simp [List.lookup]
    · have hne : a ≠ k := by
        rintro rfl
        exact hnd.1 (List.mem_map.mpr ⟨(a, i), h, rfl⟩)
      have hbe : (a == k) = false := by simp [hne]
      simp only [List.lookup, hbe]
      exact ih hnd.2 h

theorem snd_inj_nodup {l : List (Nat × Nat)} {a b i : Nat}
    (hnd : (l.map Prod.snd).Nodup) (ha : (a, i) ∈ l) (hb : (b, i) ∈ l) :
    a = b := by
  induction l with
  | nil => simp at ha
  | cons kv rest ih =>
    obtain ⟨k, v⟩ := kv
    simp only [List.map_cons, List.nodup_cons] at hnd
    rcases List.mem_cons.mp ha with h1 | h1 <;>
      rcases List.mem_cons.mp hb with h2 | h2
    · injection h1 with h1a h1b
      injection h2 with h2a h2b
      rw [h1a, h2a]
    · exfalso
      injection h1 with h1a h1b
      exact hnd.1 (List.mem_map.mpr ⟨(b, i), h2, h1b⟩)
    · exfalso
      injection h2 with h2a h2b
      exact hnd.1 (List.mem_map.mpr ⟨(a, i), h1, h2b⟩)
    · exact ih hnd.2 h1 h2

theorem idsGood_snd_nodup {s : EncState} (hg : IdsGood s) :
    (s.pythonIds.map Prod.snd).Nodup := by
  rw [hg]
  exact List.nodup_range' ..

theorem nodup_lt_length_le {keys : List Nat} {L : Nat} (hnd : keys.Nodup)
    (hlt : ∀ k ∈ keys, k < L) : keys.length ≤ L := by
  have h1 : keys.toFinset ⊆ Finset.range L := by
    intro k hk
    rw [List.mem_toFinset] at hk
    exact Finset.mem_range.mpr (hlt k hk)
  have h2 := Finset.card_le_card h1
  rw [Finset.card_range, List.toFinset_card_of_nodup hnd] at h2
  exact h2

theorem recordFor_shape {pid : List (Nat × Nat)} {h : Heap} {a i : Nat}
    {w : WValue} (hw : recordFor pid h a i = some w) :
    ∃ t it fl, w = .wobj (some t) (some i) it fl := by
  simp only [recordFor] at hw
  split at hw
  · simp only [Option.map_eq_some'] at hw
    obtain ⟨gs, _, rfl⟩ := hw
    exact ⟨_, _, _, rfl⟩
  · simp only [Option.map_eq_some'] at hw
    obtain ⟨gs, _, rfl⟩ := hw
    exact ⟨_, _, _, rfl⟩
  · simp only [Option.map_eq_some'] at hw
    obtain ⟨gp, _, rfl⟩ := hw
    exact ⟨_, _, _, rfl⟩
  · split at hw
    · simp only [Option.map_eq_some'] at hw
      obtain ⟨gf, _, rfl⟩ := hw
      exact ⟨_, _, _, rfl⟩
    · exact absurd hw (by simp)
  · split at hw
    · cases Option.some.inj hw
      exact ⟨_, _, _, rfl⟩
    · exact absurd hw (by simp)
  · split at hw
    · cases Option.some.inj hw
      exact ⟨_, _, _, rfl⟩
    · exact absurd hw (by simp)
  · exact absurd hw (by simp)

theorem oid_mem_recordOids {objs : List WValue} {j : Nat} {t : Option Tag}
    {o : Nat} {u : Option WValue} {w : Option (List (WValue × WValue))}
    (hj : objs[j]? = some (.wobj t (some o) u w)) :
    o ∈ recordOids objs := by
  have hmem : WValue.wobj t (some o) u w ∈ objs := by
    have hlt : j < objs.length := (List.getElem?_eq_some.mp hj).1
    have := List.getElem_mem (l := objs) (n := j) hlt
    rw [(List.getElem?_eq_some.mp hj).2] at this
    exact this
  simp only [recordOids, List.mem_filterMap]
  exact ⟨_, hmem, rfl⟩

theorem encL_ref {pid : List (Nat × Nat)} : ∀ {xs : List PValue}
    {gs : List WValue}, encL pid xs = some gs → ∀ o ∈ wrefsL gs,
    ∃ b, PValue.ref b ∈ xs ∧ pid.lookup b = some o := by
  intro xs
  induction xs with
  | nil =>
    intro gs h o ho
    cases Option.some.inj h
    simp [wrefsL] at ho
  | cons x xs ih =>
    intro gs h o ho
    simp only [encL] at h
    rw [obind_eq_some] at h
    obtain ⟨g, hg, h⟩ := h
    rw [obind_eq_some] at h
    obtain ⟨gs', hgs, h⟩ := h
    cases Option.some.inj h
    simp only [wrefsL, List.mem_append] at ho
    rcases ho with ho | ho
    · cases x with
      | prim p =>
        cases Option.some.inj hg
        simp [wrefsW] at ho
      | ref b =>
        simp only [encV, Option.map_eq_some'] at hg
        obtain ⟨i, hi, rfl⟩ := hg
        simp only [wrefsW, List.mem_singleton] at ho
        subst ho
        exact ⟨b, by simp, hi⟩
    · obtain ⟨b, hb, hlb⟩ := ih hgs o ho
      exact ⟨b, by simp [hb], hlb⟩

theorem chain_append_one {R : Nat → Nat → Prop} {l : List Nat} {a b : Nat}
    (hc : List.Chain' R (l ++ [a])) (hab : R a b) :
    List.Chain' R ((l ++ [a]) ++ [b]) := by
  apply List.Chain'.append hc (by simp)
  intro x hx y hy
  rw [List.getLast?_concat] at hx
  simp only [List.head?_cons] at hy
  cases hy
  cases hx
  exact hab

end GenoshaEncoder
namespace GenoshaEncoder

theorem ebind_ok {ε α β : Type} (a : α) (f : α → Except ε β) :
    (Except.ok a >>= f) = f a := rfl

theorem tree_pos {h : Heap} {n : Nat} {v : PValue}
    (ht : (toTreeF h n v).isSome = true) : 1 ≤ n := by
  cases n with
  | zero => simp [toTreeF] at ht
  | succ n => omega

theorem lookup_append_fresh {m : List (Nat × Nat)} {a i : Nat}
    (hl : m.lookup a = none) : (m ++ [(a, i)]).lookup a = some i := by
  induction m with
  | nil => simp [List.lookup]
  | cons kv rest ih =>
    obtain ⟨k, v⟩ := kv
    by_cases h : a = k
    · subst h
      simp [List.lookup] at hl
    · have hbe : (a == k) = false := by simp [h]
      simp only [List.lookup, hbe] at hl
      simp only [List.cons_append, List.lookup, hbe]
      exact ih hl

theorem excOK_ext {h : Heap} {s s' : EncState} {exc : List Nat}
    (hexc : ExcOK h s exc) (hd : ∃ d, s'.pythonIds = s.pythonIds ++ d) :
    ExcOK h s' exc := by
  obtain ⟨d, hd⟩ := hd
  intro e he
  obtain ⟨hok, i, hi⟩ := hexc e he
  exact ⟨hok, i, by rw [hd]; exact List.mem_append_left _ hi⟩

end GenoshaEncoder
namespace GenoshaEncoder

theorem getElem_app_left {α : Type} {l1 l2 : List α} {j : Nat} {x : α}
    (hj : l1[j]? = some x) : (l1 ++ l2)[j]? = some x := by
  have hlt : j < l1.length := (List.getElem?_eq_some.mp hj).1
  rw [List.getElem?_append, if_pos hlt]
  exact hj

theorem getElem_concat_self {α : Type} (l : List α) (x : α) :
    (l ++ [x])[l.length]? = some x := by
  rw [List.getElem?_concat_length]

theorem getElem_concat_cases {α : Type} {l : List α} {x w : α} {j : Nat}
    (hj : (l ++ [x])[j]? = some w) :
    l[j]? = some w ∨ (j = l.length ∧ w = x) := by
  by_cases hlt : j < l.length
  · left
    rw [List.getElem?_append, if_pos hlt] at hj
    exact hj
  · right
    have hlen : j < l.length + 1 := by
      have := (List.getElem?_eq_some.mp hj).1
      simpa using this
    have hje : j = l.length := by omega
    subst hje
    rw [getElem_concat_self] at hj
    exact ⟨rfl, (Option.some.inj hj).symm⟩

theorem take_app_left {α : Type} {l l2 : List α} {j : Nat}
    (hj : j ≤ l.length) : (l ++ l2).take j = l.take j := by
  rw [List.take_append_of_le_length hj]

theorem itemsSpec_stable {pid d : List (Nat × Nat)} {th : IThunk}
    {it : Option WValue} (hit : itemsSpec pid th it) :
    itemsSpec (pid ++ d) th it := by
  cases th with
  | inone => exact hit
  | iseq xs =>
    obtain ⟨gs, rfl, hgs⟩ := hit
    exact ⟨gs, rfl, encL_stable hgs⟩
  | ikvs kvs =>
    obtain ⟨gp, rfl, hgp⟩ := hit
    exact ⟨gp, rfl, encP_stable hgp⟩
  | istr cs => exact hit

end GenoshaEncoder
namespace GenoshaEncoder

end GenoshaEncoder
namespace GenoshaEncoder

theorem filteredFields_of_tuple {h : Heap} {a : Nat} {xs : List PValue}
    (hha : h[a]? = some (.ptuple xs)) : filteredFields h a = [] := by
  simp [filteredFields, pyFields, hha]

end GenoshaEncoder
namespace GenoshaEncoder

end GenoshaEncoder
namespace GenoshaEncoder

theorem sdelta_refl (s : EncState) : SDelta s s :=
  ⟨⟨[], by simp⟩, le_refl _, ⟨[], by simp⟩, fun e he => Or.inl he,
    fun o ho => Or.inl ho⟩

theorem sdelta_trans {s1 s2 s3 : EncState} (h12 : SDelta s1 s2)
    (h23 : SDelta s2 s3) : SDelta s1 s3 := by
  obtain ⟨⟨d1, hd1⟩, hb1, ⟨r1, hr1⟩, hp1, ho1⟩ := h12
  obtain ⟨⟨d2, hd2⟩, hb2, ⟨r2, hr2⟩, hp2, ho2⟩ := h23
  refine ⟨⟨d1 ++ d2, by rw [hd2, hd1, List.append_assoc]⟩, ?_,
    ⟨r1 ++ r2, by rw [hr2, hr1, List.append_assoc]⟩, ?_, ?_⟩
  · have hl1 : s2.pythonIds.length = s1.pythonIds.length + d1.length := by
      rw [hd1]; simp
    have hl2 : s3.pythonIds.length = s2.pythonIds.length + d2.length := by
      rw [hd2]; simp
    omega
  · intro e he
    rcases hp2 e he with he2 | hgt
    · rcases hp1 e he2 with he1 | hgt
      · exact Or.inl he1
      · exact Or.inr hgt
    · refine Or.inr ?_
      have : s1.objects.length ≤ s2.objects.length := by
        rw [hr1]; simp
      omega
  · intro o ho
    rcases ho2 o ho with ho2' | hni
    · rcases ho1 o ho2' with ho1' | hni
      · exact Or.inl ho1'
      · exact Or.inr hni
    · refine Or.inr ?_
      intro hmem
      exact hni (by
        have : ids s2 = ids s1 ++ d1.map Prod.snd := by
          simp only [ids, hd1, List.map_append]
        rw [this]
        exact List.mem_append_left _ hmem)

theorem sdelta_pid {s s' : EncState} (h : SDelta s s') :
    ∃ d, s'.pythonIds = s.pythonIds ++ d := h.1

theorem recordOids_concat (objs : List WValue) (t : Option Tag) (i : Nat)
    (it : Option WValue) (fl : Option (List (WValue × WValue))) :
    recordOids (objs ++ [.wobj t (some i) it fl]) = recordOids objs ++ [i] := by
  rw [recordOids_append]
  simp [recordOids]

theorem fresh_not_in_ids {s : EncState} (hig : IdsGood s) :
    s.pythonIds.length + 1 ∉ ids s := by
  intro hmem
  unfold ids at hmem
  rw [hig] at hmem
  rw [List.mem_range'_1] at hmem
  omega

theorem fresh_not_in_recordOids {s : EncState} (hig : IdsGood s)
    (hcov : OidsCover s) : s.pythonIds.length + 1 ∉ recordOids s.objects :=
  fun hmem => fresh_not_in_ids hig (hcov _ hmem)

theorem mem_ids_of_mem {s : EncState} {a i : Nat}
    (hm : (a, i) ∈ s.pythonIds) : i ∈ ids s :=
  List.mem_map.mpr ⟨(a, i), hm, rfl⟩

theorem mapEnc_full {h : Heap} {n : Nat} {rec : EncRec} (hrec : RecFull h n rec) :
    ∀ (xs : List PValue) (s : EncState) (exc : List Nat),
    (∀ x ∈ xs, (toTreeF h n x).isSome = true) →
    (∀ x ∈ xs, ChainV h exc x) →
    ExcOK h s exc →
    EInv h s exc →
    ∃ gs s', mapEnc rec xs s = .ok (gs, s') ∧ SDelta s s' ∧
      EInv h s' exc ∧ encL s'.pythonIds xs = some gs := by
  intro xs
  induction xs with
  | nil =>
    intro s exc _ _ _ hinv
    exact ⟨[], s, rfl, sdelta_refl s, hinv, rfl⟩
  | cons x xs ih =>
    intro s exc htree hchain hexc hinv
    obtain ⟨g, s1, hx, hS1, hinv1, hg1⟩ :=
      hrec x s exc (htree x (by simp)) (hchain x (by simp)) hexc hinv
    have hexc1 : ExcOK h s1 exc := excOK_ext hexc hS1.1
    obtain ⟨gs, s2, hxs, hS2, hinv2, hgs2⟩ :=
      ih s1 exc (fun y hy => htree y (by simp [hy]))
        (fun y hy => hchain y (by simp [hy])) hexc1 hinv1
    refine ⟨g :: gs, s2, ?_, sdelta_trans hS1 hS2, hinv2, ?_⟩
    · simp only [mapEnc, hx, ebind_ok, hxs]
    · obtain ⟨d2, hd2⟩ := hS2.1
      have hgstab : encV s2.pythonIds x = some g := by
        rw [hd2]
        exact encV_stable hg1
      simp only [encL, hgstab, hgs2]
      rfl

theorem mapEncPairs_full {h : Heap} {n : Nat} {rec : EncRec}
    (hrec : RecFull h n rec) :
    ∀ (kvs : List (PValue × PValue)) (s : EncState) (exc : List Nat),
    (∀ kv ∈ kvs, ((toTreeF h n kv.1).isSome = true ∧ ChainV h exc kv.1) ∧
      ((toTreeF h n kv.2).isSome = true ∧ ChainV h exc kv.2)) →
    ExcOK h s exc →
    EInv h s exc →
    ∃ gp s', mapEncPairs rec kvs s = .ok (gp, s') ∧ SDelta s s' ∧
      EInv h s' exc ∧ encP s'.pythonIds kvs = some gp := by
  intro kvs
  induction kvs with
  | nil =>
    intro s exc _ _ hinv
    exact ⟨[], s, rfl, sdelta_refl s, hinv, rfl⟩
  | cons kv kvs ih =>
    intro s exc hkv hexc hinv
    obtain ⟨k, v⟩ := kv
    obtain ⟨⟨htk, hck⟩, htv, hcv⟩ := hkv (k, v) (by simp)
    obtain ⟨gk, s1, hk1, hS1, hinv1, hgk1⟩ :=
      hrec k s exc htk hck hexc hinv
    have hexc1 : ExcOK h s1 exc := excOK_ext hexc hS1.1
    obtain ⟨gv, s2, hv2, hS2, hinv2, hgv2⟩ :=
      hrec v s1 exc htv hcv hexc1 hinv1
    have hexc2 : ExcOK h s2 exc := excOK_ext hexc1 hS2.1
    obtain ⟨gp, s3, hp3, hS3, hinv3, hgp3⟩ :=
      ih s2 exc (fun kv' hkv' => hkv kv' (by simp [hkv'])) hexc2 hinv2
    refine ⟨(gk, gv) :: gp, s3, ?_, sdelta_trans hS1 (sdelta_trans hS2 hS3),
      hinv3, ?_⟩
    · simp only [mapEncPairs, hk1, ebind_ok, hv2, hp3]
    · obtain ⟨d2, hd2⟩ := hS2.1
      obtain ⟨d3, hd3⟩ := hS3.1
      have hgk : encV s3.pythonIds k = some gk := by
        rw [hd3, hd2, List.append_assoc]
        exact encV_stable hgk1
      have hgv : encV s3.pythonIds v = some gv := by
        rw [hd3]
        exact encV_stable hgv2
      simp only [encP, hgk, hgv, hgp3]
      rfl

theorem mapEncFields_full {h : Heap} {n : Nat} {rec : EncRec}
    (hrec : RecFull h n rec) :
    ∀ (fs : List (List Char × PValue)) (s : EncState) (exc : List Nat),
    (∀ kv ∈ fs, (toTreeF h n kv.2).isSome = true ∧ ChainV h exc kv.2) →
    ExcOK h s exc →
    EInv h s exc →
    ∃ gfs s', mapEncPairs rec
        (fs.map fun kv => (.prim (.pstr kv.1), kv.2)) s = .ok (gfs, s') ∧
      SDelta s s' ∧ EInv h s' exc ∧ encF s'.pythonIds fs = some gfs := by
  intro fs
  induction fs with
  | nil =>
    intro s exc _ _ hinv
    exact ⟨[], s, rfl, sdelta_refl s, hinv, rfl⟩
  | cons kv fs ih =>
    intro s exc hkv hexc hinv
    obtain ⟨k, v⟩ := kv
    obtain ⟨htv, hcv⟩ := hkv (k, v) (by simp)
    have hn : 1 ≤ n := tree_pos htv
    obtain ⟨m, rfl⟩ : ∃ m, n = m + 1 := ⟨n - 1, by omega⟩
    have htk : (toTreeF h (m + 1) (.prim (.pstr k))).isSome = true := by
      simp [toTreeF]
    have hck : ChainV h exc (.prim (.pstr k)) := by
      intro b hb
      exact absurd hb (by simp)
    obtain ⟨gk, s1, hk1, hS1, hinv1, hgk1⟩ :=
      hrec (.prim (.pstr k)) s exc htk hck hexc hinv
    have hgkp : gk = .prim (.pstr k) := by
      simp only [encV, Option.some.injEq] at hgk1
      exact hgk1.symm
    subst hgkp
    have hexc1 : ExcOK h s1 exc := excOK_ext hexc hS1.1
    obtain ⟨gv, s2, hv2, hS2, hinv2, hgv2⟩ :=
      hrec v s1 exc htv hcv hexc1 hinv1
    have hexc2 : ExcOK h s2 exc := excOK_ext hexc1 hS2.1
    obtain ⟨gfs, s3, hp3, hS3, hinv3, hgfs3⟩ :=
      ih s2 exc (fun kv' hkv' => hkv kv' (by simp [hkv'])) hexc2 hinv2
    refine ⟨(.prim (.pstr k), gv) :: gfs, s3, ?_,
      sdelta_trans hS1 (sdelta_trans hS2 hS3), hinv3, ?_⟩
    · simp only [List.map_cons, mapEncPairs, hk1, ebind_ok, hv2, hp3]
    · obtain ⟨d3, hd3⟩ := hS3.1
      have hgv : encV s3.pythonIds v = some gv := by
        rw [hd3]
        exact encV_stable hgv2
      simp only [encF, hgv, hgfs3]
      rfl

theorem runThunk_full {h : Heap} {n : Nat} {rec : EncRec}
    (hrec : RecFull h n rec) (th : IThunk) (s : EncState) (exc : List Nat)
    (hseq : ∀ xs, th = .iseq xs → ∀ x ∈ xs,
      (toTreeF h n x).isSome = true ∧ ChainV h exc x)
    (hkvs : ∀ kvs, th = .ikvs kvs → ∀ kv ∈ kvs,
      ((toTreeF h n kv.1).isSome = true ∧ ChainV h exc kv.1) ∧
      ((toTreeF h n kv.2).isSome = true ∧ ChainV h exc kv.2))
    (hexc : ExcOK h s exc) (hinv : EInv h s exc) :
    ∃ it s', runThunk rec th s = .ok (it, s') ∧ SDelta s s' ∧
      EInv h s' exc ∧ itemsSpec s'.pythonIds th it := by
  cases th with
  | inone =>
    exact ⟨none, s, rfl, sdelta_refl s, hinv, rfl⟩
  | iseq xs =>
    obtain ⟨gs, s', hmap, hS, hinv', hgs⟩ :=
      mapEnc_full hrec xs s exc (fun x hx => (hseq xs rfl x hx).1)
        (fun x hx => (hseq xs rfl x hx).2) hexc hinv
    refine ⟨some (.wlist gs), s', ?_, hS, hinv', ⟨gs, rfl, hgs⟩⟩
    simp only [runThunk, hmap, ebind_ok]
  | ikvs kvs =>
    obtain ⟨gp, s', hmap, hS, hinv', hgp⟩ :=
      mapEncPairs_full hrec kvs s exc (fun kv hkv => hkvs kvs rfl kv hkv)
        hexc hinv
    refine ⟨some (.wdict gp), s', ?_, hS, hinv', ⟨gp, rfl, hgp⟩⟩
    simp only [runThunk, hmap, ebind_ok]
  | istr cs =>
    exact ⟨some (.prim (.pstr cs)), s, rfl, sdelta_refl s, hinv, rfl⟩

theorem _object_full {h : Heap} {n : Nat} {rec : EncRec}
    (hrec : RecFull h n rec) (a : Nat) (th : IThunk) (inst : Bool)
    (s : EncState) (exc : List Nat)
    (hseq : ∀ xs, th = .iseq xs → ∀ x ∈ xs,
      (toTreeF h n x).isSome = true ∧ ChainV h exc x)
    (hkvs : ∀ kvs, th = .ikvs kvs → ∀ kv ∈ kvs,
      ((toTreeF h n kv.1).isSome = true ∧ ChainV h exc kv.1) ∧
      ((toTreeF h n kv.2).isSome = true ∧ ChainV h exc kv.2))
    (hfs : inst = true → ∀ kv ∈ filteredFields h a,
      (toTreeF h n kv.2).isSome = true ∧ ChainV h exc kv.2)
    (hexc : ExcOK h s exc) (hinv : EInv h s exc) :
    ∃ it fl s', _object h rec a th [] inst s = .ok ((it, fl), s') ∧
      SDelta s s' ∧ EInv h s' exc ∧ itemsSpec s'.pythonIds th it ∧
      (inst = true → ∃ gfs, fl = some gfs ∧
        encF s'.pythonIds (filteredFields h a) = some gfs) ∧
      (inst = false → fl = none) := by
  obtain ⟨it, s1, hth, hS1, hinv1, hit1⟩ :=
    runThunk_full hrec th s exc hseq hkvs hexc hinv
  cases inst with
  | false =>
    refine ⟨it, none, s1, ?_, hS1, hinv1, hit1,
      (by intro hc; exact absurd hc (by simp)), fun _ => rfl⟩
    simp only [_object, hth, ebind_ok, List.isEmpty_nil, if_true,
      Bool.false_eq_true, if_false]
  | true =>
    have hexc1 : ExcOK h s1 exc := excOK_ext hexc hS1.1
    obtain ⟨gfs, s2, hmapf, hS2, hinv2, hgfs⟩ :=
      mapEncFields_full hrec (filteredFields h a) s1 exc
        (fun kv hkv => hfs rfl kv hkv) hexc1 hinv1
    refine ⟨it, some gfs, s2, ?_, sdelta_trans hS1 hS2, hinv2, ?_,
      fun _ => ⟨gfs, rfl, hgfs⟩, (by intro hc; exact absurd hc (by simp))⟩
    · simp only [_object, hth, ebind_ok, List.isEmpty_nil, if_true, hmapf]
    · obtain ⟨d2, hd2⟩ := hS2.1
      rw [hd2]
      exact itemsSpec_stable hit1

end GenoshaEncoder
namespace GenoshaEncoder

theorem marshal_object_defer_full {h : Heap} {r : EncRec} {a : Nat}
    {th : IThunk} {inst : Bool} {t : Tag} {typename : Option Tag}
    (root : Bool) (s : EncState) (exc : List Nat)
    (hfresh : s.pythonIds.lookup a = none)
    (hts : thunkSpec h a = some (t, th, inst))
    (hres : resolveTagArg h a typename = .ok t)
    (hinst : typename.isNone = inst)
    (hok : okA h a) (hlen : a < h.length)
    (hinv : EInv h s exc) :
    marshal_object h r a th false typename [] root s =
      .ok (.ref (s.pythonIds.length + 1),
        ⟨s.objects ++ [mkHeader t (s.pythonIds.length + 1)],
         s.oids ++ [s.pythonIds.length + 1],
         s.pythonIds ++ [(a, s.pythonIds.length + 1)],
         s.deferred ++ [⟨a, s.objects.length, th, [], inst⟩]⟩) ∧
    EInv h ⟨s.objects ++ [mkHeader t (s.pythonIds.length + 1)],
         s.oids ++ [s.pythonIds.length + 1],
         s.pythonIds ++ [(a, s.pythonIds.length + 1)],
         s.deferred ++ [⟨a, s.objects.length, th, [], inst⟩]⟩ exc := by
  obtain ⟨hvis, hkn, hig, htbl, hpos, hdef, hord, hrnd, hcov⟩ := hinv
  constructor
  · simp only [marshal_object, hres, ebind_ok]
    have hid : _id a s = (s.pythonIds.length + 1,
        { s with pythonIds := s.pythonIds ++ [(a, s.pythonIds.length + 1)] }) := by
      simp [_id, hfresh]
    rw [hid]
    dsimp only
    rw [hinst]
    simp only [Bool.false_eq_true, if_false]
  · refine ⟨?_, ?_, ?_, ?_, ?_, ⟨?_, ?_, ?_⟩, ?_, ?_, ?_⟩
    · -- VisOK
      intro p hp
      rcases List.mem_append.mp hp with hp | hp
      · exact hvis p hp
      · simp only [List.mem_singleton] at hp
        subst hp
        exact ⟨hok, hlen⟩
    · -- keysNodup
      have hna : a ∉ s.pythonIds.map Prod.fst := (lookup_none_iff _ _).mp hfresh
      show ((s.pythonIds ++ [(a, s.pythonIds.length + 1)]).map Prod.fst).Nodup
      rw [List.map_append]
      refine List.Nodup.append hkn (by simp) ?_
      intro x hx
      simp only [List.map_cons, List.map_nil, List.mem_singleton]
      rintro rfl
      exact hna hx
    · -- IdsGood
      exact idsGood_fresh hig a
    · -- TblId
      intro b j hm
      rcases List.mem_append.mp hm with hm | hm
      · rcases htbl b j hm with hb | ⟨j0, w, hj0, hw⟩ | ⟨d, hd, hda⟩
        · exact Or.inl hb
        · exact Or.inr (Or.inl ⟨j0, w, getElem_app_left hj0, recordFor_stable hw⟩)
        · exact Or.inr (Or.inr ⟨d, List.mem_append_left _ hd, hda⟩)
      · simp only [List.mem_singleton] at hm
        injection hm with h1 h2
        subst h1
        subst h2
        exact Or.inr (Or.inr ⟨⟨b, s.objects.length, th, [], inst⟩, by simp, rfl⟩)
    · -- TblPos
      intro j0 w hj0
      rcases getElem_concat_cases hj0 with hj0 | ⟨hje, hwe⟩
      · rcases hpos j0 w hj0 with ⟨b, j, hm, hw⟩ | ⟨d, hd, hdi⟩ |
          ⟨e, he, i0, t0, th0, b0, hm0, hts0, hw0⟩
        · exact Or.inl ⟨b, j, List.mem_append_left _ hm, recordFor_stable hw⟩
        · exact Or.inr (Or.inl ⟨d, List.mem_append_left _ hd, hdi⟩)
        · exact Or.inr (Or.inr ⟨e, he, i0, t0, th0, b0,
            List.mem_append_left _ hm0, hts0, hw0⟩)
      · subst hje
        exact Or.inr (Or.inl ⟨⟨a, s.objects.length, th, [], inst⟩, by simp, rfl⟩)
    · -- DeferT entries
      intro d hd
      rcases List.mem_append.mp hd with hd | hd
      · obtain ⟨i0, t0, hm, hts0, hhd, hat0⟩ := hdef.1 d hd
        exact ⟨i0, t0, List.mem_append_left _ hm, hts0, getElem_app_left hhd, hat0⟩
      · simp only [List.mem_singleton] at hd
        subst hd
        exact ⟨s.pythonIds.length + 1, t, by simp, hts, getElem_concat_self _ _,
          rfl⟩
    · -- DeferT pairwise
      rw [List.map_append]
      refine List.pairwise_append.mpr ⟨hdef.2.1, by simp, ?_⟩
      intro x hx y hy
      simp only [List.map_cons, List.map_nil, List.mem_singleton] at hy
      subst hy
      obtain ⟨d, hd, rfl⟩ := List.mem_map.mp hx
      exact hdef.2.2 d hd
    · -- DeferT bound
      intro d hd
      rcases List.mem_append.mp hd with hd | hd
      · have := hdef.2.2 d hd
        simp only [List.length_append, List.length_cons, List.length_nil]
        omega
      · simp only [List.mem_singleton] at hd
        subst hd
        simp
    · -- OrdT
      intro j0 os gs fl hj0 o ho
      rcases getElem_concat_cases hj0 with hj0 | ⟨hje, hwe⟩
      · have hold := hord j0 os gs fl hj0 o ho
        have hj0le : j0 ≤ s.objects.length := by
          have := (List.getElem?_eq_some.mp hj0).1
          omega
        rw [take_app_left hj0le]
        exact hold
      · exfalso
        simp [mkHeader] at hwe
    · -- RecNodup
      show (recordOids (s.objects ++ [mkHeader t (s.pythonIds.length + 1)])).Nodup
      rw [show mkHeader t (s.pythonIds.length + 1) =
        WValue.wobj (some t) (some (s.pythonIds.length + 1)) none none from rfl]
      rw [recordOids_concat]
      refine List.Nodup.append hrnd (by simp) ?_
      intro x hx
      simp only [List.mem_singleton]
      rintro rfl
      exact fresh_not_in_recordOids hig hcov hx
    · -- OidsCover
      intro o ho
      rw [show mkHeader t (s.pythonIds.length + 1) =
        WValue.wobj (some t) (some (s.pythonIds.length + 1)) none none from rfl,
        recordOids_concat] at ho
      have hids : ids ⟨s.objects ++ [mkHeader t (s.pythonIds.length + 1)],
          s.oids ++ [s.pythonIds.length + 1],
          s.pythonIds ++ [(a, s.pythonIds.length + 1)],
          s.deferred ++ [⟨a, s.objects.length, th, [], inst⟩]⟩ =
          ids s ++ [s.pythonIds.length + 1] := by
        simp [ids]
      rw [hids]
      rcases List.mem_append.mp ho with ho | ho
      · exact List.mem_append_left _ (hcov o ho)
      · exact List.mem_append_right _ ho

theorem marshal_defer_epost {h : Heap} {r : EncRec} {a : Nat}
    {th : IThunk} {inst : Bool} {t : Tag} {typename : Option Tag}
    (root : Bool) (s : EncState) (exc : List Nat)
    (hfresh : s.pythonIds.lookup a = none)
    (hts : thunkSpec h a = some (t, th, inst))
    (hres : resolveTagArg h a typename = .ok t)
    (hinst : typename.isNone = inst)
    (hok : okA h a) (hlen : a < h.length)
    (hinv : EInv h s exc) :
    ∃ g s', marshal_object h r a th false typename [] root s = .ok (g, s') ∧
      EPost h exc (.ref a) s g s' := by
  obtain ⟨heq, hinv'⟩ := marshal_object_defer_full (r := r) root s exc
    hfresh hts hres hinst hok hlen hinv
  refine ⟨.ref (s.pythonIds.length + 1), _, heq,
    ⟨⟨[(a, s.pythonIds.length + 1)], rfl⟩, ?_,
      ⟨[mkHeader t (s.pythonIds.length + 1)], rfl⟩, ?_, ?_⟩, hinv', ?_⟩
  · simp only [List.length_append, List.length_cons, List.length_nil]
    omega
  · intro e he
    rcases List.mem_append.mp he with he | he
    · exact Or.inl he
    · simp only [List.mem_singleton] at he
      subst he
      exact Or.inr (le_refl _)
  · intro o ho
    rw [show mkHeader t (s.pythonIds.length + 1) =
      WValue.wobj (some t) (some (s.pythonIds.length + 1)) none none from rfl,
      recordOids_concat] at ho
    rcases List.mem_append.mp ho with ho | ho
    · exact Or.inl ho
    · simp only [List.mem_singleton] at ho
      subst ho
      exact Or.inr (fresh_not_in_ids (hinv.2.2.1))
  · simp only [encV]
    rw [lookup_append_fresh hfresh]
    rfl

end GenoshaEncoder
namespace GenoshaEncoder

theorem einv_fresh_exc {h : Heap} {s : EncState} {exc : List Nat} {a : Nat}
    (hfresh : s.pythonIds.lookup a = none)
    (hok : okA h a) (hlen : a < h.length) (hinv : EInv h s exc) :
    EInv h ⟨s.objects, s.oids ++ [s.pythonIds.length + 1],
      s.pythonIds ++ [(a, s.pythonIds.length + 1)], s.deferred⟩
      (exc ++ [a]) := by
  obtain ⟨hvis, hkn, hig, htbl, hpos, hdef, hord, hrnd, hcov⟩ := hinv
  refine ⟨?_, ?_, ?_, ?_, ?_, ⟨?_, hdef.2.1, hdef.2.2⟩, hord, hrnd, ?_⟩
  · intro p hp
    rcases List.mem_append.mp hp with hp | hp
    · exact hvis p hp
    · simp only [List.mem_singleton] at hp
      subst hp
      exact ⟨hok, hlen⟩
  · have hna : a ∉ s.pythonIds.map Prod.fst := (lookup_none_iff _ _).mp hfresh
    show ((s.pythonIds ++ [(a, s.pythonIds.length + 1)]).map Prod.fst).Nodup
    rw [List.map_append]
    refine List.Nodup.append hkn (by simp) ?_
    intro x hx
    simp only [List.map_cons, List.map_nil, List.mem_singleton]
    rintro rfl
    exact hna hx
  · exact idsGood_fresh hig a
  · intro b j hm
    rcases List.mem_append.mp hm with hm | hm
    · rcases htbl b j hm with hb | ⟨j0, w, hj0, hw⟩ | ⟨d, hd, hda⟩
      · exact Or.inl (List.mem_append_left _ hb)
      · exact Or.inr (Or.inl ⟨j0, w, hj0, recordFor_stable hw⟩)
      · exact Or.inr (Or.inr ⟨d, hd, hda⟩)
    · simp only [List.mem_singleton] at hm
      injection hm with h1 h2
      subst h1
      exact Or.inl (List.mem_append_right _ (by simp))
  · intro j0 w hj0
    rcases hpos j0 w hj0 with ⟨b, j, hm, hw⟩ | ⟨d, hd, hdi⟩ |
      ⟨e, he, i0, t0, th0, b0, hm0, hts0, hw0⟩
    · exact Or.inl ⟨b, j, List.mem_append_left _ hm, recordFor_stable hw⟩
    · exact Or.inr (Or.inl ⟨d, hd, hdi⟩)
    · exact Or.inr (Or.inr ⟨e, List.mem_append_left _ he, i0, t0, th0, b0,
        List.mem_append_left _ hm0, hts0, hw0⟩)
  · intro d hd
    obtain ⟨i0, t0, hm, hts0, hhd, hat0⟩ := hdef.1 d hd
    exact ⟨i0, t0, List.mem_append_left _ hm, hts0, hhd, hat0⟩
  · intro o ho
    have : ids ⟨s.objects, s.oids ++ [s.pythonIds.length + 1],
        s.pythonIds ++ [(a, s.pythonIds.length + 1)], s.deferred⟩ =
        ids s ++ [s.pythonIds.length + 1] := by
      simp [ids]
    rw [this]
    exact List.mem_append_left _ (hcov o ho)

theorem marshal_tuple_full {h : Heap} {n : Nat} {rec : EncRec}
    (hrec : RecFull h n rec) {a : Nat} {xs : List PValue}
    (root : Bool) (s : EncState) (exc : List Nat)
    (hha : h[a]? = some (.ptuple xs))
    (hfresh : s.pythonIds.lookup a = none)
    (htree : ∀ x ∈ xs, (toTreeF h n x).isSome = true)
    (hchain : List.Chain' (childAddr h) (exc ++ [a]))
    (hok : okA h a) (hlen : a < h.length)
    (hexc : ExcOK h s exc) (hinv : EInv h s exc) :
    ∃ s', marshal_object h rec a (.iseq xs) true none [] root s =
        .ok (.ref (s.pythonIds.length + 1), s') ∧
      EPost h exc (.ref a) s (.ref (s.pythonIds.length + 1)) s' := by
  set i := s.pythonIds.length + 1 with hidef
  set s2 : EncState := ⟨s.objects, s.oids ++ [i],
    s.pythonIds ++ [(a, i)], s.deferred⟩ with hs2
  have hinv2 : EInv h s2 (exc ++ [a]) := einv_fresh_exc hfresh hok hlen hinv
  have hexc2 : ExcOK h s2 (exc ++ [a]) := by
    intro e he
    rcases List.mem_append.mp he with he | he
    · obtain ⟨hoke, j, hj⟩ := hexc e he
      exact ⟨hoke, j, by simp only [hs2]; exact List.mem_append_left _ hj⟩
    · simp only [List.mem_singleton] at he
      subst he
      exact ⟨hok, i, by simp only [hs2]; exact List.mem_append_right _ (by simp)⟩
  have hchild : ∀ x ∈ xs, ChainV h (exc ++ [a]) x := by
    intro x hx b hb
    subst hb
    exact chain_append_one hchain (by
      show childAddr h a b
      simp only [childAddr, childVals, hha]
      exact hx)
  obtain ⟨it, fl, s3, hobj, hS3, hinv3, hit3, hfl3, _⟩ :=
    _object_full hrec a (.iseq xs) true s2 (exc ++ [a])
      (by
        intro xs' hxs' x hx
        cases IThunk.iseq.inj hxs'
        exact ⟨htree x hx, hchild x hx⟩)
      (by intro kvs hkvs; exact absurd hkvs (by simp))
      (by
        intro _ kv hkv
        rw [filteredFields_of_tuple hha] at hkv
        exact absurd hkv (List.not_mem_nil kv))
      hexc2 hinv2
  obtain ⟨d3, hd3⟩ := hS3.1
  obtain ⟨r3, hr3⟩ := hS3.2.2.1
  obtain ⟨gs, hitw, hgs⟩ := hit3
  obtain ⟨gfs, hflw, hgfs⟩ := hfl3 rfl
  have hgfs0 : gfs = [] := by
    simp only [filteredFields_of_tuple hha, encF, Option.some.injEq] at hgfs
    exact hgfs.symm
  subst hgfs0
  subst hitw
  subst hflw
  have hlka : s3.pythonIds.lookup a = some i := by
    rw [hd3]
    exact lookup_append_left (by
      show (s2.pythonIds).lookup a = some i
      simp only [hs2]
      exact lookup_append_fresh hfresh)
  have hai3 : (a, i) ∈ s3.pythonIds := lookup_mem hlka
  set w : WValue := .wobj (some .ttuple) (some i) (some (.wlist gs)) (some [])
    with hwdef
  have hrf : recordFor s3.pythonIds h a i = some w := by
    simp only [recordFor, hha, hgs, Option.map_some']
  set s4 : EncState := ⟨s3.objects ++ [w], s3.oids, s3.pythonIds,
    s3.deferred⟩ with hs4
  obtain ⟨hvis3, hkn3, hig3, htbl3, hpos3, hdef3, hord3, hrnd3, hcov3⟩ := hinv3
  have hts_none : thunkSpec h a = none := by
    simp [thunkSpec, hha]
  have hnotin : i ∉ recordOids s3.objects := by
    intro hmem
    rcases hS3.2.2.2.2 i hmem with hold | hni
    · have : i ∉ recordOids s2.objects :=
        fresh_not_in_recordOids hinv.2.2.1 hinv.2.2.2.2.2.2.2.2
      exact this hold
    · exact hni (by
        show i ∈ ids s2
        exact mem_ids_of_mem (by
          show (a, i) ∈ s2.pythonIds
          simp only [hs2]
          exact List.mem_append_right _ (by simp)))
  have hinv4 : EInv h s4 exc := by
    refine ⟨hvis3, hkn3, hig3, ?_, ?_, ⟨?_, hdef3.2.1, ?_⟩, ?_, ?_, ?_⟩
    · -- TblId
      intro b j hm
      rcases htbl3 b j hm with hb | ⟨j0, w0, hj0, hw0⟩ | ⟨d, hd, hda⟩
      · rcases List.mem_append.mp hb with hb | hb
        · exact Or.inl hb
        · simp only [List.mem_singleton] at hb
          subst hb
          have hj : j = i := by
            have h1 := mem_lookup_nodup hkn3 hm
            rw [hlka] at h1
            exact (Option.some.inj h1).symm
          subst hj
          exact Or.inr (Or.inl ⟨s3.objects.length, w,
            getElem_concat_self _ _, hrf⟩)
      · exact Or.inr (Or.inl ⟨j0, w0, getElem_app_left hj0, hw0⟩)
      · exact Or.inr (Or.inr ⟨d, hd, hda⟩)
    · -- TblPos
      intro j0 w0 hj0
      rcases getElem_concat_cases hj0 with hj0 | ⟨hje, hwe⟩
      · rcases hpos3 j0 w0 hj0 with ⟨b, j, hm, hw⟩ | ⟨d, hd, hdi⟩ |
          ⟨e, he, i0, t0, th0, b0, hm0, hts0, hw0⟩
        · exact Or.inl ⟨b, j, hm, hw⟩
        · exact Or.inr (Or.inl ⟨d, hd, hdi⟩)
        · rcases List.mem_append.mp he with he | he
          · exact Or.inr (Or.inr ⟨e, he, i0, t0, th0, b0, hm0, hts0, hw0⟩)
          · exfalso
            simp only [List.mem_singleton] at he
            subst he
            rw [hts_none] at hts0
            exact absurd hts0 (by simp)
      · subst hwe
        exact Or.inl ⟨a, i, hai3, hrf⟩
    · -- DeferT entries
      intro d hd
      obtain ⟨i0, t0, hm, hts0, hhd, hat0⟩ := hdef3.1 d hd
      exact ⟨i0, t0, hm, hts0, getElem_app_left hhd, hat0⟩
    · -- DeferT bound
      intro d hd
      have := hdef3.2.2 d hd
      simp only [hs4, List.length_append, List.length_cons, List.length_nil]
      omega
    · -- OrdT
      intro j0 os gs0 fl0 hj0 o ho
      rcases getElem_concat_cases hj0 with hj0 | ⟨hje, hwe⟩
      · have hold := hord3 j0 os gs0 fl0 hj0 o ho
        have hj0le : j0 ≤ s3.objects.length := by
          have := (List.getElem?_eq_some.mp hj0).1
          omega
        rw [take_app_left hj0le]
        exact hold
      · subst hje
        have hwe2 : gs0 = gs := by
          injection hwe with e1 e2 e3 e4
          exact (WValue.wlist.inj (Option.some.inj e3)).symm ▸ rfl
        subst hwe2
        rw [take_app_left (le_refl _), List.take_length]
        obtain ⟨b, hbx, hlb⟩ := encL_ref hgs o ho
        have hbo : (b, o) ∈ s3.pythonIds := lookup_mem hlb
        rcases htbl3 b o hbo with hb | ⟨j1, w1, hj1, hw1⟩ | ⟨d, hd, hda⟩
        · exfalso
          have hedge : childAddr h a b := by
            simp only [childAddr, childVals, hha]
            exact hbx
          have hchain2 : List.Chain' (childAddr h) ((exc ++ [a]) ++ [b]) :=
            chain_append_one hchain hedge
          have hallok : ∀ e ∈ exc ++ [a], okA h e := by
            intro e he
            rcases List.mem_append.mp he with he | he
            · exact (hexc e he).1
            · simp only [List.mem_singleton] at he
              subst he
              exact hok
          have hokb : okA h b := (hvis3 (b, o) hbo).1
          exact chain_not_mem (exc ++ [a]) b hchain2 hallok hokb hb
        · obtain ⟨t1, it1, fl1, hw1e⟩ := recordFor_shape hw1
          subst hw1e
          exact oid_mem_recordOids hj1
        · obtain ⟨i0, t0, hm0, hts0, hhd0, hat0⟩ := hdef3.1 d hd
          have ho0 : o = i0 := by
            have h1 := mem_lookup_nodup hkn3 hbo
            have h2 := mem_lookup_nodup hkn3 (hda ▸ hm0)
            rw [h1] at h2
            exact Option.some.inj h2
          subst ho0
          exact oid_mem_recordOids (t := some t0) (u := none) (w := none) hhd0
    · -- RecNodup
      show (recordOids (s3.objects ++ [w])).Nodup
      rw [hwdef, recordOids_concat]
      refine List.Nodup.append hrnd3 (by simp) ?_
      intro x hx
      simp only [List.mem_singleton]
      rintro rfl
      exact hnotin hx
    · -- OidsCover
      intro o ho
      have ho4 : o ∈ recordOids (s3.objects ++ [w]) := ho
      rw [hwdef, recordOids_concat] at ho4
      have hids4 : ids s4 = ids s3 := by simp [hs4, ids]
      rw [hids4]
      rcases List.mem_append.mp ho4 with ho | ho
      · exact hcov3 o ho
      · simp only [List.mem_singleton] at ho
        subst ho
        exact mem_ids_of_mem hai3
  refine ⟨s4, ?_, ?_, hinv4, ?_⟩
  · -- the computation
    have hres : resolveTagArg h a none = .ok .ttuple := by
      simp [resolveTagArg, findTypeOfClass, hha]
    have hid : _id a s = (i, { s with pythonIds := s.pythonIds ++ [(a, i)] }) := by
      simp [_id, hfresh]
    simp only [marshal_object, hres, ebind_ok, hid]
    simp only [Option.isNone_none, if_true]
    have hs2e : ({ { s with pythonIds := s.pythonIds ++ [(a, i)] } with
        oids := s.oids ++ [i] } : EncState) = s2 := by
      simp only [hs2]
    rw [hs2e, hobj]
    simp only [ebind_ok]
  · -- SDelta s s4
    refine ⟨?_, ?_, ?_, ?_, ?_⟩
    · refine ⟨(a, i) :: d3, ?_⟩
      show s3.pythonIds = s.pythonIds ++ ((a, i) :: d3)
      rw [hd3]
      simp only [hs2]
      simp [List.append_assoc]
    · have hl2 : s2.pythonIds.length = s.pythonIds.length + 1 := by
        simp [hs2]
      have hl3 : s3.pythonIds.length = s2.pythonIds.length + d3.length := by
        rw [hd3]
        simp only [List.length_append]
      have hb3 := hS3.2.1
      have hdl : s2.deferred.length = s.deferred.length := by simp [hs2]
      have hs4d : s4.deferred.length = s3.deferred.length := by simp [hs4]
      have hs4p : s4.pythonIds.length = s3.pythonIds.length := by simp [hs4]
      omega
    · refine ⟨r3 ++ [w], ?_⟩
      show s3.objects ++ [w] = s.objects ++ (r3 ++ [w])
      rw [hr3]
      simp only [hs2]
      simp [List.append_assoc]
    · intro e he
      have he3 : e ∈ s3.deferred := he
      rcases hS3.2.2.2.1 e he3 with he2 | hgt
      · exact Or.inl (by simpa [hs2] using he2)
      · exact Or.inr (by simpa [hs2] using hgt)
    · intro o ho
      have ho4 : o ∈ recordOids (s3.objects ++ [w]) := ho
      rw [hwdef, recordOids_concat] at ho4
      rcases List.mem_append.mp ho4 with ho3 | ho3
      · rcases hS3.2.2.2.2 o ho3 with hold | hni
        · exact Or.inl (by simpa [hs2] using hold)
        · refine Or.inr ?_
          intro hmem
          exact hni (by
            show o ∈ ids s2
            have : ids s2 = ids s ++ [i] := by simp [hs2, ids]
            rw [this]
            exact List.mem_append_left _ hmem)
      · simp only [List.mem_singleton] at ho3
        subst ho3
        exact Or.inr (fresh_not_in_ids hinv.2.2.1)
  · -- encV
    simp only [encV]
    show (s3.pythonIds.lookup a).map WValue.ref = some (.ref i)
    rw [hlka]
    rfl

end GenoshaEncoder
namespace GenoshaEncoder

theorem _marshal_full {h : Heap} {m : Nat} {rec : EncRec}
    (hrec : RecFull h m rec) (root : Bool) :
    ∀ (v : PValue) (s : EncState) (exc : List Nat),
    (toTreeF h (m + 1) v).isSome = true →
    ChainV h exc v →
    ExcOK h s exc →
    EInv h s exc →
    ∃ g s', _marshal h rec v root s = .ok (g, s') ∧ EPost h exc v s g s' := by
  intro v s exc ht hc hex hinv
  match v with
  | .prim p =>
    exact ⟨.prim p, s, rfl, sdelta_refl s, hinv, rfl⟩
  | .ref a =>
    cases hlk : s.pythonIds.lookup a with
    | some i =>
      refine ⟨.ref i, s, ?_, sdelta_refl s, hinv, ?_⟩
      · simp only [_marshal, hlk]
      · simp only [encV, hlk, Option.map_some']
    | none =>
      have hchain : List.Chain' (childAddr h) (exc ++ [a]) := hc a rfl
      have ht0 := ht
      obtain ⟨t0, ht0e⟩ := Option.isSome_iff_exists.mp ht0
      have hoka : okA h a := ⟨m + 1, by simp [ht0e]⟩
      simp only [toTreeF] at ht
      cases hha : h[a]? with
      | none =>
        rw [hha] at ht
        simp at ht
      | some o =>
        rw [hha] at ht
        have hlen : a < h.length := (List.getElem?_eq_some.mp hha).1
        match o with
        | .pgen => simp at ht
        | .pold => simp at ht
        | .plist xs =>
          have hts : thunkSpec h a = some (.tlist, .iseq xs, true) := by
            simp [thunkSpec, hha]
          have hres : resolveTagArg h a none = .ok .tlist := by
            simp [resolveTagArg, findTypeOfClass, hha]
          obtain ⟨g, s', heq, hpost⟩ := marshal_defer_epost (r := rec) root s
            exc hlk hts hres (by simp) hoka hlen hinv
          refine ⟨g, s', ?_, hpost⟩
          simp only [_marshal, hlk, hha, marshal_list]
          exact heq
        | .pdict kvs =>
          have hts : thunkSpec h a = some (.tdict, .ikvs kvs, true) := by
            simp [thunkSpec, hha]
          have hres : resolveTagArg h a none = .ok .tdict := by
            simp [resolveTagArg, findTypeOfClass, hha]
          obtain ⟨g, s', heq, hpost⟩ := marshal_defer_epost (r := rec) root s
            exc hlk hts hres (by simp) hoka hlen hinv
          refine ⟨g, s', ?_, hpost⟩
          simp only [_marshal, hlk, hha, marshal_dict]
          exact heq
        | .pinst mo p vis fs =>
          dsimp only at ht
          have hvis : vis = true := by
            by_contra hv
            rw [if_neg hv] at ht
            simp at ht
          subst hvis
          have hts : thunkSpec h a = some (.tuser mo p, .inone, true) := by
            simp [thunkSpec, hha]
          have hres : resolveTagArg h a none = .ok (.tuser mo p) := by
            simp [resolveTagArg, findTypeOfClass, hha]
          obtain ⟨g, s', heq, hpost⟩ := marshal_defer_epost (r := rec) root s
            exc hlk hts hres (by simp) hoka hlen hinv
          refine ⟨g, s', ?_, hpost⟩
          simp only [_marshal, hlk, hha]
          exact heq
        | .pfunc name mo p vis clos =>
          dsimp only at ht
          have hg : name ≠ lambdaName ∧ clos = false ∧ vis = true := by
            by_contra hgn
            rw [if_neg hgn] at ht
            simp at ht
          obtain ⟨hname, hclos, hvis⟩ := hg
          subst hclos
          subst hvis
          have hts : thunkSpec h a = some (.tuser mo p, .inone, false) := by
            simp [thunkSpec, hha, hname]
          have hres : resolveTagArg h a (some (.tuser mo p)) = .ok (.tuser mo p) := rfl
          obtain ⟨g, s', heq, hpost⟩ := marshal_defer_epost (r := rec) root s
            exc hlk hts hres (by simp) hoka hlen hinv
          refine ⟨g, s', ?_, hpost⟩
          simp only [_marshal, hlk, hha, marshal_function]
          rw [if_neg hname]
          exact heq
        | .pglobal tg vis =>
          dsimp only at ht
          cases hft : findTypeOfValue tg vis with
          | error e =>
            rw [hft] at ht
            simp at ht
          | ok t' =>
            have hts : thunkSpec h a = some (t', .inone, false) := by
              simp only [thunkSpec, hha, hft]
            have hres : resolveTagArg h a (some t') = .ok t' := rfl
            obtain ⟨g, s', heq, hpost⟩ := marshal_defer_epost (r := rec) root s
              exc hlk hts hres (by simp) hoka hlen hinv
            refine ⟨g, s', ?_, hpost⟩
            simp only [_marshal, hlk, hha, marshal_type, hft, ebind_ok]
            exact heq
        | .ptuple xs =>
          have htree : ∀ x ∈ xs, (toTreeF h m x).isSome = true := by
            intro x hx
            obtain ⟨tx, htx⟩ := toTreeF_child ht0e (by
              simp only [childVals, hha]
              exact hx)
            simp [htx]
          obtain ⟨s', heq, hpost⟩ :=
            marshal_tuple_full hrec root s exc hha hlk htree hchain hoka hlen
              hex hinv
          refine ⟨.ref (s.pythonIds.length + 1), s', ?_, hpost⟩
          simp only [_marshal, hlk, hha, marshal_tuple]
          exact heq

theorem marshalF_full (h : Heap) : ∀ (F n : Nat), n ≤ F → ∀ (root : Bool),
    ∀ (v : PValue) (s : EncState) (exc : List Nat),
    (toTreeF h n v).isSome = true →
    ChainV h exc v →
    ExcOK h s exc →
    EInv h s exc →
    ∃ g s', marshalF h F v root s = .ok (g, s') ∧ EPost h exc v s g s' := by
  intro F
  induction F with
  | zero =>
    intro n hn root v s exc ht _ _ _
    have hn0 : n = 0 := by omega
    subst hn0
    simp [toTreeF] at ht
  | succ F ih =>
    intro n hn root v s exc ht hc hex hinv
    cases n with
    | zero => simp [toTreeF] at ht
    | succ m =>
      have hrec : RecFull h m (fun v' s' => marshalF h F v' false s') := by
        intro v' s' exc' ht' hc' hex' hinv'
        exact ih m (by omega) false v' s' exc' ht' hc' hex' hinv'
      exact _marshal_full hrec root v s exc ht hc hex hinv

end GenoshaEncoder
namespace GenoshaEncoder

theorem length_setRecord (objs : List WValue) (idx : Nat) (it : Option WValue)
    (fl : Option (List (WValue × WValue))) :
    (setRecord objs idx it fl).length = objs.length := by
  unfold setRecord
  rcases hg : objs[idx]? with _ | w
  · rfl
  · cases w <;> simp

theorem setRecord_header {objs : List WValue} {idx : Nat} {t : Tag} {i : Nat}
    (hh : objs[idx]? = some (mkHeader t i)) (it : Option WValue)
    (fl : Option (List (WValue × WValue))) :
    setRecord objs idx it fl = objs.set idx (.wobj (some t) (some i) it fl) := by
  unfold setRecord
  rw [hh]
  rfl

theorem getElem_set_self {α : Type} {l : List α} {idx : Nat} {x : α}
    (hlt : idx < l.length) : (l.set idx x)[idx]? = some x := by
  rw [List.getElem?_set_self']
  rw [List.getElem?_eq_getElem hlt]
  rfl

theorem getElem_set_ne {α : Type} (l : List α) (idx : Nat) (x : α) {j : Nat}
    (hne : j ≠ idx) : (l.set idx x)[j]? = l[j]? := by
  rw [List.getElem?_set_ne (Ne.symm hne)]

theorem thunkSpec_iseq {h : Heap} {a : Nat} {t : Tag} {xs : List PValue}
    {inst : Bool} (hts : thunkSpec h a = some (t, .iseq xs, inst)) :
    h[a]? = some (.plist xs) ∧ t = .tlist ∧ inst = true := by
  unfold thunkSpec at hts
  split at hts
  · rename_i xs' heq
    cases Option.some.inj hts
    exact ⟨heq, rfl, rfl⟩
  · exact absurd hts (by simp)
  · rename_i m p vis fs heq
    split at hts
    · exact absurd (Option.some.inj hts) (by simp)
    · exact absurd hts (by simp)
  · rename_i name m p vis clos heq
    split at hts
    · exact absurd (Option.some.inj hts) (by simp)
    · exact absurd hts (by simp)
  · rename_i tg vis heq
    split at hts
    · exact absurd (Option.some.inj hts) (by simp)
    · exact absurd hts (by simp)
  · exact absurd hts (by simp)

theorem thunkSpec_ikvs {h : Heap} {a : Nat} {t : Tag}
    {kvs : List (PValue × PValue)} {inst : Bool}
    (hts : thunkSpec h a = some (t, .ikvs kvs, inst)) :
    h[a]? = some (.pdict kvs) ∧ t = .tdict ∧ inst = true := by
  unfold thunkSpec at hts
  split at hts
  · exact absurd (Option.some.inj hts) (by simp)
  · rename_i kvs' heq
    cases Option.some.inj hts
    exact ⟨heq, rfl, rfl⟩
  · rename_i m p vis fs heq
    split at hts
    · exact absurd (Option.some.inj hts) (by simp)
    · exact absurd hts (by simp)
  · rename_i name m p vis clos heq
    split at hts
    · exact absurd (Option.some.inj hts) (by simp)
    · exact absurd hts (by simp)
  · rename_i tg vis heq
    split at hts
    · exact absurd (Option.some.inj hts) (by simp)
    · exact absurd hts (by simp)
  · exact absurd hts (by simp)

theorem thunkSpec_inone {h : Heap} {a : Nat} {t : Tag} {inst : Bool}
    (hts : thunkSpec h a = some (t, .inone, inst)) :
    (∃ m p fs, h[a]? = some (.pinst m p true fs) ∧ t = .tuser m p ∧
      inst = true) ∨
    (∃ name m p, h[a]? = some (.pfunc name m p true false) ∧
      name ≠ lambdaName ∧ t = .tuser m p ∧ inst = false) ∨
    (∃ tg vis, h[a]? = some (.pglobal tg vis) ∧
      findTypeOfValue tg vis = .ok t ∧ inst = false) := by
  unfold thunkSpec at hts
  split at hts
  · exact absurd (Option.some.inj hts) (by simp)
  · exact absurd (Option.some.inj hts) (by simp)
  · rename_i m p vis fs heq
    split at hts
    · rename_i hvis
      cases Option.some.inj hts
      subst hvis
      exact Or.inl ⟨m, p, fs, heq, rfl, rfl⟩
    · exact absurd hts (by simp)
  · rename_i name m p vis clos heq
    split at hts
    · rename_i hg
      obtain ⟨hname, hclos, hvis⟩ := hg
      subst hclos
      subst hvis
      cases Option.some.inj hts
      exact Or.inr (Or.inl ⟨name, m, p, heq, hname, rfl, rfl⟩)
    · exact absurd hts (by simp)
  · rename_i tg vis heq
    split at hts
    · rename_i t' hft
      cases Option.some.inj hts
      exact Or.inr (Or.inr ⟨tg, vis, heq, hft, rfl⟩)
    · exact absurd hts (by simp)
  · exact absurd hts (by simp)

theorem recordOids_nodup_inj {objs : List WValue}
    (hnd : (recordOids objs).Nodup) :
    ∀ {j j' : Nat} {t t' : Option Tag} {o : Nat} {it it' : Option WValue}
    {fl fl' : Option (List (WValue × WValue))},
    objs[j]? = some (.wobj t (some o) it fl) →
    objs[j']? = some (.wobj t' (some o) it' fl') → j = j' := by
  induction objs with
  | nil =>
    intro j j' t t' o it it' fl fl' hj hj'
    simp at hj
  | cons w ws ih =>
    intro j j' t t' o it it' fl fl' hj hj'
    rw [recordOids_cons] at hnd
    cases j with
    | zero =>
      cases j' with
      | zero => rfl
      | succ j' =>
        exfalso
        simp only [List.getElem?_cons_zero, Option.some.injEq] at hj
        subst hj
        simp only [List.getElem?_cons_succ] at hj'
        have ho' : o ∈ recordOids ws := oid_mem_recordOids hj'
        have := (List.nodup_append.mp hnd).2.2
        exact this (by simp) ho'
    | succ j =>
      cases j' with
      | zero =>
        exfalso
        simp only [List.getElem?_cons_zero, Option.some.injEq] at hj'
        subst hj'
        simp only [List.getElem?_cons_succ] at hj
        have ho : o ∈ recordOids ws := oid_mem_recordOids hj
        have := (List.nodup_append.mp hnd).2.2
        exact this (by simp) ho
      | succ j' =>
        simp only [List.getElem?_cons_succ] at hj hj'
        have hnd' : (recordOids ws).Nodup := (List.nodup_append.mp hnd).2.1
        rw [ih hnd' hj hj']

theorem recordOids_take_set :
    ∀ (objs : List WValue) (idx : Nat) (t : Option Tag) (o : Option Nat)
      (it0 : Option WValue) (fl0 : Option (List (WValue × WValue))) (it fl)
      (j : Nat),
      objs[idx]? = some (.wobj t o it0 fl0) →
      recordOids ((objs.set idx (.wobj t o it fl)).take j) =
        recordOids (objs.take j) := by
  intro objs
  induction objs with
  | nil => intro idx t o it0 fl0 it fl j hg; simp at hg
  | cons w ws ih =>
    intro idx t o it0 fl0 it fl j hg
    cases idx with
    | zero =>
      simp only [List.getElem?_cons_zero, Option.some.injEq] at hg
      subst hg
      cases j with
      | zero => simp
      | succ j =>
        simp only [List.set_cons_zero, List.take_succ_cons]
        cases o <;> simp [recordOids_cons]
    | succ idx =>
      simp only [List.getElem?_cons_succ] at hg
      cases j with
      | zero => simp
      | succ j =>
        simp only [List.set_cons_succ, List.take_succ_cons, recordOids_cons]
        rw [ih idx t o it0 fl0 it fl j hg]

theorem thunkSpec_not_istr {h : Heap} {a : Nat} {t : Tag} {cs : List Char}
    {inst : Bool} (hts : thunkSpec h a = some (t, .istr cs, inst)) : False := by
  unfold thunkSpec at hts
  split at hts <;> first
    | simp at hts
    | (split at hts <;> simp at hts)

theorem recordFor_drain {h : Heap} {a : Nat} {t : Tag} {th : IThunk}
    {inst : Bool} {pid : List (Nat × Nat)} {it : Option WValue}
    {fl : Option (List (WValue × WValue))}
    (hts : thunkSpec h a = some (t, th, inst))
    (hitsp : itemsSpec pid th it)
    (hfl1 : inst = true → ∃ gfs, fl = some gfs ∧
      encF pid (filteredFields h a) = some gfs)
    (hfl0 : inst = false → fl = none) :
    ∀ i, recordFor pid h a i = some (.wobj (some t) (some i) it fl) := by
  intro i
  cases th with
  | iseq xs =>
    obtain ⟨hha, rfl, rfl⟩ := thunkSpec_iseq hts
    obtain ⟨gs, rfl, hgs⟩ := hitsp
    obtain ⟨gfs, rfl, hgfs⟩ := hfl1 rfl
    have hff : filteredFields h a = [] := by
      simp [filteredFields, pyFields, hha]
    rw [hff] at hgfs
    have : gfs = [] := by
      simp only [encF, Option.some.injEq] at hgfs
      exact hgfs.symm
    subst this
    simp only [recordFor, hha, hgs, Option.map_some']
  | ikvs kvs =>
    obtain ⟨hha, rfl, rfl⟩ := thunkSpec_ikvs hts
    obtain ⟨gp, rfl, hgp⟩ := hitsp
    obtain ⟨gfs, rfl, hgfs⟩ := hfl1 rfl
    have hff : filteredFields h a = [] := by
      simp [filteredFields, pyFields, hha]
    rw [hff] at hgfs
    have : gfs = [] := by
      simp only [encF, Option.some.injEq] at hgfs
      exact hgfs.symm
    subst this
    simp only [recordFor, hha, hgp, Option.map_some']
  | inone =>
    have hit : it = none := hitsp
    subst hit
    rcases thunkSpec_inone hts with ⟨m, p, fs, hha, rfl, rfl⟩ |
      ⟨name, m, p, hha, hname, rfl, rfl⟩ | ⟨tg, vis, hha, hft, rfl⟩
    · obtain ⟨gfs, rfl, hgfs⟩ := hfl1 rfl
      simp only [recordFor, hha, if_true, hgfs, Option.map_some']
    · have : fl = none := hfl0 rfl
      subst this
      simp [recordFor, hha, hname]
    · have : fl = none := hfl0 rfl
      subst this
      simp only [recordFor, hha, hft]
  | istr cs => exact (thunkSpec_not_istr hts).elim

end GenoshaEncoder
namespace GenoshaEncoder

theorem mem_filteredFields_child {h : Heap} {a : Nat}
    {kv : List Char × PValue} (hkv : kv ∈ filteredFields h a) :
    kv.2 ∈ childVals h a := by
  have hp : kv ∈ pyFields h a := List.mem_of_mem_filter hkv
  unfold pyFields at hp
  cases hha : h[a]? with
  | none => rw [hha] at hp; simp at hp
  | some o =>
    rw [hha] at hp
    match o with
    | .pinst m p vis fs =>
      simp only [childVals, hha]
      exact List.mem_map.mpr ⟨kv, hkv, rfl⟩
    | .plist xs => simp at hp
    | .ptuple xs => simp at hp
    | .pdict kvs => simp at hp
    | .pfunc n m p v c => simp at hp
    | .pglobal t v => simp at hp
    | .pgen => simp at hp
    | .pold => simp at hp

theorem einv_pop {h : Heap} {s : EncState} {d : DeferItem}
    {rest : List DeferItem} (hq : s.deferred = d :: rest)
    (hinv : EInv h s []) : EInv h { s with deferred := rest } [d.addr] := by
  obtain ⟨hvis, hkn, hig, htbl, hpos, hdef, hord, hrnd, hcov⟩ := hinv
  obtain ⟨i, t, hmem, hts, hhdr, hdattrs⟩ := hdef.1 d (by rw [hq]; simp)
  refine ⟨hvis, hkn, hig, ?_, ?_, ⟨?_, ?_, ?_⟩, hord, hrnd, hcov⟩
  · intro b j hm
    rcases htbl b j hm with hb | ⟨j0, w, hj0, hw⟩ | ⟨d', hd', hda⟩
    · exact absurd hb (List.not_mem_nil b)
    · exact Or.inr (Or.inl ⟨j0, w, hj0, hw⟩)
    · rw [hq] at hd'
      rcases List.mem_cons.mp hd' with rfl | hd'
      · exact Or.inl (by rw [← hda]; simp)
      · exact Or.inr (Or.inr ⟨d', hd', hda⟩)
  · intro j0 w hj0
    rcases hpos j0 w hj0 with ⟨b, j, hm, hw⟩ | ⟨d', hd', hdi⟩ | ⟨e, he, _⟩
    · exact Or.inl ⟨b, j, hm, hw⟩
    · rw [hq] at hd'
      rcases List.mem_cons.mp hd' with rfl | hd'
      · subst hdi
        have hw : w = mkHeader t i := by
          rw [hj0] at hhdr
          exact Option.some.inj hhdr
        exact Or.inr (Or.inr ⟨d'.addr, by simp, i, t, d'.thunk, d'.isInstance,
          hmem, hts, hw⟩)
      · exact Or.inr (Or.inl ⟨d', hd', hdi⟩)
    · exact absurd he (List.not_mem_nil e)
  · intro d' hd'
    exact hdef.1 d' (by rw [hq]; exact List.mem_cons_of_mem d hd')
  · have hp := hdef.2.1
    rw [hq, List.map_cons] at hp
    exact (List.pairwise_cons.mp hp).2
  · intro d' hd'
    exact hdef.2.2 d' (by rw [hq]; exact List.mem_cons_of_mem d hd')

theorem drain_object_full {h : Heap} {recFuel : Nat}
    (HF : ∀ b, b < h.length → okA h b →
      (toTreeF h recFuel (.ref b)).isSome = true)
    {a : Nat} {t : Tag} {th : IThunk} {inst : Bool}
    (hts : thunkSpec h a = some (t, th, inst))
    (hoka : okA h a) (hlen : a < h.length)
    (s : EncState) (hexc : ExcOK h s [a]) (hinv : EInv h s [a]) :
    ∃ it fl s', _object h (fun v' s' => marshalF h recFuel v' false s') a th
        [] inst s = .ok ((it, fl), s') ∧
      SDelta s s' ∧ EInv h s' [a] ∧ itemsSpec s'.pythonIds th it ∧
      (∀ i, recordFor s'.pythonIds h a i =
        some (.wobj (some t) (some i) it fl)) := by
  have htf := HF a hlen hoka
  obtain ⟨mR, hmR⟩ : ∃ mR, recFuel = mR + 1 :=
    ⟨recFuel - 1, by have := tree_pos htf; omega⟩
  obtain ⟨ta, hta⟩ := Option.isSome_iff_exists.mp htf
  rw [hmR] at hta
  have hchild : ∀ x ∈ childVals h a, (toTreeF h mR x).isSome = true := by
    intro x hx
    obtain ⟨tx, htx⟩ := toTreeF_child hta hx
    simp [htx]
  have hchainx : ∀ x ∈ childVals h a, ChainV h [a] x := by
    intro x hx b hb
    subst hb
    show List.Chain' (childAddr h) [a, b]
    exact List.chain'_cons.mpr ⟨hx, by simp⟩
  have hrec : RecFull h mR (fun v' s' => marshalF h recFuel v' false s') := by
    intro v' s' exc' ht' hc' hex' hinv'
    exact marshalF_full h recFuel mR (by omega) false v' s' exc' ht' hc' hex'
      hinv'
  obtain ⟨it, fl, s', hobj, hS, hinv', hitsp, hfl1, hfl0⟩ :=
    _object_full hrec a th inst s [a]
      (by
        intro xs hth x hx
        subst hth
        obtain ⟨hha, _, _⟩ := thunkSpec_iseq hts
        have hxc : x ∈ childVals h a := by
          simp only [childVals, hha]
          exact hx
        exact ⟨hchild x hxc, hchainx x hxc⟩)
      (by
        intro kvs hth kv hkv
        subst hth
        obtain ⟨hha, _, _⟩ := thunkSpec_ikvs hts
        have hk : kv.1 ∈ childVals h a := by
          simp only [childVals, hha]
          exact mem_pairsFlat.mpr ⟨kv, hkv, Or.inl rfl⟩
        have hv : kv.2 ∈ childVals h a := by
          simp only [childVals, hha]
          exact mem_pairsFlat.mpr ⟨kv, hkv, Or.inr rfl⟩
        exact ⟨⟨hchild kv.1 hk, hchainx kv.1 hk⟩, hchild kv.2 hv, hchainx kv.2 hv⟩)
      (by
        intro _ kv hkv
        have hc := mem_filteredFields_child hkv
        exact ⟨hchild kv.2 hc, hchainx kv.2 hc⟩)
      hexc hinv
  exact ⟨it, fl, s', hobj, hS, hinv', hitsp,
    recordFor_drain hts hitsp hfl1 hfl0⟩

end GenoshaEncoder
namespace GenoshaEncoder

theorem einv_complete {h : Heap} {s : EncState} {a i idx : Nat} {t : Tag}
    {th : IThunk} {inst : Bool} {it : Option WValue}
    {fl : Option (List (WValue × WValue))}
    (hinv : EInv h s [a])
    (hmem : (a, i) ∈ s.pythonIds)
    (hts : thunkSpec h a = some (t, th, inst))
    (hitsp : itemsSpec s.pythonIds th it)
    (hhdr : s.objects[idx]? = some (mkHeader t i))
    (hrf : recordFor s.pythonIds h a i = some (.wobj (some t) (some i) it fl))
    (hnodef : ∀ d' ∈ s.deferred, d'.idx ≠ idx) :
    EInv h { s with objects := setRecord s.objects idx it fl } [] := by
  obtain ⟨hvis, hkn, hig, htbl, hpos, hdef, hord, hrnd, hcov⟩ := hinv
  have hset : setRecord s.objects idx it fl =
      s.objects.set idx (.wobj (some t) (some i) it fl) :=
    setRecord_header hhdr it fl
  have hidxlt : idx < s.objects.length := (List.getElem?_eq_some.mp hhdr).1
  have hat : (setRecord s.objects idx it fl)[idx]? =
      some (.wobj (some t) (some i) it fl) := by
    rw [hset]
    exact getElem_set_self hidxlt
  have hne : ∀ j, j ≠ idx →
      (setRecord s.objects idx it fl)[j]? = s.objects[j]? := by
    intro j hj
    rw [hset]
    exact getElem_set_ne _ _ _ hj
  have hsnd := idsGood_snd_nodup hig
  have hhdr' : s.objects[idx]? =
      some (.wobj (some t) (some i) none none) := hhdr
  refine ⟨hvis, hkn, hig, ?_, ?_, ⟨?_, hdef.2.1, ?_⟩, ?_, ?_, ?_⟩
  · -- TblId
    intro b j hm
    rcases htbl b j hm with hb | ⟨j0, w0, hj0, hw0⟩ | ⟨d', hd', hda⟩
    · simp only [List.mem_singleton] at hb
      subst hb
      have hji : j = i := by
        have h1 := mem_lookup_nodup hkn hm
        have h2 := mem_lookup_nodup hkn hmem
        rw [h1] at h2
        exact Option.some.inj h2
      subst hji
      exact Or.inr (Or.inl ⟨idx, _, hat, hrf⟩)
    · by_cases hj0e : j0 = idx
      · rw [hj0e, hhdr] at hj0
        have hw0e := Option.some.inj hj0
        obtain ⟨t1, it1, fl1, hs1⟩ := recordFor_shape hw0
        rw [← hw0e] at hs1
        have hji : j = i := by
          injection hs1 with e1 e2 e3 e4
          exact (Option.some.inj e2).symm
        subst hji
        have hba : b = a := snd_inj_nodup hsnd hm hmem
        subst hba
        exact Or.inr (Or.inl ⟨idx, _, hat, hrf⟩)
      · exact Or.inr (Or.inl ⟨j0, w0, by rw [hne j0 hj0e]; exact hj0, hw0⟩)
    · exact Or.inr (Or.inr ⟨d', hd', hda⟩)
  · -- TblPos
    intro j0 w0 hj0
    by_cases hj0e : j0 = idx
    · subst hj0e
      rw [hat] at hj0
      have hw0e := Option.some.inj hj0
      subst hw0e
      exact Or.inl ⟨a, i, hmem, hrf⟩
    · have hj0' : s.objects[j0]? = some w0 := by
        rw [hne j0 hj0e] at hj0
        exact hj0
      rcases hpos j0 w0 hj0' with ⟨b, j, hm, hw⟩ | ⟨d', hd', hdi⟩ |
        ⟨e, he, i0, t0, th0, b0, hm0, hts0, hw0e⟩
      · exact Or.inl ⟨b, j, hm, hw⟩
      · exact Or.inr (Or.inl ⟨d', hd', hdi⟩)
      · exfalso
        simp only [List.mem_singleton] at he
        subst he
        have hii : i0 = i := by
          have h1 := mem_lookup_nodup hkn hm0
          have h2 := mem_lookup_nodup hkn hmem
          rw [h1] at h2
          exact Option.some.inj h2
        subst hii
        have htt : t0 = t := by
          rw [hts0] at hts
          injection Option.some.inj hts with e1 e2
        subst hw0e
        subst htt
        have : j0 = idx :=
          recordOids_nodup_inj hrnd (hj0' : s.objects[j0]? =
            some (.wobj (some t0) (some i0) none none)) hhdr'
        exact hj0e this
  · -- DeferT entries
    intro d' hd'
    obtain ⟨i0, t0, hm0, hts0, hhd0, hat0⟩ := hdef.1 d' hd'
    exact ⟨i0, t0, hm0, hts0, by rw [hne d'.idx (hnodef d' hd')]; exact hhd0, hat0⟩
  · -- DeferT bound
    intro d' hd'
    have := hdef.2.2 d' hd'
    show d'.idx < (setRecord s.objects idx it fl).length
    rw [length_setRecord]
    exact this
  · -- OrdT
    intro j0 os gs fl0 hj0 o ho
    by_cases hj0e : j0 = idx
    · exfalso
      subst hj0e
      rw [hat] at hj0
      injection Option.some.inj hj0 with e1 e2 e3 e4
      have htt : t = .ttuple := Option.some.inj e1
      subst htt
      have hit : it = some (.wlist gs) := e3
      cases th with
      | iseq xs =>
        obtain ⟨_, hteq, _⟩ := thunkSpec_iseq hts
        exact absurd hteq (by simp)
      | ikvs kvs =>
        obtain ⟨_, hteq, _⟩ := thunkSpec_ikvs hts
        exact absurd hteq (by simp)
      | inone =>
        have : it = none := hitsp
        rw [this] at hit
        exact absurd hit (by simp)
      | istr cs => exact thunkSpec_not_istr hts
    · have hj0' : s.objects[j0]? =
          some (.wobj (some .ttuple) os (some (.wlist gs)) fl0) := by
        rw [hne j0 hj0e] at hj0
        exact hj0
      have hold := hord j0 os gs fl0 hj0' o ho
      show o ∈ recordOids ((setRecord s.objects idx it fl).take j0)
      rw [hset, recordOids_take_set s.objects idx (some t) (some i) none none
        it fl j0 hhdr']
      exact hold
  · -- RecNodup
    show (recordOids (setRecord s.objects idx it fl)).Nodup
    rw [recordOids_setRecord]
    exact hrnd
  · -- OidsCover
    intro o ho
    have ho' : o ∈ recordOids (setRecord s.objects idx it fl) := ho
    rw [recordOids_setRecord] at ho'
    exact hcov o ho'

end GenoshaEncoder
namespace GenoshaEncoder

theorem pid_le_heap {h : Heap} {s : EncState} (hvis : VisOK h s)
    (hkn : keysNodup s) : s.pythonIds.length ≤ h.length := by
  have h1 : ∀ k ∈ s.pythonIds.map Prod.fst, k < h.length := by
    intro k hk
    obtain ⟨p, hp, rfl⟩ := List.mem_map.mp hk
    exact (hvis p hp).2
  have h2 := nodup_lt_length_le hkn h1
  simpa using h2

theorem drainF_full {h : Heap} (recFuel : Nat)
    (HF : ∀ b, b < h.length → okA h b →
      (toTreeF h recFuel (.ref b)).isSome = true) :
    ∀ (fuel : Nat) (s : EncState),
    EInv h s [] →
    s.deferred.length + (h.length - s.pythonIds.length) < fuel →
    ∃ s', drainF h recFuel fuel s = .ok s' ∧ EInv h s' [] ∧
      s'.deferred = [] ∧ (∃ dd, s'.pythonIds = s.pythonIds ++ dd) := by
  intro fuel
  induction fuel with
  | zero =>
    intro s _ hm
    omega
  | succ fuel ih =>
    intro s hinv hm
    cases hq : s.deferred with
    | nil =>
      refine ⟨s, ?_, hinv, hq, ⟨[], by simp⟩⟩
      simp only [drainF, hq]
    | cons d rest =>
      have hinva : EInv h ({ s with deferred := rest }) [d.addr] :=
        einv_pop hq hinv
      obtain ⟨i, t, hmem, hts, hhdr, hdatt⟩ :=
        hinv.2.2.2.2.2.1.1 d (by rw [hq]; simp)
      have hoka : okA h d.addr := (hinv.1 (d.addr, i) hmem).1
      have hdlen : d.addr < h.length := (hinv.1 (d.addr, i) hmem).2
      have hexc : ExcOK h ({ s with deferred := rest }) [d.addr] := by
        intro e he
        simp only [List.mem_singleton] at he
        subst he
        exact ⟨hoka, i, hmem⟩
      obtain ⟨it, fl, s_b, hobj, hSb, hinvb, hitsp, hrfs⟩ :=
        drain_object_full HF hts hoka hdlen ({ s with deferred := rest })
          hexc hinva
      obtain ⟨db, hdb⟩ := hSb.1
      have hmemb : (d.addr, i) ∈ s_b.pythonIds := by
        rw [hdb]
        exact List.mem_append_left _ hmem
      obtain ⟨rb, hrb⟩ := hSb.2.2.1
      have hhdrb : s_b.objects[d.idx]? = some (mkHeader t i) := by
        rw [hrb]
        exact getElem_app_left hhdr
      have hnodef : ∀ d' ∈ s_b.deferred, d'.idx ≠ d.idx := by
        intro d' hd'
        rcases hSb.2.2.2.1 d' hd' with hin | hge
        · have hp := hinv.2.2.2.2.2.1.2.1
          rw [hq, List.map_cons] at hp
          have := (List.pairwise_cons.mp hp).1 d'.idx
            (List.mem_map.mpr ⟨d', hin, rfl⟩)
          omega
        · have hb := hinv.2.2.2.2.2.1.2.2 d (by rw [hq]; simp)
          have : s.objects.length ≤ d'.idx := hge
          omega
      have hinvc : EInv h ({ s_b with
          objects := setRecord s_b.objects d.idx it fl }) [] :=
        einv_complete hinvb hmemb hts hitsp hhdrb (hrfs i) hnodef
      have hple : s_b.pythonIds.length ≤ h.length :=
        pid_le_heap hinvb.1 hinvb.2.1
      have hmsr : ({ s_b with
          objects := setRecord s_b.objects d.idx it fl } : EncState).deferred.length +
          (h.length - ({ s_b with
            objects := setRecord s_b.objects d.idx it fl } : EncState).pythonIds.length) < fuel := by
        have hb : s_b.deferred.length + s.pythonIds.length ≤
            rest.length + s_b.pythonIds.length := hSb.2.1
        have hlq : s.deferred.length = rest.length + 1 := by rw [hq]; simp
        have hpd : s.pythonIds.length ≤ s_b.pythonIds.length := by
          rw [hdb]
          simp
        show s_b.deferred.length + (h.length - s_b.pythonIds.length) < fuel
        omega
      obtain ⟨s', hdr, hinv', hdef', dd, hdd⟩ := ih _ hinvc hmsr
      refine ⟨s', ?_, hinv', hdef', ⟨db ++ dd, ?_⟩⟩
      · simp only [drainF, hq]
        rw [hdatt]
        simp only [hobj, ebind_ok]
        exact hdr
      · rw [hdd]
        simp only []
        rw [hdb]
        simp [List.append_assoc]

end GenoshaEncoder
namespace GenoshaEncoder

theorem exists_okfuel (h : Heap) : ∃ F, ∀ b, b < h.length → okA h b →
    (toTreeF h F (.ref b)).isSome = true := by
  have key : ∀ L, ∃ F, ∀ b, b < L → okA h b →
      (toTreeF h F (.ref b)).isSome = true := by
    intro L
    induction L with
    | zero => exact ⟨0, fun b hb _ => absurd hb (by omega)⟩
    | succ L ihL =>
      obtain ⟨F0, hF0⟩ := ihL
      by_cases hok : okA h L
      · obtain ⟨nb, hnb⟩ := hok
        refine ⟨max F0 nb, ?_⟩
        intro b hb hokb
        by_cases hbe : b = L
        · subst hbe
          obtain ⟨tb, htb⟩ := Option.isSome_iff_exists.mp hnb
          rw [toTreeF_mono htb (le_max_right F0 nb)]
          rfl
        · obtain ⟨tb, htb⟩ :=
            Option.isSome_iff_exists.mp (hF0 b (by omega) hokb)
          rw [toTreeF_mono htb (le_max_left F0 nb)]
          rfl
      · refine ⟨F0, ?_⟩
        intro b hb hokb
        by_cases hbe : b = L
        · subst hbe
          exact absurd hokb hok
        · exact hF0 b (by omega) hokb
  exact key h.length

theorem einv_init (h : Heap) : EInv h initState [] := by
  refine ⟨?_, ?_, ?_, ?_, ?_, ⟨?_, ?_, ?_⟩, ?_, ?_, ?_⟩
  · intro p hp
    exact absurd hp (List.not_mem_nil p)
  · show (List.map Prod.fst ([] : List (Nat × Nat))).Nodup
    simp
  · show List.map Prod.snd ([] : List (Nat × Nat)) = List.range' 1 0
    simp
  · intro a i hm
    exact absurd hm (List.not_mem_nil (a, i))
  · intro j w hj
    simp [initState] at hj
  · intro d hd
    exact absurd hd (List.not_mem_nil d)
  · show (List.map DeferItem.idx ([] : List DeferItem)).Pairwise (· < ·)
    simp
  · intro d hd
    exact absurd hd (List.not_mem_nil d)
  · intro j os gs fl hj
    simp [initState] at hj
  · show (recordOids []).Nodup
    simp [recordOids]
  · intro o ho
    simp [recordOids, initState] at ho

theorem marshal_full {h : Heap} {n : Nat} {v : PValue} {t0 : VTree}
    (ht : toTreeF h n v = some t0) :
    ∃ fe s_f payload,
      marshal h fe v =
        .ok [.prim (.pstr SENTINEL), .wlist s_f.objects, payload] ∧
      EInv h s_f [] ∧ s_f.deferred = [] ∧
      encV s_f.pythonIds v = some payload := by
  obtain ⟨F0, hF0⟩ := exists_okfuel h
  set fe := max (max n F0) (h.length + 1) with hfe
  have hFe : ∀ b, b < h.length → okA h b →
      (toTreeF h fe (.ref b)).isSome = true := by
    intro b hb hokb
    obtain ⟨tb, htb⟩ := Option.isSome_iff_exists.mp (hF0 b hb hokb)
    rw [toTreeF_mono htb (by omega : F0 ≤ fe)]
    rfl
  have htfe : (toTreeF h fe v).isSome = true := by
    rw [toTreeF_mono ht (by omega : n ≤ fe)]
    rfl
  obtain ⟨g, s_m, hms, hS, hinvm, hgv⟩ :=
    marshalF_full h fe fe (le_refl _) true v initState []
      htfe (by intro b hb; subst hb; simp) (by intro e he; exact absurd he (List.not_mem_nil e))
      (einv_init h)
  have hple : s_m.pythonIds.length ≤ h.length :=
    pid_le_heap hinvm.1 hinvm.2.1
  have hmeas : s_m.deferred.length + (h.length - s_m.pythonIds.length) < fe := by
    have hb : s_m.deferred.length + initState.pythonIds.length ≤
        initState.deferred.length + s_m.pythonIds.length := hS.2.1
    have h0 : initState.pythonIds.length = 0 := rfl
    have h1 : initState.deferred.length = 0 := rfl
    have h2 : h.length + 1 ≤ fe := by omega
    omega
  obtain ⟨s_f, hdr, hinvf, hdeff, dd, hdd⟩ :=
    drainF_full fe hFe fe s_m hinvm hmeas
  refine ⟨fe, s_f, g, ?_, hinvf, hdeff, ?_⟩
  · simp only [marshal, hms, ebind_ok, hdr]
  · rw [hdd]
    exact encV_stable hgv

end GenoshaEncoder
namespace GenoshaDecoder

open GenoshaEncoder (ebind_ok)

theorem wireDec_mono {mu mu' : Nat → Option PValue}
    (hle : ∀ i x, mu i = some x → mu' i = some x) {g : WValue} {v : PValue}
    (hv : wireDec mu g = some v) : wireDec mu' g = some v := by
  cases g with
  | prim p => exact hv
  | ref i => exact hle i v hv
  | wlist xs => simp [wireDec] at hv
  | wdict kvs => simp [wireDec] at hv
  | wobj t o it fl => simp [wireDec] at hv

theorem wireL_mono {mu mu' : Nat → Option PValue}
    (hle : ∀ i x, mu i = some x → mu' i = some x) :
    ∀ {gs : List WValue} {vs : List PValue},
    wireL mu gs = some vs → wireL mu' gs = some vs := by
  intro gs
  induction gs with
  | nil => intro vs hv; exact hv
  | cons g gs ih =>
    intro vs hv
    simp only [wireL] at hv ⊢
    rw [obind_eq_some] at hv
    obtain ⟨v, hv1, hv⟩ := hv
    rw [obind_eq_some] at hv
    obtain ⟨vs', hvs, hv⟩ := hv
    rw [wireDec_mono hle hv1, ih hvs]
    exact hv

theorem wireP_mono {mu mu' : Nat → Option PValue}
    (hle : ∀ i x, mu i = some x → mu' i = some x) :
    ∀ {gs : List (WValue × WValue)} {vs : List (PValue × PValue)},
    wireP mu gs = some vs → wireP mu' gs = some vs := by
  intro gs
  induction gs with
  | nil => intro vs hv; exact hv
  | cons g gs ih =>
    intro vs hv
    obtain ⟨gk, gv⟩ := g
    simp only [wireP] at hv ⊢
    rw [obind_eq_some] at hv
    obtain ⟨k, hk, hv⟩ := hv
    rw [obind_eq_some] at hv
    obtain ⟨v, hv1, hv⟩ := hv
    rw [obind_eq_some] at hv
    obtain ⟨vs', hvs, hv⟩ := hv
    rw [wireDec_mono hle hk, wireDec_mono hle hv1, ih hvs]
    exact hv

theorem wireF_mono {mu mu' : Nat → Option PValue}
    (hle : ∀ i x, mu i = some x → mu' i = some x) :
    ∀ {gs : List (WValue × WValue)} {vs : List (List Char × PValue)},
    wireF mu gs = some vs → wireF mu' gs = some vs := by
  intro gs
  induction gs with
  | nil => intro vs hv; exact hv
  | cons g gs ih =>
    intro vs hv
    obtain ⟨gk, gv⟩ := g
    match gk with
    | .prim (.pstr k) =>
      simp only [wireF] at hv ⊢
      rw [obind_eq_some] at hv
      obtain ⟨v, hv1, hv⟩ := hv
      rw [obind_eq_some] at hv
      obtain ⟨vs', hvs, hv⟩ := hv
      rw [wireDec_mono hle hv1, ih hvs]
      exact hv
    | .prim (.pint n) => simp [wireF] at hv
    | .prim (.pbool b) => simp [wireF] at hv
    | .prim .pnone => simp [wireF] at hv
    | .ref o => simp [wireF] at hv
    | .wlist xs => simp [wireF] at hv
    | .wdict kvs => simp [wireF] at hv
    | .wobj t o it fl => simp [wireF] at hv

theorem wire_of_encV {pid : List (Nat × Nat)} {mu : Nat → Option PValue}
    {v : PValue} {g : WValue} (hg : GenoshaEncoder.encV pid v = some g) :
    wireDec mu g = mirV pid mu v := by
  cases v with
  | prim p =>
    cases Option.some.inj hg
    rfl
  | ref b =>
    simp only [GenoshaEncoder.encV, Option.map_eq_some'] at hg
    obtain ⟨i, hi, rfl⟩ := hg
    simp only [wireDec, mirV, hi, Option.some_bind]

theorem wireL_of_encL {pid : List (Nat × Nat)} {mu : Nat → Option PValue} :
    ∀ {xs : List PValue} {gs : List WValue},
    GenoshaEncoder.encL pid xs = some gs → wireL mu gs = mirL pid mu xs := by
  intro xs
  induction xs with
  | nil =>
    intro gs hg
    cases Option.some.inj hg
    rfl
  | cons x xs ih =>
    intro gs hg
    simp only [GenoshaEncoder.encL] at hg
    rw [obind_eq_some] at hg
    obtain ⟨g, hg1, hg⟩ := hg
    rw [obind_eq_some] at hg
    obtain ⟨gs', hgs, hg⟩ := hg
    cases Option.some.inj hg
    simp only [wireL, mirL, wire_of_encV hg1, ih hgs]

theorem wireP_of_encP {pid : List (Nat × Nat)} {mu : Nat → Option PValue} :
    ∀ {kvs : List (PValue × PValue)} {gs : List (WValue × WValue)},
    GenoshaEncoder.encP pid kvs = some gs → wireP mu gs = mirP pid mu kvs := by
  intro kvs
  induction kvs with
  | nil =>
    intro gs hg
    cases Option.some.inj hg
    rfl
  | cons kv kvs ih =>
    intro gs hg
    obtain ⟨k, v⟩ := kv
    simp only [GenoshaEncoder.encP] at hg
    rw [obind_eq_some] at hg
    obtain ⟨gk, hgk, hg⟩ := hg
    rw [obind_eq_some] at hg
    obtain ⟨gv, hgv, hg⟩ := hg
    rw [obind_eq_some] at hg
    obtain ⟨gs', hgs, hg⟩ := hg
    cases Option.some.inj hg
    simp only [wireP, mirP, wire_of_encV hgk, wire_of_encV hgv, ih hgs]

theorem wireF_of_encF {pid : List (Nat × Nat)} {mu : Nat → Option PValue} :
    ∀ {fs : List (List Char × PValue)} {gs : List (WValue × WValue)},
    GenoshaEncoder.encF pid fs = some gs → wireF mu gs = mirF pid mu fs := by
  intro fs
  induction fs with
  | nil =>
    intro gs hg
    cases Option.some.inj hg
    rfl
  | cons kv fs ih =>
    intro gs hg
    obtain ⟨k, v⟩ := kv
    simp only [GenoshaEncoder.encF] at hg
    rw [obind_eq_some] at hg
    obtain ⟨gv, hgv, hg⟩ := hg
    rw [obind_eq_some] at hg
    obtain ⟨gs', hgs, hg⟩ := hg
    cases Option.some.inj hg
    simp only [wireF, mirF, wire_of_encV hgv, ih hgs]

theorem encL_flat {pid : List (Nat × Nat)} :
    ∀ {xs : List PValue} {gs : List WValue},
    GenoshaEncoder.encL pid xs = some gs →
    ∀ g ∈ gs, (∃ p, g = .prim p) ∨ ∃ o, g = .ref o := by
  intro xs
  induction xs with
  | nil =>
    intro gs hg g hgm
    cases Option.some.inj hg
    exact absurd hgm (List.not_mem_nil g)
  | cons x xs ih =>
    intro gs hg g hgm
    simp only [GenoshaEncoder.encL] at hg
    rw [obind_eq_some] at hg
    obtain ⟨g0, hg0, hg⟩ := hg
    rw [obind_eq_some] at hg
    obtain ⟨gs', hgs, hg⟩ := hg
    cases Option.some.inj hg
    rcases List.mem_cons.mp hgm with rfl | hgm
    · cases x with
      | prim p =>
        cases Option.some.inj hg0
        exact Or.inl ⟨p, rfl⟩
      | ref b =>
        simp only [GenoshaEncoder.encV, Option.map_eq_some'] at hg0
        obtain ⟨i, _, rfl⟩ := hg0
        exact Or.inr ⟨i, rfl⟩
    · exact ih hgs g hgm

theorem mapDec_flat {m : Nat} : ∀ (gs : List WValue) (s : DecState),
    (∀ g ∈ gs, (∃ p, g = .prim p) ∨ ∃ o, g = .ref o) →
    (∀ o, WValue.ref o ∈ gs → (s.objects.lookup o).isSome = true) →
    ∃ vs, mapDec (decodeF (m + 1)) gs s = .ok (vs, s) ∧
      wireL (fun i => s.objects.lookup i) gs = some vs := by
  intro gs
  induction gs with
  | nil => intro s _ _; exact ⟨[], rfl, rfl⟩
  | cons g gs ih =>
    intro s hflat href
    obtain ⟨vs, hvs, hw⟩ := ih s (fun g' hg' => hflat g' (by simp [hg']))
      (fun o ho => href o (by simp [ho]))
    rcases hflat g (by simp) with ⟨p, rfl⟩ | ⟨o, rfl⟩
    · refine ⟨.prim p :: vs, ?_, ?_⟩
      · have hhead : decodeF (m + 1) (.prim p) s = .ok (.prim p, s) := rfl
        simp only [mapDec, hhead, ebind_ok, hvs]
      · simp only [wireL, wireDec, hw]
        rfl
    · have hos := href o (by simp)
      obtain ⟨vo, hvo⟩ := Option.isSome_iff_exists.mp hos
      refine ⟨vo :: vs, ?_, ?_⟩
      · have hhead : decodeF (m + 1) (.ref o) s = .ok (vo, s) := by
          simp only [decodeF, _unmarshalStep, _reference, hvo]
        simp only [mapDec, hhead, ebind_ok, hvs]
      · simp only [wireL, wireDec, hvo, hw]
        rfl

end GenoshaDecoder
namespace GenoshaDecoder

theorem lookup_cons_eq {i : Nat} {x : PValue} (m : List (Nat × PValue)) :
    ((i, x) :: m).lookup i = some x := by
  simp [List.lookup]

theorem lookup_cons_ne {i i0 : Nat} {x : PValue} (m : List (Nat × PValue))
    (hne : i0 ≠ i) : ((i, x) :: m).lookup i0 = m.lookup i0 := by
  have hbe : (i0 == i) = false := by simp [hne]
  simp [List.lookup, hbe]

theorem findTypeOfValue_ok_eq {t t' : Tag} {vis : Bool}
    (h : GenoshaEncoder.findTypeOfValue t vis = .ok t') : t' = t := by
  unfold GenoshaEncoder.findTypeOfValue at h
  split at h
  · split at h
    · exact (Except.ok.inj h).symm
    · exact absurd h (by simp)
  · exact (Except.ok.inj h).symm

theorem mirV_mono {pid : List (Nat × Nat)} {mu mu' : Nat → Option PValue}
    (hle : ∀ i x, mu i = some x → mu' i = some x) {v v' : PValue}
    (hv : mirV pid mu v = some v') : mirV pid mu' v = some v' := by
  cases v with
  | prim p => exact hv
  | ref b =>
    simp only [mirV] at hv ⊢
    cases hlb : pid.lookup b with
    | none => rw [hlb] at hv; simp at hv
    | some i =>
      rw [hlb] at hv
      simp only [Option.some_bind] at hv ⊢
      exact hle i v' hv

theorem mirL_mono {pid : List (Nat × Nat)} {mu mu' : Nat → Option PValue}
    (hle : ∀ i x, mu i = some x → mu' i = some x) :
    ∀ {xs : List PValue} {vs : List PValue},
    mirL pid mu xs = some vs → mirL pid mu' xs = some vs := by
  intro xs
  induction xs with
  | nil => intro vs hv; exact hv
  | cons x xs ih =>
    intro vs hv
    simp only [mirL] at hv ⊢
    rw [obind_eq_some] at hv
    obtain ⟨v, hv1, hv⟩ := hv
    rw [obind_eq_some] at hv
    obtain ⟨vs', hvs, hv⟩ := hv
    rw [mirV_mono hle hv1, ih hvs]
    exact hv

theorem mirP_mono {pid : List (Nat × Nat)} {mu mu' : Nat → Option PValue}
    (hle : ∀ i x, mu i = some x → mu' i = some x) :
    ∀ {kvs : List (PValue × PValue)} {vs : List (PValue × PValue)},
    mirP pid mu kvs = some vs → mirP pid mu' kvs = some vs := by
  intro kvs
  induction kvs with
  | nil => intro vs hv; exact hv
  | cons kv kvs ih =>
    intro vs hv
    obtain ⟨k, v⟩ := kv
    simp only [mirP] at hv ⊢
    rw [obind_eq_some] at hv
    obtain ⟨k', hk, hv⟩ := hv
    rw [obind_eq_some] at hv
    obtain ⟨v', hv1, hv⟩ := hv
    rw [obind_eq_some] at hv
    obtain ⟨vs', hvs, hv⟩ := hv
    rw [mirV_mono hle hk, mirV_mono hle hv1, ih hvs]
    exact hv

theorem mirF_mono {pid : List (Nat × Nat)} {mu mu' : Nat → Option PValue}
    (hle : ∀ i x, mu i = some x → mu' i = some x) :
    ∀ {fs : List (List Char × PValue)} {vs : List (List Char × PValue)},
    mirF pid mu fs = some vs → mirF pid mu' fs = some vs := by
  intro fs
  induction fs with
  | nil => intro vs hv; exact hv
  | cons kv fs ih =>
    intro vs hv
    obtain ⟨k, v⟩ := kv
    simp only [mirF] at hv ⊢
    rw [obind_eq_some] at hv
    obtain ⟨v', hv1, hv⟩ := hv
    rw [obind_eq_some] at hv
    obtain ⟨vs', hvs, hv⟩ := hv
    rw [mirV_mono hle hv1, ih hvs]
    exact hv

theorem mirObj_mono {h : Heap} {pid : List (Nat × Nat)}
    {mu mu' : Nat → Option PValue} {hp hp' : List PObj} {a da : Nat}
    (hle : ∀ i x, mu i = some x → mu' i = some x)
    (hda : hp'[da]? = hp[da]?)
    (hm : MirObj h pid mu hp a da) : MirObj h pid mu' hp' a da := by
  unfold MirObj at hm ⊢
  split at hm
  · obtain ⟨ys, h1, h2⟩ := hm
    exact ⟨ys, hda ▸ h1, mirL_mono hle h2⟩
  · obtain ⟨ys, h1, h2⟩ := hm
    exact ⟨ys, hda ▸ h1, mirL_mono hle h2⟩
  · obtain ⟨qs, h1, h2⟩ := hm
    exact ⟨qs, hda ▸ h1, mirP_mono hle h2⟩
  · obtain ⟨gs, h1, h2⟩ := hm
    exact ⟨gs, hda ▸ h1, mirF_mono hle h2⟩
  · exact hda ▸ hm
  · exact hda ▸ hm
  · exact hm

theorem queue_addr_lt {h : Heap} {pid : List (Nat × Nat)} {s : DecState}
    {reg : List Nat} (hinv : DInv h pid s reg) {e : PopItem}
    (he : e ∈ s.toPopulate) : e.addr < s.heap.length := by
  obtain ⟨hdom, hids, hq, hnd, hbnd, hinj⟩ := hinv
  obtain ⟨a, i, hmem, hlk⟩ := hq e he
  exact hbnd i e.addr hlk

theorem dinv_step {h : Heap} {pid : List (Nat × Nat)} {s : DecState}
    {reg : List Nat} {a i da : Nat}
    (hinv : DInv h pid s reg)
    (hsnd : (pid.map Prod.snd).Nodup)
    (hmem : (a, i) ∈ pid) (hfresh : i ∉ reg)
    {s' : DecState}
    (hobj : s'.objects = (i, PValue.ref da) :: s.objects)
    (hda : da < s'.heap.length)
    (hheap : ∀ j, j < s.heap.length → s'.heap[j]? = s.heap[j]?)
    (hdale : s.heap.length ≤ da)
    (hqueue : s'.toPopulate = s.toPopulate ∨
      ∃ e, s'.toPopulate = s.toPopulate ++ [e] ∧ e.addr = da)
    (hstate : IdState h pid s' a da) :
    DInv h pid s' (reg ++ [i]) := by
  obtain ⟨hdom, hids, hq, hnd, hbnd, hinj⟩ := hinv
  have hle : ∀ i0 x, s.objects.lookup i0 = some x →
      s'.objects.lookup i0 = some x := by
    intro i0 x hx
    have hne : i0 ≠ i := by
      rintro rfl
      exact hfresh ((hdom i0).mp (by simp [hx]))
    rw [hobj, lookup_cons_ne _ hne]
    exact hx
  have hqsub : ∀ e ∈ s.toPopulate, e ∈ s'.toPopulate := by
    intro e he
    rcases hqueue with hq1 | ⟨e', hq1, _⟩
    · rw [hq1]; exact he
    · rw [hq1]; exact List.mem_append_left _ he
  refine ⟨?_, ?_, ?_, ?_, ?_, ?_⟩
  · -- domain
    intro i0
    by_cases hie : i0 = i
    · subst hie
      rw [hobj, lookup_cons_eq]
      simp
    · rw [hobj, lookup_cons_ne _ hie]
      rw [hdom i0]
      constructor
      · intro h1
        exact List.mem_append_left _ h1
      · intro h1
        rcases List.mem_append.mp h1 with h1 | h1
        · exact h1
        · simp only [List.mem_singleton] at h1
          exact absurd h1 hie
  · -- per id
    intro a0 i0 hmem0 hreg0
    by_cases hie : i0 = i
    · subst hie
      have ha0 : a0 = a := GenoshaEncoder.snd_inj_nodup hsnd hmem0 hmem
      subst ha0
      refine ⟨da, ?_, hda, hstate⟩
      rw [hobj, lookup_cons_eq]
    · have hreg0' : i0 ∈ reg := by
        rcases List.mem_append.mp hreg0 with h1 | h1
        · exact h1
        · simp only [List.mem_singleton] at h1
          exact absurd h1 hie
      obtain ⟨da0, hlk0, hb0, hst0⟩ := hids a0 i0 hmem0 hreg0'
      refine ⟨da0, ?_, by omega, ?_⟩
      · rw [hobj, lookup_cons_ne _ hie]
        exact hlk0
      · rcases hst0 with ⟨hmir, hnq⟩ | ⟨hsh, e, he, hea, hpend⟩
        · refine Or.inl ⟨mirObj_mono hle (hheap da0 hb0) hmir, ?_⟩
          intro e he
          rcases hqueue with hq1 | ⟨e', hq1, hea'⟩
          · rw [hq1] at he
            exact hnq e he
          · rw [hq1] at he
            rcases List.mem_append.mp he with he | he
            · exact hnq e he
            · simp only [List.mem_singleton] at he
              subst he
              omega
        · exact Or.inr ⟨by rw [hheap da0 hb0]; exact hsh, e, hqsub e he, hea,
            hpend⟩
  · -- queue linkage
    intro e he
    rcases hqueue with hq1 | ⟨e', hq1, hea'⟩
    · rw [hq1] at he
      obtain ⟨a0, i0, hm0, hl0⟩ := hq e he
      exact ⟨a0, i0, hm0, hle i0 _ hl0⟩
    · rw [hq1] at he
      rcases List.mem_append.mp he with he | he
      · obtain ⟨a0, i0, hm0, hl0⟩ := hq e he
        exact ⟨a0, i0, hm0, hle i0 _ hl0⟩
      · simp only [List.mem_singleton] at he
        subst he
        refine ⟨a, i, hmem, ?_⟩
        rw [hobj, lookup_cons_eq, hea']
  · -- queue nodup
    rcases hqueue with hq1 | ⟨e', hq1, hea'⟩
    · rw [hq1]
      exact hnd
    · rw [hq1, List.map_append]
      refine List.Nodup.append hnd (by simp) ?_
      intro x hx
      simp only [List.map_cons, List.map_nil, List.mem_singleton]
      rintro rfl
      obtain ⟨e0, he0, hxe⟩ := List.mem_map.mp hx
      obtain ⟨a0, i0, hm0, hl0⟩ := hq e0 he0
      have := hbnd i0 e0.addr hl0
      rw [hxe, hea'] at this
      omega
  · -- heap bound
    intro i0 da0 h1
    by_cases hie : i0 = i
    · subst hie
      rw [hobj, lookup_cons_eq] at h1
      have : PValue.ref da = PValue.ref da0 := Option.some.inj h1
      cases this
      exact hda
    · rw [hobj, lookup_cons_ne _ hie] at h1
      have := hbnd i0 da0 h1
      omega
  · -- value injectivity
    intro i1 i2 da0 h1 h2
    by_cases h1e : i1 = i
    · by_cases h2e : i2 = i
      · rw [h1e, h2e]
      · exfalso
        rw [h1e, hobj, lookup_cons_eq] at h1
        have hde : da = da0 := by injection Option.some.inj h1
        rw [hobj, lookup_cons_ne _ h2e] at h2
        have := hbnd i2 da0 h2
        omega
    · rw [hobj, lookup_cons_ne _ h1e] at h1
      by_cases h2e : i2 = i
      · exfalso
        rw [h2e, hobj, lookup_cons_eq] at h2
        have hde : da = da0 := by injection Option.some.inj h2
        have := hbnd i1 da0 h1
        omega
      · rw [hobj, lookup_cons_ne _ h2e] at h2
        exact hinj i1 i2 da0 h1 h2

end GenoshaDecoder
namespace GenoshaDecoder

open GenoshaEncoder (ebind_ok)

theorem getElem_app_lt {α : Type} {l1 l2 : List α} {j : Nat}
    (hj : j < l1.length) : (l1 ++ l2)[j]? = l1[j]? := by
  rw [List.getElem?_append, if_pos hj]

theorem ref_mem_wrefsL {o : Nat} :
    ∀ {gs : List WValue}, WValue.ref o ∈ gs → o ∈ GenoshaEncoder.wrefsL gs := by
  intro gs
  induction gs with
  | nil => intro hm; exact absurd hm (List.not_mem_nil _)
  | cons g gs ih =>
    intro hm
    rcases List.mem_cons.mp hm with hm | hm
    · rw [← hm]
      simp [GenoshaEncoder.wrefsL, GenoshaEncoder.wrefsW]
    · simp only [GenoshaEncoder.wrefsL]
      exact List.mem_append_right _ (ih hm)

theorem mir_dinv {h : Heap} {pid : List (Nat × Nat)} {s : DecState}
    {reg : List Nat} {a i da : Nat} {ext : List PObj}
    (hinv : DInv h pid s reg) (hsnd : (pid.map Prod.snd).Nodup)
    (hmem : (a, i) ∈ pid) (hfresh : i ∉ reg)
    (hdale : s.heap.length ≤ da) (hda : da < s.heap.length + ext.length)
    (hmir : MirObj h pid
      (fun o => ((i, PValue.ref da) :: s.objects).lookup o)
      (s.heap ++ ext) a da) :
    DInv h pid ⟨s.heap ++ ext, (i, PValue.ref da) :: s.objects, s.toPopulate⟩
      (reg ++ [i]) := by
  refine dinv_step hinv hsnd hmem hfresh rfl ?_ ?_ hdale (Or.inl rfl) ?_
  · show da < (s.heap ++ ext).length
    rw [List.length_append]
    exact hda
  · intro j hj
    exact getElem_app_lt hj
  · refine Or.inl ⟨hmir, ?_⟩
    intro e he
    have := queue_addr_lt hinv he
    omega

theorem mut_dinv {h : Heap} {pid : List (Nat × Nat)} {s : DecState}
    {reg : List Nat} {a i : Nat} {shell : PObj} {it0 : Option WValue}
    {fl0 : Option (List (WValue × WValue))}
    (hinv : DInv h pid s reg) (hsnd : (pid.map Prod.snd).Nodup)
    (hmem : (a, i) ∈ pid) (hfresh : i ∉ reg)
    (hSh : emptyShell h a = some shell)
    (hpend : Pend h pid ⟨s.heap.length, it0, fl0⟩ a) :
    DInv h pid ⟨s.heap ++ [shell],
      (i, PValue.ref s.heap.length) :: s.objects,
      s.toPopulate ++ [⟨s.heap.length, it0, fl0⟩]⟩ (reg ++ [i]) := by
  refine dinv_step hinv hsnd hmem hfresh rfl ?_ ?_ (Nat.le_refl _) ?_ ?_
  · show s.heap.length < (s.heap ++ [shell]).length
    simp
  · intro j hj
    exact getElem_app_lt hj
  · exact Or.inr ⟨⟨s.heap.length, it0, fl0⟩, rfl, rfl⟩
  · refine Or.inr ⟨?_, ⟨s.heap.length, it0, fl0⟩, ?_, rfl, hpend⟩
    · show (s.heap ++ [shell])[s.heap.length]? = emptyShell h a
      rw [GenoshaEncoder.getElem_concat_self]
      exact hSh.symm
    · show _ ∈ s.toPopulate ++ [(⟨s.heap.length, it0, fl0⟩ : PopItem)]
      exact List.mem_append_right _ (by simp)

theorem record_step {h : Heap} {pid : List (Nat × Nat)} {m : Nat}
    {a i : Nat} {r : WValue} {s : DecState} {reg : List Nat}
    (hsnd : (pid.map Prod.snd).Nodup)
    (hmem : (a, i) ∈ pid)
    (hr : GenoshaEncoder.recordFor pid h a i = some r)
    (hfresh : i ∉ reg)
    (hord : ∀ gs,
      r = .wobj (some .ttuple) (some i) (some (.wlist gs)) (some []) →
      ∀ o ∈ GenoshaEncoder.wrefsL gs, o ∈ reg)
    (hinv : DInv h pid s reg) :
    ∃ da s', decodeF (m + 3) r s = .ok (.ref da, s') ∧
      s'.objects = (i, PValue.ref da) :: s.objects ∧
      (∃ hext, s'.heap = s.heap ++ hext) ∧
      (∀ e ∈ s.toPopulate, e ∈ s'.toPopulate) ∧
      s'.toPopulate.length ≤ s.toPopulate.length + 1 ∧
      DInv h pid s' (reg ++ [i]) := by
  unfold GenoshaEncoder.recordFor at hr
  split at hr
  · -- plist
    rename_i xs heq
    rw [Option.map_eq_some'] at hr
    obtain ⟨gs, hgs, hrr⟩ := hr
    subst hrr
    have hstep : decodeF (m + 3)
        (.wobj (some .tlist) (some i) (some (.wlist gs)) (some [])) s =
        .ok (.ref s.heap.length,
          (⟨s.heap ++ [PObj.plist []],
            (i, PValue.ref s.heap.length) :: s.objects,
            s.toPopulate ++ [⟨s.heap.length, some (.wlist gs), some []⟩]⟩ :
              DecState)) := by rfl
    refine ⟨s.heap.length, _, hstep, rfl, ⟨[PObj.plist []], rfl⟩,
      fun e he => List.mem_append_left _ he, by simp, ?_⟩
    refine mut_dinv hinv hsnd hmem hfresh ?_ ?_
    · simp [emptyShell, heq]
    · unfold Pend
      rw [heq]
      exact ⟨gs, hgs, rfl, rfl⟩
  · -- ptuple
    rename_i xs heq
    rw [Option.map_eq_some'] at hr
    obtain ⟨gs, hgs, hrr⟩ := hr
    subst hrr
    have hres : ∀ o, WValue.ref o ∈ gs →
        (s.objects.lookup o).isSome = true := by
      intro o ho
      exact (hinv.1 o).mpr (hord gs rfl o (ref_mem_wrefsL ho))
    obtain ⟨vs, hmap, hwire⟩ := mapDec_flat gs s (encL_flat hgs) hres
    have h1 : decodeF (m + 2) (.wlist gs) s =
        .ok (.ref s.heap.length,
          ⟨s.heap ++ [.plist vs], s.objects, s.toPopulate⟩) := by
      have e0 : decodeF (m + 2) (.wlist gs) s =
          _unmarshalStep (decodeF (m + 1)) (.wlist gs) s := rfl
      rw [e0]
      simp only [_unmarshalStep]
      rw [hmap, ebind_ok]
      rfl
    have h2 : iterElems
        (⟨s.heap ++ [.plist vs], s.objects, s.toPopulate⟩ : DecState)
        (.ref s.heap.length) = .ok vs := by
      simp only [iterElems]
      rw [show (s.heap ++ [PObj.plist vs])[s.heap.length]? =
        some (PObj.plist vs) from GenoshaEncoder.getElem_concat_self _ _]
    have hcv : create_value (decodeF (m + 2)) .ttuple (some i)
        (some (.wlist gs)) (some []) s =
        .ok (.ref (s.heap.length + 1),
          (⟨s.heap ++ [PObj.plist vs, PObj.ptuple vs], s.objects,
            s.toPopulate⟩ : DecState)) := by
      have e4 : create_value (decodeF (m + 2)) .ttuple (some i)
          (some (.wlist gs)) (some []) s =
          (do
            let (iv, sx) ← decodeF (m + 2) (.wlist gs) s
            let xs2 ← iterElems sx iv
            let (a2, sy) := alloc (.ptuple xs2) sx
            Except.ok (PValue.ref a2, sy)) := rfl
      rw [e4, h1, ebind_ok]
      dsimp only
      rw [h2, ebind_ok]
      dsimp only [alloc]
      show Except.ok (PValue.ref (s.heap ++ [PObj.plist vs]).length,
          (⟨(s.heap ++ [PObj.plist vs]) ++ [PObj.ptuple vs], s.objects,
            s.toPopulate⟩ : DecState)) = _
      rw [List.length_append, List.append_assoc]
      rfl
    have hstep : decodeF (m + 3)
        (.wobj (some .ttuple) (some i) (some (.wlist gs)) (some [])) s =
        .ok (.ref (s.heap.length + 1),
          (⟨s.heap ++ [PObj.plist vs, PObj.ptuple vs],
            (i, PValue.ref (s.heap.length + 1)) :: s.objects,
            s.toPopulate⟩ : DecState)) := by
      have e0 : decodeF (m + 3)
          (.wobj (some .ttuple) (some i) (some (.wlist gs)) (some [])) s =
          create_object (decodeF (m + 2)) (some .ttuple) (some i)
            (some (.wlist gs)) (some []) s := rfl
      rw [e0]
      have e5 : create_object (decodeF (m + 2)) (some .ttuple) (some i)
          (some (.wlist gs)) (some []) s =
          (create_value (decodeF (m + 2)) .ttuple (some i)
            (some (.wlist gs)) (some []) s >>= fun os =>
              Except.ok (os.1,
                { os.2 with objects := (i, os.1) :: os.2.objects })) := rfl
      rw [e5, hcv, ebind_ok]
    have hle : ∀ o x, s.objects.lookup o = some x →
        ((i, PValue.ref (s.heap.length + 1)) :: s.objects).lookup o =
          some x := by
      intro o x hx
      have hsome : (s.objects.lookup o).isSome = true := by simp [hx]
      have ho : o ∈ reg := (hinv.1 o).mp hsome
      have hne : o ≠ i := by
        intro he
        rw [he] at ho
        exact hfresh ho
      rw [lookup_cons_ne _ hne]
      exact hx
    have hmirL : mirL pid
        (fun o => ((i, PValue.ref (s.heap.length + 1)) :: s.objects).lookup o)
        xs = some vs := by
      refine mirL_mono hle ?_
      rw [← wireL_of_encL hgs]
      exact hwire
    have hget : (s.heap ++ [PObj.plist vs, PObj.ptuple vs])[s.heap.length + 1]?
        = some (PObj.ptuple vs) := by
      have h5 : s.heap ++ [PObj.plist vs, PObj.ptuple vs] =
          (s.heap ++ [PObj.plist vs]) ++ [PObj.ptuple vs] := by simp
      rw [h5]
      have h6 := GenoshaEncoder.getElem_concat_self
        (s.heap ++ [PObj.plist vs]) (PObj.ptuple vs)
      rw [List.length_append] at h6
      exact h6
    refine ⟨s.heap.length + 1, _, hstep, rfl,
      ⟨[PObj.plist vs, PObj.ptuple vs], rfl⟩, fun e he => he, by simp, ?_⟩
    refine mir_dinv hinv hsnd hmem hfresh (by omega) ?_ ?_
    · show s.heap.length + 1 < s.heap.length + [PObj.plist vs,
        PObj.ptuple vs].length
      simp
    · unfold MirObj
      rw [heq]
      exact ⟨vs, hget, hmirL⟩
  · -- pdict
    rename_i kvs heq
    rw [Option.map_eq_some'] at hr
    obtain ⟨gp, hgp, hrr⟩ := hr
    subst hrr
    have hstep : decodeF (m + 3)
        (.wobj (some .tdict) (some i) (some (.wdict gp)) (some [])) s =
        .ok (.ref s.heap.length,
          (⟨s.heap ++ [PObj.pdict []],
            (i, PValue.ref s.heap.length) :: s.objects,
            s.toPopulate ++ [⟨s.heap.length, some (.wdict gp), some []⟩]⟩ :
              DecState)) := by rfl
    refine ⟨s.heap.length, _, hstep, rfl, ⟨[PObj.pdict []], rfl⟩,
      fun e he => List.mem_append_left _ he, by simp, ?_⟩
    refine mut_dinv hinv hsnd hmem hfresh ?_ ?_
    · simp [emptyShell, heq]
    · unfold Pend
      rw [heq]
      exact ⟨gp, hgp, rfl, rfl⟩
  · -- pinst
    rename_i m0 p0 vis fs heq
    split at hr
    · rw [Option.map_eq_some'] at hr
      obtain ⟨gfs, hgfs, hrr⟩ := hr
      subst hrr
      have hstep : decodeF (m + 3)
          (.wobj (some (.tuser m0 p0)) (some i) none (some gfs)) s =
          .ok (.ref s.heap.length,
            (⟨s.heap ++ [PObj.pinst m0 p0 true []],
              (i, PValue.ref s.heap.length) :: s.objects,
              s.toPopulate ++ [⟨s.heap.length, none, some gfs⟩]⟩ :
                DecState)) := by rfl
      refine ⟨s.heap.length, _, hstep, rfl,
        ⟨[PObj.pinst m0 p0 true []], rfl⟩,
        fun e he => List.mem_append_left _ he, by simp, ?_⟩
      refine mut_dinv hinv hsnd hmem hfresh ?_ ?_
      · simp [emptyShell, heq]
      · unfold Pend
        rw [heq]
        exact ⟨gfs, hgfs, rfl, rfl⟩
    · exact absurd hr (by simp)
  · -- pfunc
    rename_i name m0 p0 vis clos heq
    split at hr
    · cases Option.some.inj hr
      have hstep : decodeF (m + 3)
          (.wobj (some (.tuser m0 p0)) (some i) none none) s =
          .ok (.ref s.heap.length,
            (⟨s.heap ++ [PObj.pglobal (.tuser m0 p0) true],
              (i, PValue.ref s.heap.length) :: s.objects,
              s.toPopulate⟩ : DecState)) := by rfl
      refine ⟨s.heap.length, _, hstep, rfl,
        ⟨[PObj.pglobal (.tuser m0 p0) true], rfl⟩,
        fun e he => he, by simp, ?_⟩
      refine mir_dinv hinv hsnd hmem hfresh (Nat.le_refl _) (by simp) ?_
      unfold MirObj
      rw [heq]
      exact GenoshaEncoder.getElem_concat_self _ _
    · exact absurd hr (by simp)
  · -- pglobal
    rename_i t vis heq
    split at hr
    · rename_i t' hft
      cases Option.some.inj hr
      have hteq : t' = t := findTypeOfValue_ok_eq hft
      subst hteq
      have hstep : decodeF (m + 3)
          (.wobj (some t') (some i) none none) s =
          .ok (.ref s.heap.length,
            (⟨s.heap ++ [PObj.pglobal t' true],
              (i, PValue.ref s.heap.length) :: s.objects,
              s.toPopulate⟩ : DecState)) := by rfl
      refine ⟨s.heap.length, _, hstep, rfl,
        ⟨[PObj.pglobal t' true], rfl⟩,
        fun e he => he, by simp, ?_⟩
      refine mir_dinv hinv hsnd hmem hfresh (Nat.le_refl _) (by simp) ?_
      unfold MirObj
      rw [heq]
      exact GenoshaEncoder.getElem_concat_self _ _
    · exact absurd hr (by simp)
  · -- unsupported kinds
    exact absurd hr (by simp)

end GenoshaDecoder
namespace GenoshaDecoder

open GenoshaEncoder (ebind_ok)

theorem dinv_heap_append {h : Heap} {pid : List (Nat × Nat)} {s : DecState}
    {reg : List Nat} {L : List PObj} (hinv : DInv h pid s reg) :
    DInv h pid ⟨s.heap ++ L, s.objects, s.toPopulate⟩ reg := by
  obtain ⟨hdom, hids, hq, hnd, hbnd, hinj⟩ := hinv
  refine ⟨hdom, ?_, hq, hnd, ?_, hinj⟩
  · intro a i hm hr
    obtain ⟨da, hlk, hb, hst⟩ := hids a i hm hr
    refine ⟨da, hlk, ?_, ?_⟩
    · show da < (s.heap ++ L).length
      rw [List.length_append]
      omega
    · rcases hst with ⟨hmir, hnq⟩ | ⟨hsh, e, he, hea, hp⟩
      · exact Or.inl ⟨mirObj_mono (fun o x hx => hx) (getElem_app_lt hb) hmir,
          hnq⟩
      · refine Or.inr ⟨?_, e, he, hea, hp⟩
        show (s.heap ++ L)[da]? = emptyShell h a
        rw [getElem_app_lt hb]
        exact hsh
  · intro i da hlk
    have := hbnd i da hlk
    show da < (s.heap ++ L).length
    rw [List.length_append]
    omega

theorem recordFor_oid {pid : List (Nat × Nat)} {h : Heap} {a i : Nat}
    {w : WValue} (hr : GenoshaEncoder.recordFor pid h a i = some w) :
    ∃ t it fl, w = .wobj (some t) (some i) it fl := by
  unfold GenoshaEncoder.recordFor at hr
  split at hr
  · rw [Option.map_eq_some'] at hr
    obtain ⟨gs, _, hrr⟩ := hr
    exact ⟨_, _, _, hrr.symm⟩
  · rw [Option.map_eq_some'] at hr
    obtain ⟨gs, _, hrr⟩ := hr
    exact ⟨_, _, _, hrr.symm⟩
  · rw [Option.map_eq_some'] at hr
    obtain ⟨gp, _, hrr⟩ := hr
    exact ⟨_, _, _, hrr.symm⟩
  · split at hr
    · rw [Option.map_eq_some'] at hr
      obtain ⟨gfs, _, hrr⟩ := hr
      exact ⟨_, _, _, hrr.symm⟩
    · exact absurd hr (by simp)
  · split at hr
    · exact ⟨_, _, _, (Option.some.inj hr).symm⟩
    · exact absurd hr (by simp)
  · split at hr
    · exact ⟨_, _, _, (Option.some.inj hr).symm⟩
    · exact absurd hr (by simp)
  · exact absurd hr (by simp)

theorem records_loop {h : Heap} {pid : List (Nat × Nat)} {m : Nat}
    (hsnd : (pid.map Prod.snd).Nodup) :
    ∀ (rest done : List WValue) (s : DecState),
    (∀ (k : Nat) (w : WValue), rest[k]? = some w → ∃ a i, (a, i) ∈ pid ∧
      GenoshaEncoder.recordFor pid h a i = some w) →
    (∀ (k : Nat) (os : Option Nat) (gs : List WValue)
      (fl : Option (List (WValue × WValue))),
      rest[k]? = some (.wobj (some .ttuple) os (some (.wlist gs)) fl) →
      ∀ o ∈ GenoshaEncoder.wrefsL gs,
        o ∈ GenoshaEncoder.recordOids (done ++ rest.take k)) →
    (GenoshaEncoder.recordOids (done ++ rest)).Nodup →
    DInv h pid s (GenoshaEncoder.recordOids done) →
    ∃ vs s', mapDec (decodeF (m + 3)) rest s = .ok (vs, s') ∧
      DInv h pid s' (GenoshaEncoder.recordOids (done ++ rest)) ∧
      (∀ o x, s.objects.lookup o = some x → s'.objects.lookup o = some x) ∧
      s'.toPopulate.length ≤ s.toPopulate.length + rest.length ∧
      (∃ hext, s'.heap = s.heap ++ hext) := by
  intro rest
  induction rest with
  | nil =>
    intro done s _ _ _ hinv
    refine ⟨[], s, rfl, ?_, fun o x hx => hx, by simp,
      ⟨[], by rw [List.append_nil]⟩⟩
    rw [List.append_nil]
    exact hinv
  | cons w ws ih =>
    intro done s hRec hOrd hnd hinv
    obtain ⟨a, i, hmem, hw⟩ := hRec 0 w (by simp)
    obtain ⟨t0, it0, fl0, hwe⟩ := recordFor_oid hw
    subst hwe
    have hro : GenoshaEncoder.recordOids
        (done ++ .wobj (some t0) (some i) it0 fl0 :: ws) =
        GenoshaEncoder.recordOids done ++
          i :: GenoshaEncoder.recordOids ws := by
      rw [GenoshaEncoder.recordOids_append, GenoshaEncoder.recordOids_cons]
      simp
    have hfresh : i ∉ GenoshaEncoder.recordOids done := by
      intro hin
      rw [hro] at hnd
      exact (List.nodup_append.mp hnd).2.2 hin (List.mem_cons_self i _)
    have hords : ∀ gs, WValue.wobj (some t0) (some i) it0 fl0 =
        .wobj (some .ttuple) (some i) (some (.wlist gs)) (some []) →
        ∀ o ∈ GenoshaEncoder.wrefsL gs,
          o ∈ GenoshaEncoder.recordOids done := by
      intro gs hgse o ho
      injection hgse with ht hi2 hit hfl
      cases Option.some.inj ht
      cases hit
      cases hfl
      have := hOrd 0 (some i) gs (some []) (by simp) o ho
      simpa using this
    obtain ⟨da, s1, hstep, hobj1, ⟨e1, hheap1⟩, hqs1, hql1, hinv1⟩ :=
      record_step (m := m) hsnd hmem hw hfresh hords hinv
    have hinv1' : DInv h pid s1 (GenoshaEncoder.recordOids
        (done ++ [.wobj (some t0) (some i) it0 fl0])) := by
      rw [GenoshaEncoder.recordOids_concat]
      exact hinv1
    have hRec2 : ∀ (k : Nat) (w' : WValue), ws[k]? = some w' →
        ∃ a2 i2, (a2, i2) ∈ pid ∧
        GenoshaEncoder.recordFor pid h a2 i2 = some w' := by
      intro k w' hk
      exact hRec (k + 1) w' (by rw [List.getElem?_cons_succ]; exact hk)
    have hOrd2 : ∀ (k : Nat) (os : Option Nat) (gs : List WValue)
        (fl : Option (List (WValue × WValue))),
        ws[k]? = some (.wobj (some .ttuple) os (some (.wlist gs)) fl) →
        ∀ o ∈ GenoshaEncoder.wrefsL gs, o ∈ GenoshaEncoder.recordOids
          ((done ++ [.wobj (some t0) (some i) it0 fl0]) ++ ws.take k) := by
      intro k os gs fl hk o ho
      have := hOrd (k + 1) os gs fl
        (by rw [List.getElem?_cons_succ]; exact hk) o ho
      rw [List.append_assoc]
      simpa [List.take_succ_cons] using this
    have hnd2 : (GenoshaEncoder.recordOids
        ((done ++ [.wobj (some t0) (some i) it0 fl0]) ++ ws)).Nodup := by
      rw [List.append_assoc]
      simpa using hnd
    obtain ⟨vs2, s2, hmap2, hinv2, hle2, hql2, e2, hheap2⟩ :=
      ih (done ++ [.wobj (some t0) (some i) it0 fl0]) s1 hRec2 hOrd2 hnd2
        hinv1'
    have hinv2' : DInv h pid s2 (GenoshaEncoder.recordOids
        (done ++ .wobj (some t0) (some i) it0 fl0 :: ws)) := by
      rw [show done ++ WValue.wobj (some t0) (some i) it0 fl0 :: ws =
        (done ++ [.wobj (some t0) (some i) it0 fl0]) ++ ws from by
          rw [List.append_assoc]
          rfl]
      exact hinv2
    have hled : ∀ o x, s.objects.lookup o = some x →
        s1.objects.lookup o = some x := by
      intro o x hx
      have hsome : (s.objects.lookup o).isSome = true := by simp [hx]
      have ho : o ∈ GenoshaEncoder.recordOids done := (hinv.1 o).mp hsome
      have hne : o ≠ i := fun he => hfresh (he ▸ ho)
      rw [hobj1, lookup_cons_ne _ hne]
      exact hx
    refine ⟨.ref da :: vs2, s2, ?_, hinv2',
      fun o x hx => hle2 o x (hled o x hx),
      by simp only [List.length_cons]; omega,
      ⟨e1 ++ e2, by rw [hheap2, hheap1, List.append_assoc]⟩⟩
    show mapDec (decodeF (m + 3))
      (.wobj (some t0) (some i) it0 fl0 :: ws) s = _
    simp only [mapDec]
    rw [hstep, ebind_ok, hmap2, ebind_ok]

end GenoshaDecoder
namespace GenoshaDecoder

open GenoshaEncoder (ebind_ok)

theorem encV_flat {pid : List (Nat × Nat)} {v : PValue} {g : WValue}
    (hg : GenoshaEncoder.encV pid v = some g) :
    (∃ p, g = .prim p) ∨ ∃ o, g = .ref o := by
  cases v with
  | prim p => exact Or.inl ⟨p, (Option.some.inj hg).symm⟩
  | ref b =>
    simp only [GenoshaEncoder.encV, Option.map_eq_some'] at hg
    obtain ⟨o, _, hgo⟩ := hg
    exact Or.inr ⟨o, hgo.symm⟩

theorem encV_ref_pid {pid : List (Nat × Nat)} {v : PValue} {o : Nat}
    (hg : GenoshaEncoder.encV pid v = some (.ref o)) : ∃ b, (b, o) ∈ pid := by
  cases v with
  | prim p => exact absurd hg (by simp [GenoshaEncoder.encV])
  | ref b =>
    simp only [GenoshaEncoder.encV, Option.map_eq_some'] at hg
    obtain ⟨o', hlk, hgo⟩ := hg
    cases WValue.ref.inj hgo
    exact ⟨b, GenoshaEncoder.lookup_mem hlk⟩

theorem encL_ref_pid {pid : List (Nat × Nat)} :
    ∀ {xs : List PValue} {gs : List WValue},
    GenoshaEncoder.encL pid xs = some gs → ∀ o, WValue.ref o ∈ gs →
    ∃ b, (b, o) ∈ pid := by
  intro xs
  induction xs with
  | nil =>
    intro gs hg o ho
    cases Option.some.inj hg
    exact absurd ho (List.not_mem_nil _)
  | cons x xs ih =>
    intro gs hg o ho
    simp only [GenoshaEncoder.encL] at hg
    rw [obind_eq_some] at hg
    obtain ⟨g, hg1, hg⟩ := hg
    rw [obind_eq_some] at hg
    obtain ⟨gs', hgs, hg⟩ := hg
    cases Option.some.inj hg
    rcases List.mem_cons.mp ho with ho | ho
    · exact encV_ref_pid (ho ▸ hg1)
    · exact ih hgs o ho

theorem encP_flat {pid : List (Nat × Nat)} :
    ∀ {kvs : List (PValue × PValue)} {gp : List (WValue × WValue)},
    GenoshaEncoder.encP pid kvs = some gp → ∀ kv ∈ gp,
    ((∃ p, kv.1 = WValue.prim p) ∨ ∃ o, kv.1 = WValue.ref o) ∧
    ((∃ p, kv.2 = WValue.prim p) ∨ ∃ o, kv.2 = WValue.ref o) := by
  intro kvs
  induction kvs with
  | nil =>
    intro gp hg kv hkv
    cases Option.some.inj hg
    exact absurd hkv (List.not_mem_nil _)
  | cons kv0 kvs ih =>
    intro gp hg kv hkv
    obtain ⟨k, v⟩ := kv0
    simp only [GenoshaEncoder.encP] at hg
    rw [obind_eq_some] at hg
    obtain ⟨gk, hgk, hg⟩ := hg
    rw [obind_eq_some] at hg
    obtain ⟨gv, hgv, hg⟩ := hg
    rw [obind_eq_some] at hg
    obtain ⟨gs', hgs, hg⟩ := hg
    cases Option.some.inj hg
    rcases List.mem_cons.mp hkv with hkv | hkv
    · rw [hkv]
      exact ⟨encV_flat hgk, encV_flat hgv⟩
    · exact ih hgs kv hkv

theorem encP_ref_pid {pid : List (Nat × Nat)} :
    ∀ {kvs : List (PValue × PValue)} {gp : List (WValue × WValue)},
    GenoshaEncoder.encP pid kvs = some gp → ∀ kv ∈ gp, ∀ o,
    (kv.1 = WValue.ref o ∨ kv.2 = WValue.ref o) → ∃ b, (b, o) ∈ pid := by
  intro kvs
  induction kvs with
  | nil =>
    intro gp hg kv hkv
    cases Option.some.inj hg
    exact absurd hkv (List.not_mem_nil _)
  | cons kv0 kvs ih =>
    intro gp hg kv hkv o hko
    obtain ⟨k, v⟩ := kv0
    simp only [GenoshaEncoder.encP] at hg
    rw [obind_eq_some] at hg
    obtain ⟨gk, hgk, hg⟩ := hg
    rw [obind_eq_some] at hg
    obtain ⟨gv, hgv, hg⟩ := hg
    rw [obind_eq_some] at hg
    obtain ⟨gs', hgs, hg⟩ := hg
    cases Option.some.inj hg
    rcases List.mem_cons.mp hkv with hkv | hkv
    · rw [hkv] at hko
      dsimp only at hko
      rcases hko with hko | hko
      · exact encV_ref_pid (hko ▸ hgk)
      · exact encV_ref_pid (hko ▸ hgv)
    · exact ih hgs kv hkv o hko

theorem encF_flat {pid : List (Nat × Nat)} :
    ∀ {fs : List (List Char × PValue)} {gfs : List (WValue × WValue)},
    GenoshaEncoder.encF pid fs = some gfs → ∀ kv ∈ gfs,
    (∃ k, kv.1 = WValue.prim (.pstr k)) ∧
    ((∃ p, kv.2 = WValue.prim p) ∨ ∃ o, kv.2 = WValue.ref o) := by
  intro fs
  induction fs with
  | nil =>
    intro gfs hg kv hkv
    cases Option.some.inj hg
    exact absurd hkv (List.not_mem_nil _)
  | cons kv0 fs ih =>
    intro gfs hg kv hkv
    obtain ⟨k, v⟩ := kv0
    simp only [GenoshaEncoder.encF] at hg
    rw [obind_eq_some] at hg
    obtain ⟨gv, hgv, hg⟩ := hg
    rw [obind_eq_some] at hg
    obtain ⟨gs', hgs, hg⟩ := hg
    cases Option.some.inj hg
    rcases List.mem_cons.mp hkv with hkv | hkv
    · rw [hkv]
      exact ⟨⟨k, rfl⟩, encV_flat hgv⟩
    · exact ih hgs kv hkv

theorem encF_ref_pid {pid : List (Nat × Nat)} :
    ∀ {fs : List (List Char × PValue)} {gfs : List (WValue × WValue)},
    GenoshaEncoder.encF pid fs = some gfs → ∀ kv ∈ gfs, ∀ o,
    kv.2 = WValue.ref o → ∃ b, (b, o) ∈ pid := by
  intro fs
  induction fs with
  | nil =>
    intro gfs hg kv hkv
    cases Option.some.inj hg
    exact absurd hkv (List.not_mem_nil _)
  | cons kv0 fs ih =>
    intro gfs hg kv hkv o hko
    obtain ⟨k, v⟩ := kv0
    simp only [GenoshaEncoder.encF] at hg
    rw [obind_eq_some] at hg
    obtain ⟨gv, hgv, hg⟩ := hg
    rw [obind_eq_some] at hg
    obtain ⟨gs', hgs, hg⟩ := hg
    cases Option.some.inj hg
    rcases List.mem_cons.mp hkv with hkv | hkv
    · rw [hkv] at hko
      dsimp only at hko
      exact encV_ref_pid (hko ▸ hgv)
    · exact ih hgs kv hkv o hko

theorem decodeF_flat_one {m : Nat} {g : WValue} {s : DecState}
    (hflat : (∃ p, g = WValue.prim p) ∨ ∃ o, g = WValue.ref o)
    (hres : ∀ o, g = WValue.ref o → (s.objects.lookup o).isSome = true) :
    ∃ v, decodeF (m + 1) g s = .ok (v, s) ∧
      wireDec (fun i => s.objects.lookup i) g = some v := by
  rcases hflat with ⟨p, hp⟩ | ⟨o, ho⟩
  · subst hp
    exact ⟨.prim p, rfl, rfl⟩
  · subst ho
    have := hres o rfl
    cases hvo : s.objects.lookup o with
    | none => rw [hvo] at this; simp at this
    | some v =>
      refine ⟨v, ?_, hvo⟩
      simp only [decodeF, _unmarshalStep, _reference, hvo]

theorem mapDecPairs_flat {m : Nat} :
    ∀ (gp : List (WValue × WValue)) (s : DecState),
    (∀ kv ∈ gp,
      ((∃ p, kv.1 = WValue.prim p) ∨ ∃ o, kv.1 = WValue.ref o) ∧
      ((∃ p, kv.2 = WValue.prim p) ∨ ∃ o, kv.2 = WValue.ref o)) →
    (∀ kv ∈ gp, ∀ o, (kv.1 = WValue.ref o ∨ kv.2 = WValue.ref o) →
      (s.objects.lookup o).isSome = true) →
    ∃ ps, mapDecPairs (decodeF (m + 1)) gp s = .ok (ps, s) ∧
      wireP (fun i => s.objects.lookup i) gp = some ps := by
  intro gp
  induction gp with
  | nil => intro s _ _; exact ⟨[], rfl, rfl⟩
  | cons kv gp ih =>
    intro s hflat hres
    obtain ⟨kw, vw⟩ := kv
    obtain ⟨hk, hv⟩ := hflat (kw, vw) (List.mem_cons_self _ _)
    obtain ⟨k', hkdec, hkwire⟩ := decodeF_flat_one (m := m) hk
      (fun o ho => hres (kw, vw) (List.mem_cons_self _ _) o (Or.inl ho))
    obtain ⟨v', hvdec, hvwire⟩ := decodeF_flat_one (m := m) hv
      (fun o ho => hres (kw, vw) (List.mem_cons_self _ _) o (Or.inr ho))
    obtain ⟨ps, hps, hpwire⟩ := ih s
      (fun kv hkv => hflat kv (List.mem_cons_of_mem _ hkv))
      (fun kv hkv => hres kv (List.mem_cons_of_mem _ hkv))
    refine ⟨(k', v') :: ps, ?_, ?_⟩
    · simp only [mapDecPairs]
      rw [hkdec, ebind_ok, hvdec, ebind_ok, hps, ebind_ok]
    · simp only [wireP]
      rw [obind_eq_some]
      refine ⟨k', hkwire, ?_⟩
      rw [obind_eq_some]
      refine ⟨v', hvwire, ?_⟩
      rw [obind_eq_some]
      exact ⟨ps, hpwire, rfl⟩

theorem mapDecPairs_fields {m : Nat} :
    ∀ (gfs : List (WValue × WValue)) (s : DecState),
    (∀ kv ∈ gfs,
      (∃ k, kv.1 = WValue.prim (.pstr k)) ∧
      ((∃ p, kv.2 = WValue.prim p) ∨ ∃ o, kv.2 = WValue.ref o)) →
    (∀ kv ∈ gfs, ∀ o, kv.2 = WValue.ref o →
      (s.objects.lookup o).isSome = true) →
    ∃ vs, mapDecPairs (decodeF (m + 1)) gfs s =
        .ok (vs.map fun kv => (PValue.prim (.pstr kv.1), kv.2), s) ∧
      wireF (fun i => s.objects.lookup i) gfs = some vs := by
  intro gfs
  induction gfs with
  | nil => intro s _ _; exact ⟨[], rfl, rfl⟩
  | cons kv gfs ih =>
    intro s hflat hres
    obtain ⟨kw, vw⟩ := kv
    obtain ⟨⟨k, hkw⟩, hv⟩ := hflat (kw, vw) (List.mem_cons_self _ _)
    subst hkw
    obtain ⟨v', hvdec, hvwire⟩ := decodeF_flat_one (m := m) hv
      (fun o ho => hres (.prim (.pstr k), vw) (List.mem_cons_self _ _) o ho)
    obtain ⟨vs, hvs, hwire⟩ := ih s
      (fun kv hkv => hflat kv (List.mem_cons_of_mem _ hkv))
      (fun kv hkv => hres kv (List.mem_cons_of_mem _ hkv))
    refine ⟨(k, v') :: vs, ?_, ?_⟩
    · simp only [mapDecPairs]
      rw [show decodeF (m + 1) (.prim (.pstr k)) s =
        .ok (.prim (.pstr k), s) from rfl, ebind_ok, hvdec, ebind_ok, hvs,
        ebind_ok]
      rfl
    · simp only [wireF]
      rw [obind_eq_some]
      refine ⟨v', hvwire, ?_⟩
      rw [obind_eq_some]
      exact ⟨vs, hwire, rfl⟩

end GenoshaDecoder
namespace GenoshaDecoder

open GenoshaEncoder (ebind_ok)

theorem queue_addr_inj {l : List PopItem}
    (hnd : (l.map PopItem.addr).Nodup) {x y : PopItem}
    (hx : x ∈ l) (hy : y ∈ l) (he : x.addr = y.addr) : x = y :=
  List.inj_on_of_nodup_map hnd hx hy he

theorem filterMap_strKeys {g : PValue × PValue → Option (List Char × PValue)}
    (hg : ∀ k v, g (PValue.prim (.pstr k), v) = some (k, v)) :
    ∀ vs : List (List Char × PValue),
    (vs.map fun kv => (PValue.prim (.pstr kv.1), kv.2)).filterMap g = vs := by
  intro vs
  induction vs with
  | nil => rfl
  | cons kv vs ih =>
    simp only [List.map_cons, List.filterMap_cons, hg kv.1 kv.2]
    rw [ih]

theorem dinv_pop {h : Heap} {pid : List (Nat × Nat)} {reg : List Nat}
    {s : DecState} {d : PopItem} {rest : List PopItem} {ext : List PObj}
    {newobj : PObj} {a i : Nat}
    (hsnd : (pid.map Prod.snd).Nodup)
    (hq : s.toPopulate = d :: rest)
    (hinv : DInv h pid s reg)
    (hmem : (a, i) ∈ pid)
    (hlk : s.objects.lookup i = some (.ref d.addr))
    (hmir : MirObj h pid (fun o => s.objects.lookup o)
      ((s.heap ++ ext).set d.addr newobj) a d.addr) :
    DInv h pid ⟨(s.heap ++ ext).set d.addr newobj, s.objects, rest⟩ reg := by
  obtain ⟨hdom, hids, hqk, hnd, hbnd, hinj⟩ := hinv
  have hrest : ∀ e ∈ rest, e ∈ s.toPopulate := by
    intro e he
    rw [hq]
    exact List.mem_cons_of_mem _ he
  have hndc : (d.addr :: rest.map PopItem.addr).Nodup := by
    rw [hq] at hnd
    simpa using hnd
  have hndr : (rest.map PopItem.addr).Nodup := (List.nodup_cons.mp hndc).2
  have hdnm : d.addr ∉ rest.map PopItem.addr := (List.nodup_cons.mp hndc).1
  refine ⟨hdom, ?_, ?_, hndr, ?_, hinj⟩
  · intro a0 i0 hm0 hr0
    obtain ⟨da0, hlk0, hb0, hst0⟩ := hids a0 i0 hm0 hr0
    refine ⟨da0, hlk0, ?_, ?_⟩
    · show da0 < ((s.heap ++ ext).set d.addr newobj).length
      rw [List.length_set, List.length_append]
      omega
    · by_cases hda0 : da0 = d.addr
      · subst hda0
        have hieq : i0 = i := hinj i0 i d.addr hlk0 hlk
        subst hieq
        have ha0 : a0 = a := GenoshaEncoder.snd_inj_nodup hsnd hm0 hmem
        subst ha0
        refine Or.inl ⟨hmir, ?_⟩
        intro e he hea
        exact hdnm (hea ▸ List.mem_map_of_mem PopItem.addr he)
      · have hgetp : ((s.heap ++ ext).set d.addr newobj)[da0]? =
            s.heap[da0]? := by
          rw [GenoshaEncoder.getElem_set_ne _ _ _ hda0, getElem_app_lt hb0]
        rcases hst0 with ⟨hm1, hn1⟩ | ⟨hs1, e1, he1, hea1, hp1⟩
        · exact Or.inl ⟨mirObj_mono (fun o x hx => hx) hgetp hm1,
            fun e he => hn1 e (hrest e he)⟩
        · have he1' : e1 ∈ rest := by
            rw [hq] at he1
            rcases List.mem_cons.mp he1 with he1 | he1
            · exfalso
              rw [he1] at hea1
              exact hda0 hea1.symm
            · exact he1
          refine Or.inr ⟨?_, e1, he1', hea1, hp1⟩
          show ((s.heap ++ ext).set d.addr newobj)[da0]? = emptyShell h a0
          rw [hgetp]
          exact hs1
  · intro e he
    exact hqk e (hrest e he)
  · intro i0 da0 hlk0
    have := hbnd i0 da0 hlk0
    show da0 < ((s.heap ++ ext).set d.addr newobj).length
    rw [List.length_set, List.length_append]
    omega

theorem populate_step {h : Heap} {pid : List (Nat × Nat)} {nR : Nat}
    {reg : List Nat} {s : DecState} {d : PopItem} {rest : List PopItem}
    (hsnd : (pid.map Prod.snd).Nodup)
    (hq : s.toPopulate = d :: rest)
    (hcov : ∀ p ∈ pid, p.2 ∈ reg)
    (hinv : DInv h pid s reg) :
    ∃ s', populate_object (decodeF (nR + 2)) d.addr d.pitems d.pfields
        ⟨s.heap, s.objects, rest⟩ = .ok s' ∧
      s'.toPopulate = rest ∧ s'.objects = s.objects ∧ DInv h pid s' reg := by
  have hdq : d ∈ s.toPopulate := by
    rw [hq]
    exact List.mem_cons_self _ _
  obtain ⟨a, i, hmem, hlk⟩ := hinv.2.2.1 d hdq
  have hireg : i ∈ reg := (hinv.1 i).mp (by simp [hlk])
  obtain ⟨da, hlk2, hbound, hstate⟩ := hinv.2.1 a i hmem hireg
  have hdaeq : da = d.addr := by
    rw [hlk] at hlk2
    exact (PValue.ref.inj (Option.some.inj hlk2)).symm
  subst hdaeq
  rcases hstate with ⟨hmir0, hnq0⟩ | ⟨hsh, e', he', hea', hpend'⟩
  · exact absurd rfl (hnq0 d hdq)
  have hed : e' = d := queue_addr_inj hinv.2.2.2.1 he' hdq hea'
  have hpend2 : Pend h pid d a := hed ▸ hpend'
  have hdlt : d.addr < s.heap.length := hbound
  unfold Pend at hpend2
  split at hpend2
  · -- list
    rename_i xs heq
    obtain ⟨gs, hgs, hit, hfl⟩ := hpend2
    have hsh' : s.heap[d.addr]? = some (PObj.plist []) := by
      rw [hsh]
      simp [emptyShell, heq]
    have hres : ∀ o, WValue.ref o ∈ gs →
        (((⟨s.heap, s.objects, rest⟩ : DecState)).objects.lookup o).isSome =
          true := by
      intro o ho
      obtain ⟨b, hb⟩ := encL_ref_pid hgs o ho
      exact (hinv.1 o).mpr (hcov (b, o) hb)
    obtain ⟨vs, hmap, hwire⟩ := mapDec_flat (m := nR) gs
      ⟨s.heap, s.objects, rest⟩ (encL_flat hgs) hres
    have h1 : decodeF (nR + 2) (.wlist gs)
        (⟨s.heap, s.objects, rest⟩ : DecState) =
        .ok (.ref s.heap.length,
          ⟨s.heap ++ [PObj.plist vs], s.objects, rest⟩) := by
      have e0 : decodeF (nR + 2) (.wlist gs)
          (⟨s.heap, s.objects, rest⟩ : DecState) =
          _unmarshalStep (decodeF (nR + 1)) (.wlist gs)
            ⟨s.heap, s.objects, rest⟩ := rfl
      rw [e0]
      simp only [_unmarshalStep]
      rw [hmap, ebind_ok]
      rfl
    have h2 : iterElems
        (⟨s.heap ++ [PObj.plist vs], s.objects, rest⟩ : DecState)
        (.ref s.heap.length) = .ok vs := by
      simp only [iterElems]
      rw [show (s.heap ++ [PObj.plist vs])[s.heap.length]? =
        some (PObj.plist vs) from GenoshaEncoder.getElem_concat_self _ _]
    have hpi : populateItems (decodeF (nR + 2)) d.addr (some (.wlist gs))
        ⟨s.heap, s.objects, rest⟩ =
        .ok ⟨(s.heap ++ [PObj.plist vs]).set d.addr (PObj.plist vs),
          s.objects, rest⟩ := by
      simp only [populateItems]
      rw [show (⟨s.heap, s.objects, rest⟩ : DecState).heap[d.addr]? =
        some (PObj.plist []) from hsh']
      dsimp only
      rw [h1, ebind_ok]
      dsimp only
      rw [h2, ebind_ok]
      rfl
    have hset : ((s.heap ++ [PObj.plist vs]).set d.addr
        (PObj.plist vs))[d.addr]? = some (PObj.plist vs) :=
      GenoshaEncoder.getElem_set_self
        (by rw [List.length_append]; simp; omega)
    have hpf : populateFields (decodeF (nR + 2)) d.addr (some [])
        ⟨(s.heap ++ [PObj.plist vs]).set d.addr (PObj.plist vs), s.objects,
          rest⟩ =
        .ok ⟨(s.heap ++ [PObj.plist vs]).set d.addr (PObj.plist vs),
          s.objects, rest⟩ := by
      simp only [populateFields]
      rw [show (⟨(s.heap ++ [PObj.plist vs]).set d.addr (PObj.plist vs),
        s.objects, rest⟩ : DecState).heap[d.addr]? = some (PObj.plist vs)
        from hset]
    have hpo : populate_object (decodeF (nR + 2)) d.addr d.pitems d.pfields
        ⟨s.heap, s.objects, rest⟩ =
        .ok ⟨(s.heap ++ [PObj.plist vs]).set d.addr (PObj.plist vs),
          s.objects, rest⟩ := by
      unfold populate_object
      rw [hit, hfl, hpi, ebind_ok, hpf]
    have hmobj : MirObj h pid (fun o => s.objects.lookup o)
        ((s.heap ++ [PObj.plist vs]).set d.addr (PObj.plist vs)) a
        d.addr := by
      unfold MirObj
      rw [heq]
      refine ⟨vs, hset, ?_⟩
      rw [← wireL_of_encL hgs]
      exact hwire
    exact ⟨_, hpo, rfl, rfl, dinv_pop hsnd hq hinv hmem hlk hmobj⟩
  · -- dict
    rename_i kvs heq
    obtain ⟨gp, hgp, hit, hfl⟩ := hpend2
    have hsh' : s.heap[d.addr]? = some (PObj.pdict []) := by
      rw [hsh]
      simp [emptyShell, heq]
    have hres : ∀ kv ∈ gp, ∀ o,
        (kv.1 = WValue.ref o ∨ kv.2 = WValue.ref o) →
        (((⟨s.heap, s.objects, rest⟩ : DecState)).objects.lookup o).isSome =
          true := by
      intro kv hkv o ho
      obtain ⟨b, hb⟩ := encP_ref_pid hgp kv hkv o ho
      exact (hinv.1 o).mpr (hcov (b, o) hb)
    obtain ⟨ps, hmap, hwire⟩ := mapDecPairs_flat (m := nR) gp
      ⟨s.heap, s.objects, rest⟩ (encP_flat hgp) hres
    have h1 : decodeF (nR + 2) (.wdict gp)
        (⟨s.heap, s.objects, rest⟩ : DecState) =
        .ok (.ref s.heap.length,
          ⟨s.heap ++ [PObj.pdict ps], s.objects, rest⟩) := by
      have e0 : decodeF (nR + 2) (.wdict gp)
          (⟨s.heap, s.objects, rest⟩ : DecState) =
          _unmarshalStep (decodeF (nR + 1)) (.wdict gp)
            ⟨s.heap, s.objects, rest⟩ := rfl
      rw [e0]
      simp only [_unmarshalStep]
      rw [hmap, ebind_ok]
      rfl
    have h2 : updatePairs
        (⟨s.heap ++ [PObj.pdict ps], s.objects, rest⟩ : DecState)
        (.ref s.heap.length) = .ok ps := by
      simp only [updatePairs]
      rw [show (s.heap ++ [PObj.pdict ps])[s.heap.length]? =
        some (PObj.pdict ps) from GenoshaEncoder.getElem_concat_self _ _]
    have hpi : populateItems (decodeF (nR + 2)) d.addr (some (.wdict gp))
        ⟨s.heap, s.objects, rest⟩ =
        .ok ⟨(s.heap ++ [PObj.pdict ps]).set d.addr (PObj.pdict ps),
          s.objects, rest⟩ := by
      simp only [populateItems]
      rw [show (⟨s.heap, s.objects, rest⟩ : DecState).heap[d.addr]? =
        some (PObj.pdict []) from hsh']
      dsimp only
      rw [h1, ebind_ok]
      dsimp only
      rw [h2, ebind_ok]
      rfl
    have hset : ((s.heap ++ [PObj.pdict ps]).set d.addr
        (PObj.pdict ps))[d.addr]? = some (PObj.pdict ps) :=
      GenoshaEncoder.getElem_set_self
        (by rw [List.length_append]; simp; omega)
    have hpf : populateFields (decodeF (nR + 2)) d.addr (some [])
        ⟨(s.heap ++ [PObj.pdict ps]).set d.addr (PObj.pdict ps), s.objects,
          rest⟩ =
        .ok ⟨(s.heap ++ [PObj.pdict ps]).set d.addr (PObj.pdict ps),
          s.objects, rest⟩ := by
      simp only [populateFields]
      rw [show (⟨(s.heap ++ [PObj.pdict ps]).set d.addr (PObj.pdict ps),
        s.objects, rest⟩ : DecState).heap[d.addr]? = some (PObj.pdict ps)
        from hset]
    have hpo : populate_object (decodeF (nR + 2)) d.addr d.pitems d.pfields
        ⟨s.heap, s.objects, rest⟩ =
        .ok ⟨(s.heap ++ [PObj.pdict ps]).set d.addr (PObj.pdict ps),
          s.objects, rest⟩ := by
      unfold populate_object
      rw [hit, hfl, hpi, ebind_ok, hpf]
    have hmobj : MirObj h pid (fun o => s.objects.lookup o)
        ((s.heap ++ [PObj.pdict ps]).set d.addr (PObj.pdict ps)) a
        d.addr := by
      unfold MirObj
      rw [heq]
      refine ⟨ps, hset, ?_⟩
      rw [← wireP_of_encP hgp]
      exact hwire
    exact ⟨_, hpo, rfl, rfl, dinv_pop hsnd hq hinv hmem hlk hmobj⟩
  · -- instance
    rename_i m0 p0 vis fs heq
    obtain ⟨gfs, hgfs, hit, hfl⟩ := hpend2
    have hsh' : s.heap[d.addr]? = some (PObj.pinst m0 p0 true []) := by
      rw [hsh]
      simp [emptyShell, heq]
    have hres : ∀ kv ∈ gfs, ∀ o, kv.2 = WValue.ref o →
        (((⟨s.heap, s.objects, rest⟩ : DecState)).objects.lookup o).isSome =
          true := by
      intro kv hkv o ho
      obtain ⟨b, hb⟩ := encF_ref_pid hgfs kv hkv o ho
      exact (hinv.1 o).mpr (hcov (b, o) hb)
    obtain ⟨vs, hmap, hwire⟩ := mapDecPairs_fields (m := nR + 1) gfs
      ⟨s.heap, s.objects, rest⟩ (encF_flat hgfs) hres
    have hmap2 : mapDecPairs (decodeF (nR + 2)) gfs
        ⟨s.heap, s.objects, rest⟩ =
        .ok (vs.map fun kv => (PValue.prim (.pstr kv.1), kv.2),
          ⟨s.heap, s.objects, rest⟩) := hmap
    have hpi : populateItems (decodeF (nR + 2)) d.addr none
        ⟨s.heap, s.objects, rest⟩ =
        .ok ⟨s.heap, s.objects, rest⟩ := rfl
    have hpf : populateFields (decodeF (nR + 2)) d.addr (some gfs)
        ⟨s.heap, s.objects, rest⟩ =
        .ok ⟨(s.heap ++
            [PObj.pdict (vs.map fun kv => (PValue.prim (.pstr kv.1), kv.2))]
          ).set d.addr (PObj.pinst m0 p0 true vs), s.objects, rest⟩ := by
      simp only [populateFields]
      rw [show (⟨s.heap, s.objects, rest⟩ : DecState).heap[d.addr]? =
        some (PObj.pinst m0 p0 true []) from hsh']
      dsimp only
      rw [hmap2, ebind_ok]
      dsimp only [alloc]
      rw [filterMap_strKeys (fun k v => rfl) vs]
      rfl
    have hset : ((s.heap ++
        [PObj.pdict (vs.map fun kv => (PValue.prim (.pstr kv.1), kv.2))]
      ).set d.addr (PObj.pinst m0 p0 true vs))[d.addr]? =
        some (PObj.pinst m0 p0 true vs) :=
      GenoshaEncoder.getElem_set_self
        (by rw [List.length_append]; simp; omega)
    have hpo : populate_object (decodeF (nR + 2)) d.addr d.pitems d.pfields
        ⟨s.heap, s.objects, rest⟩ =
        .ok ⟨(s.heap ++
            [PObj.pdict (vs.map fun kv => (PValue.prim (.pstr kv.1), kv.2))]
          ).set d.addr (PObj.pinst m0 p0 true vs), s.objects, rest⟩ := by
      unfold populate_object
      rw [hit, hfl, hpi, ebind_ok, hpf]
    have hmobj : MirObj h pid (fun o => s.objects.lookup o)
        ((s.heap ++
          [PObj.pdict (vs.map fun kv => (PValue.prim (.pstr kv.1), kv.2))]
        ).set d.addr (PObj.pinst m0 p0 true vs)) a d.addr := by
      unfold MirObj
      rw [heq]
      refine ⟨vs, hset, ?_⟩
      rw [← wireF_of_encF hgfs]
      exact hwire
    exact ⟨_, hpo, rfl, rfl, dinv_pop hsnd hq hinv hmem hlk hmobj⟩
  · exact absurd hpend2 (by simp)

end GenoshaDecoder
namespace GenoshaDecoder

open GenoshaEncoder (ebind_ok)

theorem dinv_init {h : Heap} {pid : List (Nat × Nat)} :
    DInv h pid ⟨[], [], []⟩ [] := by
  refine ⟨?_, ?_, ?_, ?_, ?_, ?_⟩
  · intro i
    simp [List.lookup]
  · intro a i _ hr
    exact absurd hr (List.not_mem_nil _)
  · intro e he
    exact absurd he (List.not_mem_nil _)
  · simp
  · intro i da hlk
    simp [List.lookup] at hlk
  · intro i i' da h1 h2
    simp [List.lookup] at h1

theorem findTypeOfValue_true (t : Tag) :
    GenoshaEncoder.findTypeOfValue t true = .ok t := by
  cases t <;> rfl

theorem populate_full {h : Heap} {pid : List (Nat × Nat)} {m : Nat}
    {reg : List Nat}
    (hsnd : (pid.map Prod.snd).Nodup)
    (hcov : ∀ p ∈ pid, p.2 ∈ reg) :
    ∀ (n : Nat) (s : DecState), s.toPopulate.length < n →
    DInv h pid s reg →
    ∃ s', populateLoopF (m + 2) n s = .ok s' ∧
      s'.objects = s.objects ∧ s'.toPopulate = [] ∧ DInv h pid s' reg := by
  intro n
  induction n with
  | zero =>
    intro s hlt _
    exact absurd hlt (Nat.not_lt_zero _)
  | succ n ih =>
    intro s hlt hinv
    cases hq : s.toPopulate with
    | nil =>
      refine ⟨s, ?_, rfl, hq, hinv⟩
      show populateLoopF (m + 2) (n + 1) s = .ok s
      simp only [populateLoopF]
      rw [hq]
    | cons d rest =>
      obtain ⟨s1, hpo, hq1, hobj1, hinv1⟩ := populate_step hsnd hq hcov hinv
      have hlen1 : s1.toPopulate.length < n := by
        rw [hq1]
        rw [hq] at hlt
        simp only [List.length_cons] at hlt
        omega
      obtain ⟨s2, hloop, hobj2, hq2, hinv2⟩ := ih s1 hlen1 hinv1
      refine ⟨s2, ?_, by rw [hobj2, hobj1], hq2, hinv2⟩
      show populateLoopF (m + 2) (n + 1) s = .ok s2
      simp only [populateLoopF]
      rw [hq]
      dsimp only
      rw [hpo, ebind_ok, hloop]

theorem unmarshal_mirror {h : Heap} {v : PValue} {payload : WValue}
    {s_f : GenoshaEncoder.EncState}
    (hEInv : GenoshaEncoder.EInv h s_f [])
    (hdef : s_f.deferred = [])
    (henc : GenoshaEncoder.encV s_f.pythonIds v = some payload) :
    ∃ fd hp pv,
      unmarshal fd
        [.prim (.pstr SENTINEL), .wlist s_f.objects, payload] =
        .ok (hp, pv) ∧
      ∃ mu, mirV s_f.pythonIds mu v = some pv ∧
        ∀ b o, (b, o) ∈ s_f.pythonIds → ∃ da, mu o = some (.ref da) ∧
          MirObj h s_f.pythonIds mu hp b da := by
  obtain ⟨hvis, hkn, hig, htbl, hpos, hdefT, hordT, hrnd, hcovO⟩ := hEInv
  have hsnd : (s_f.pythonIds.map Prod.snd).Nodup :=
    GenoshaEncoder.idsGood_snd_nodup hig
  have hRec : ∀ (k : Nat) (w : WValue), s_f.objects[k]? = some w →
      ∃ a i, (a, i) ∈ s_f.pythonIds ∧
        GenoshaEncoder.recordFor s_f.pythonIds h a i = some w := by
    intro k w hk
    rcases hpos k w hk with ⟨a, i, hmem, hrf⟩ | ⟨d, hd, _⟩ | ⟨e, he, _⟩
    · exact ⟨a, i, hmem, hrf⟩
    · rw [hdef] at hd
      exact absurd hd (List.not_mem_nil _)
    · exact absurd he (List.not_mem_nil _)
  have hOrdL : ∀ (k : Nat) (os : Option Nat) (gs : List WValue)
      (fl : Option (List (WValue × WValue))),
      s_f.objects[k]? =
        some (.wobj (some .ttuple) os (some (.wlist gs)) fl) →
      ∀ o ∈ GenoshaEncoder.wrefsL gs,
        o ∈ GenoshaEncoder.recordOids ([] ++ s_f.objects.take k) := by
    intro k os gs fl hk o ho
    exact hordT k os gs fl hk o ho
  have hndR : (GenoshaEncoder.recordOids ([] ++ s_f.objects)).Nodup := hrnd
  have hinv0 : DInv h s_f.pythonIds initState
      (GenoshaEncoder.recordOids ([] : List WValue)) := dinv_init
  obtain ⟨vs, s2, hmapR, hinv2, hle2, hql2, e2, hheap2⟩ :=
    records_loop (m := s_f.objects.length) hsnd s_f.objects []
      initState hRec hOrdL hndR hinv0
  have hinv2' : DInv h s_f.pythonIds s2
      (GenoshaEncoder.recordOids s_f.objects) := hinv2
  have hcovP : ∀ p ∈ s_f.pythonIds,
      p.2 ∈ GenoshaEncoder.recordOids s_f.objects := by
    intro p hp
    rcases htbl p.1 p.2 hp with hex | ⟨j, w, hjw, hrf⟩ | ⟨d, hd, _⟩
    · exact absurd hex (List.not_mem_nil _)
    · obtain ⟨t, it, fl, hwe⟩ := recordFor_oid hrf
      subst hwe
      exact GenoshaEncoder.oid_mem_recordOids hjw
    · rw [hdef] at hd
      exact absurd hd (List.not_mem_nil _)
  have hql : s2.toPopulate.length ≤ s_f.objects.length := by
    have h0 : initState.toPopulate.length = 0 := rfl
    omega
  have hinner : decodeF (s_f.objects.length + 4) (.wlist s_f.objects)
      initState = .ok (.ref s2.heap.length,
        ⟨s2.heap ++ [PObj.plist vs], s2.objects, s2.toPopulate⟩) := by
    have e0 : decodeF (s_f.objects.length + 4) (.wlist s_f.objects)
        initState = _unmarshalStep (decodeF (s_f.objects.length + 3))
          (.wlist s_f.objects) initState := rfl
    rw [e0]
    simp only [_unmarshalStep]
    have hmapR' : mapDec (decodeF (s_f.objects.length + 3)) s_f.objects
        initState = .ok (vs, s2) := hmapR
    rw [hmapR', ebind_ok]
    rfl
  have hsing : mapDec (decodeF (s_f.objects.length + 4)) [.wlist s_f.objects]
      initState = .ok ([.ref s2.heap.length],
        ⟨s2.heap ++ [PObj.plist vs], s2.objects, s2.toPopulate⟩) := by
    simp only [mapDec]
    rw [hinner, ebind_ok]
    rfl
  have hwrap : decodeF (s_f.objects.length + 5) (.wlist [.wlist s_f.objects])
      initState = .ok (.ref (s2.heap.length + 1),
        ⟨(s2.heap ++ [PObj.plist vs]) ++
            [PObj.plist [PValue.ref s2.heap.length]],
          s2.objects, s2.toPopulate⟩) := by
    have e1 : decodeF (s_f.objects.length + 5)
        (.wlist [.wlist s_f.objects]) initState =
        _unmarshalStep (decodeF (s_f.objects.length + 4))
          (.wlist [.wlist s_f.objects]) initState := rfl
    rw [e1]
    simp only [_unmarshalStep]
    rw [hsing, ebind_ok]
    show Except.ok (PValue.ref (s2.heap ++ [PObj.plist vs]).length, _) = _
    rw [List.length_append]
    rfl
  have hinv2b : DInv h s_f.pythonIds
      ⟨(s2.heap ++ [PObj.plist vs]) ++
          [PObj.plist [PValue.ref s2.heap.length]],
        s2.objects, s2.toPopulate⟩
      (GenoshaEncoder.recordOids s_f.objects) := by
    have hstep1 := dinv_heap_append (L := [PObj.plist vs]) hinv2'
    exact dinv_heap_append
      (L := [PObj.plist [PValue.ref s2.heap.length]]) hstep1
  obtain ⟨pv, hpd, hwd⟩ := decodeF_flat_one
    (m := s_f.objects.length + 4)
    (g := payload)
    (s := ⟨(s2.heap ++ [PObj.plist vs]) ++
        [PObj.plist [PValue.ref s2.heap.length]],
      s2.objects, s2.toPopulate⟩)
    (encV_flat henc)
    (by
      intro o ho
      obtain ⟨b, hb⟩ := encV_ref_pid (ho ▸ henc)
      exact (hinv2b.1 o).mpr (hcovP (b, o) hb))
  obtain ⟨sF, hloop, hobjF, hqF, hinvF⟩ :=
    populate_full (m := s_f.objects.length + 3) hsnd hcovP
      (s_f.objects.length + 5)
      ⟨(s2.heap ++ [PObj.plist vs]) ++
          [PObj.plist [PValue.ref s2.heap.length]],
        s2.objects, s2.toPopulate⟩
      (by
        show s2.toPopulate.length < s_f.objects.length + 5
        omega)
      hinv2b
  have hloop2 : populateLoopF (s_f.objects.length + 5)
      (s_f.objects.length + 5)
      ⟨(s2.heap ++ [PObj.plist vs]) ++
          [PObj.plist [PValue.ref s2.heap.length]],
        s2.objects, s2.toPopulate⟩ = .ok sF := hloop
  refine ⟨s_f.objects.length + 5, sF.heap, pv, ?_, ?_⟩
  · have e3 : unmarshal (s_f.objects.length + 5)
        [.prim (.pstr SENTINEL), .wlist s_f.objects, payload] =
        (if SENTINEL = SENTINEL then do
          let (_, s) ← decodeF (s_f.objects.length + 5)
            (.wlist [.wlist s_f.objects]) initState
          let (pv2, s) ← decodeF (s_f.objects.length + 5) payload s
          let s ← populateLoopF (s_f.objects.length + 5)
            (s_f.objects.length + 5) s
          Except.ok (s.heap, pv2)
        else .error .malformed) := rfl
    rw [e3, if_pos rfl, hwrap, ebind_ok]
    dsimp only
    have hpd' : decodeF (s_f.objects.length + 5) payload
        ⟨(s2.heap ++ [PObj.plist vs]) ++
            [PObj.plist [PValue.ref s2.heap.length]],
          s2.objects, s2.toPopulate⟩ =
        .ok (pv, ⟨(s2.heap ++ [PObj.plist vs]) ++
            [PObj.plist [PValue.ref s2.heap.length]],
          s2.objects, s2.toPopulate⟩) := hpd
    rw [hpd', ebind_ok]
    dsimp only
    rw [hloop2, ebind_ok]
  · refine ⟨fun o => sF.objects.lookup o, ?_, ?_⟩
    · have hmirv : mirV s_f.pythonIds
          (fun o => s2.objects.lookup o) v = some pv := by
        rw [← wire_of_encV henc]
        exact hwd
      rw [show (fun o => sF.objects.lookup o) =
        (fun o => s2.objects.lookup o) from by rw [hobjF]]
      exact hmirv
    · intro b o hbo
      have horeg : o ∈ GenoshaEncoder.recordOids s_f.objects :=
        hcovP (b, o) hbo
      obtain ⟨da, hlkda, hbda, hstate⟩ := hinvF.2.1 b o hbo horeg
      refine ⟨da, hlkda, ?_⟩
      rcases hstate with ⟨hmir, _⟩ | ⟨_, e, he, _, _⟩
      · exact hmir
      · rw [hqF] at he
        exact absurd he (List.not_mem_nil _)

end GenoshaDecoder
namespace GenoshaDecoder

theorem mirF_members {pid : List (Nat × Nat)} {mu : Nat → Option PValue} :
    ∀ {fs : List (List Char × PValue)} {gs : List (List Char × PValue)},
    mirF pid mu fs = some gs → ∀ kv ∈ gs, ∃ v0, (kv.1, v0) ∈ fs ∧
      mirV pid mu v0 = some kv.2 := by
  intro fs
  induction fs with
  | nil =>
    intro gs hg kv hkv
    cases Option.some.inj hg
    exact absurd hkv (List.not_mem_nil _)
  | cons kv0 fs ih =>
    intro gs hg kv hkv
    obtain ⟨k, v⟩ := kv0
    simp only [mirF] at hg
    rw [obind_eq_some] at hg
    obtain ⟨v', hv', hg⟩ := hg
    rw [obind_eq_some] at hg
    obtain ⟨vs', hvs, hg⟩ := hg
    cases Option.some.inj hg
    rcases List.mem_cons.mp hkv with hkv | hkv
    · subst hkv
      exact ⟨v, List.mem_cons_self _ _, hv'⟩
    · obtain ⟨v0, hmem, hm⟩ := ih hvs kv hkv
      exact ⟨v0, List.mem_cons_of_mem _ hmem, hm⟩

theorem mir_not_callable {h hp : Heap} {pid : List (Nat × Nat)}
    {mu : Nat → Option PValue}
    (hmirall : ∀ b o, (b, o) ∈ pid → ∃ da, mu o = some (.ref da) ∧
      MirObj h pid mu hp b da)
    {v0 val : PValue}
    (hnc : GenoshaEncoder.isCallable h v0 = false)
    (hm : mirV pid mu v0 = some val) :
    GenoshaEncoder.isCallable hp val = false := by
  cases v0 with
  | prim p =>
    cases Option.some.inj hm
    rfl
  | ref b =>
    simp only [mirV] at hm
    rw [Option.bind_eq_some] at hm
    obtain ⟨o, hlk, hmu⟩ := hm
    obtain ⟨da, hmu2, hmob⟩ := hmirall b o (GenoshaEncoder.lookup_mem hlk)
    rw [hmu] at hmu2
    cases Option.some.inj hmu2
    unfold MirObj at hmob
    split at hmob
    · obtain ⟨ys, hpda, _⟩ := hmob
      simp [GenoshaEncoder.isCallable, hpda]
    · obtain ⟨ys, hpda, _⟩ := hmob
      simp [GenoshaEncoder.isCallable, hpda]
    · obtain ⟨qs, hpda, _⟩ := hmob
      simp [GenoshaEncoder.isCallable, hpda]
    · obtain ⟨gs, hpda, _⟩ := hmob
      simp [GenoshaEncoder.isCallable, hpda]
    · rename_i name m p vis clos heq
      simp [GenoshaEncoder.isCallable, heq] at hnc
    · rename_i t vis heq
      simp [GenoshaEncoder.isCallable, heq] at hnc
    · exact hmob.elim

theorem treePres {h hp : Heap} {pid : List (Nat × Nat)}
    {mu : Nat → Option PValue}
    (hmirall : ∀ b o, (b, o) ∈ pid → ∃ da, mu o = some (.ref da) ∧
      MirObj h pid mu hp b da) :
    ∀ (n : Nat) (v : PValue) (t : VTree) (pv : PValue),
    toTreeF h n v = some t → mirV pid mu v = some pv →
    toTreeF hp n pv = some t := by
  intro n
  induction n with
  | zero =>
    intro v t pv ht _
    exact absurd ht (by simp [toTreeF])
  | succ n ih =>
    have ihL : ∀ (xs : List PValue) (ts : List VTree) (ys : List PValue),
        treeL (toTreeF h n) xs = some ts → mirL pid mu xs = some ys →
        treeL (toTreeF hp n) ys = some ts := by
      intro xs
      induction xs with
      | nil =>
        intro ts ys h1 h2
        cases Option.some.inj h1
        cases Option.some.inj h2
        rfl
      | cons x xs ihx =>
        intro ts ys h1 h2
        simp only [treeL] at h1
        rw [obind_eq_some] at h1
        obtain ⟨t1, ht1, h1⟩ := h1
        rw [obind_eq_some] at h1
        obtain ⟨ts1, hts1, h1⟩ := h1
        cases Option.some.inj h1
        simp only [mirL] at h2
        rw [obind_eq_some] at h2
        obtain ⟨y1, hy1, h2⟩ := h2
        rw [obind_eq_some] at h2
        obtain ⟨ys1, hys1, h2⟩ := h2
        cases Option.some.inj h2
        simp only [treeL]
        rw [obind_eq_some]
        refine ⟨t1, ih x t1 y1 ht1 hy1, ?_⟩
        rw [obind_eq_some]
        exact ⟨ts1, ihx ts1 ys1 hts1 hys1, rfl⟩
    have ihP : ∀ (kvs : List (PValue × PValue)) (ps : List (VTree × VTree))
        (qs : List (PValue × PValue)),
        treeP (toTreeF h n) kvs = some ps → mirP pid mu kvs = some qs →
        treeP (toTreeF hp n) qs = some ps := by
      intro kvs
      induction kvs with
      | nil =>
        intro ps qs h1 h2
        cases Option.some.inj h1
        cases Option.some.inj h2
        rfl
      | cons kv kvs ihx =>
        intro ps qs h1 h2
        obtain ⟨k, v⟩ := kv
        simp only [treeP] at h1
        rw [obind_eq_some] at h1
        obtain ⟨kt, hkt, h1⟩ := h1
        rw [obind_eq_some] at h1
        obtain ⟨vt, hvt, h1⟩ := h1
        rw [obind_eq_some] at h1
        obtain ⟨ps1, hps1, h1⟩ := h1
        cases Option.some.inj h1
        simp only [mirP] at h2
        rw [obind_eq_some] at h2
        obtain ⟨k', hk', h2⟩ := h2
        rw [obind_eq_some] at h2
        obtain ⟨v', hv', h2⟩ := h2
        rw [obind_eq_some] at h2
        obtain ⟨qs1, hqs1, h2⟩ := h2
        cases Option.some.inj h2
        simp only [treeP]
        rw [obind_eq_some]
        refine ⟨kt, ih k kt k' hkt hk', ?_⟩
        rw [obind_eq_some]
        refine ⟨vt, ih v vt v' hvt hv', ?_⟩
        rw [obind_eq_some]
        exact ⟨ps1, ihx ps1 qs1 hps1 hqs1, rfl⟩
    have ihF : ∀ (fs : List (List Char × PValue))
        (fts : List (List Char × VTree)) (gs : List (List Char × PValue)),
        treeFs (toTreeF h n) fs = some fts → mirF pid mu fs = some gs →
        treeFs (toTreeF hp n) gs = some fts := by
      intro fs
      induction fs with
      | nil =>
        intro fts gs h1 h2
        cases Option.some.inj h1
        cases Option.some.inj h2
        rfl
      | cons kv fs ihx =>
        intro fts gs h1 h2
        obtain ⟨k, v⟩ := kv
        simp only [treeFs] at h1
        rw [obind_eq_some] at h1
        obtain ⟨vt, hvt, h1⟩ := h1
        rw [obind_eq_some] at h1
        obtain ⟨ts1, hts1, h1⟩ := h1
        cases Option.some.inj h1
        simp only [mirF] at h2
        rw [obind_eq_some] at h2
        obtain ⟨v', hv', h2⟩ := h2
        rw [obind_eq_some] at h2
        obtain ⟨gs1, hgs1, h2⟩ := h2
        cases Option.some.inj h2
        simp only [treeFs]
        rw [obind_eq_some]
        refine ⟨vt, ih v vt v' hvt hv', ?_⟩
        rw [obind_eq_some]
        exact ⟨ts1, ihx ts1 gs1 hts1 hgs1, rfl⟩
    intro v t pv ht hm
    cases v with
    | prim p =>
      cases Option.some.inj hm
      simpa only [toTreeF] using ht
    | ref a =>
      simp only [mirV] at hm
      rw [Option.bind_eq_some] at hm
      obtain ⟨o, hlk, hmu⟩ := hm
      obtain ⟨da, hmu2, hmob⟩ := hmirall a o (GenoshaEncoder.lookup_mem hlk)
      rw [hmu] at hmu2
      cases Option.some.inj hmu2
      simp only [toTreeF] at ht
      unfold MirObj at hmob
      split at ht
      · -- plist
        rename_i xs heq
        rw [heq] at hmob
        rw [Option.map_eq_some'] at ht
        obtain ⟨ts, hts, hteq⟩ := ht
        subst hteq
        have hmob2 : ∃ ys, hp[da]? = some (.plist ys) ∧
            mirL pid mu xs = some ys := hmob
        obtain ⟨ys, hpda, hmirL⟩ := hmob2
        simp only [toTreeF]
        rw [hpda]
        dsimp only
        rw [ihL xs ts ys hts hmirL]
        rfl
      · -- ptuple
        rename_i xs heq
        rw [heq] at hmob
        rw [Option.map_eq_some'] at ht
        obtain ⟨ts, hts, hteq⟩ := ht
        subst hteq
        have hmob2 : ∃ ys, hp[da]? = some (.ptuple ys) ∧
            mirL pid mu xs = some ys := hmob
        obtain ⟨ys, hpda, hmirL⟩ := hmob2
        simp only [toTreeF]
        rw [hpda]
        dsimp only
        rw [ihL xs ts ys hts hmirL]
        rfl
      · -- pdict
        rename_i kvs heq
        rw [heq] at hmob
        rw [Option.map_eq_some'] at ht
        obtain ⟨ps, hps, hteq⟩ := ht
        subst hteq
        have hmob2 : ∃ qs, hp[da]? = some (.pdict qs) ∧
            mirP pid mu kvs = some qs := hmob
        obtain ⟨qs, hpda, hmirP⟩ := hmob2
        simp only [toTreeF]
        rw [hpda]
        dsimp only
        rw [ihP kvs ps qs hps hmirP]
        rfl
      · -- pinst
        rename_i m p vis fs heq
        rw [heq] at hmob
        split at ht
        · rw [Option.map_eq_some'] at ht
          obtain ⟨fts, hfts, hteq⟩ := ht
          subst hteq
          have hmob2 : ∃ gs, hp[da]? = some (.pinst m p true gs) ∧
              mirF pid mu (GenoshaEncoder.filteredFields h a) = some gs :=
            hmob
          obtain ⟨gs, hpda, hmirF⟩ := hmob2
          have hpyf : GenoshaEncoder.pyFields hp da = gs := by
            simp [GenoshaEncoder.pyFields, hpda]
          have hfilter : GenoshaEncoder.filteredFields hp da = gs := by
            unfold GenoshaEncoder.filteredFields
            rw [hpyf]
            apply List.filter_eq_self.mpr
            intro kv hkv
            obtain ⟨v0, hv0mem, hv0mir⟩ := mirF_members hmirF kv hkv
            unfold GenoshaEncoder.filteredFields at hv0mem
            have hpred := List.of_mem_filter hv0mem
            simp only [Bool.and_eq_true, Bool.not_eq_true'] at hpred
            have h1 : GenoshaEncoder.isCallable h v0 = false := hpred.2
            have h2 := mir_not_callable hmirall h1 hv0mir
            simp only [Bool.and_eq_true, Bool.not_eq_true']
            exact ⟨hpred.1, h2⟩
          simp only [toTreeF]
          rw [hpda]
          dsimp only
          rw [if_pos rfl, hfilter,
            ihF (GenoshaEncoder.filteredFields h a) fts gs hfts hmirF]
          rfl
        · exact absurd ht (by simp)
      · -- pfunc
        rename_i name m p vis clos heq
        rw [heq] at hmob
        split at ht
        · cases Option.some.inj ht
          have hmob2 : hp[da]? = some (.pglobal (.tuser m p) true) := hmob
          simp only [toTreeF]
          rw [hmob2]
          dsimp only
          rw [findTypeOfValue_true]
        · exact absurd ht (by simp)
      · -- pglobal
        rename_i t0 vis heq
        rw [heq] at hmob
        split at ht
        · rename_i t' hft
          cases Option.some.inj ht
          have hmob2 : hp[da]? = some (.pglobal t0 true) := hmob
          have ht0 : t' = t0 := findTypeOfValue_ok_eq hft
          subst ht0
          simp only [toTreeF]
          rw [hmob2]
          dsimp only
          rw [findTypeOfValue_true]
        · exact absurd ht (by simp)
      · exact absurd ht (by simp)

end GenoshaDecoder

